import Mathlib

/-!
# Punybuf: a verification development

A shallow embedding of the `punybuf` schema compiler (`pbd`) and its runtime
serialization library (`rust-punybuf_common`), with theorems about the
wire-format codec, the flattener, the validator, the layer resolver and the
JSON emitter.

Conventions used throughout the embedding:

* Rust `u64`/`u32`/`u8`/`usize` values are modelled as `Nat`; where overflow
  or the domain bound matters it appears as an explicit hypothesis or an
  explicit `% 2^w`.
* Byte streams (`Read`/`Write`) are modelled as `List Nat` of byte values;
  a serializer returns the bytes written, a deserializer consumes a prefix
  of the list and returns the remaining suffix.
* Fallible Rust code (`io::Result`, `Result<_, PunybufError>`, panics via
  `panic!`/`expect`) is modelled with `Except String` carrying the error or
  panic message.  Loops whose termination is not structural take an explicit
  fuel argument; running out of fuel yields the distinguished error message
  `"out of fuel (model artifact)"`, which never occurs in the real program's
  reachable executions.
* `Span` values (source locations) and the `file_contents` blobs are purely
  diagnostic and are omitted from the embedded data structures; a
  `HashMap<String, Option<String>>` of attributes is modelled as an
  association list in insertion order.
-/

namespace Punybuf

/-! ## Wire-format primitives (`rust-punybuf_common/src/lib.rs`) -/

/-- Big-endian byte decomposition of a `u64` (`u64::to_be_bytes`), most
significant byte first: byte `i` is `n / 2^(8*(7-i)) % 256`. -/
def toBeBytes (n : Nat) : List Nat :=
  [n / 2 ^ 56 % 256, n / 2 ^ 48 % 256, n / 2 ^ 40 % 256, n / 2 ^ 32 % 256,
   n / 2 ^ 24 % 256, n / 2 ^ 16 % 256, n / 2 ^ 8 % 256, n % 256]

/-- `bytes[0] |= mask` on a byte slice. -/
def orFirstByte (mask : Nat) : List Nat → List Nat
  | [] => []
  | b :: bs => (b ||| mask) :: bs

/-- `UInt::serialize` (`lib.rs` lines 146-179): variable-length encoding of a
`u64`, returning the bytes written to the writer.  Each branch takes a tail
slice of the big-endian representation of the offset-adjusted value and ORs
the length prefix into its first byte. -/
def uintSerialize (n : Nat) : Except String (List Nat) :=
  if n < 128 then
    .ok ((toBeBytes n).drop 7)
  else if n < 16512 then
    .ok (orFirstByte 0b10000000 ((toBeBytes (n - 128)).drop 6))
  else if n < 2113664 then
    .ok (orFirstByte 0b11000000 ((toBeBytes (n - 16512)).drop 5))
  else if n < 68721590400 then
    .ok (orFirstByte 0b11100000 ((toBeBytes (n - 2113664)).drop 3))
  else if n < 1152921573328437376 then
    .ok (orFirstByte 0b11110000 (toBeBytes (n - 68721590400)))
  else
    .error "number too big (max 1152921573328437375)"

/-- `UInt::deserialize` (`lib.rs` lines 180-218).  The first byte selects the
branch; the remaining bytes are assembled exactly as the source's
`u64::from_le_bytes([...])` calls do (the slices are listed there least
significant byte first, so byte `buf[k]` contributes with weight `2^(8*(k-1))`
below the masked first byte).  Returns the decoded value and the unread
suffix; `none` models a failing `read_exact`. -/
def uintDeserialize (input : List Nat) : Option (Nat × List Nat) :=
  match input with
  | [] => none
  | first :: rest =>
    if first >>> 7 = 0 then
      -- 0xxxxxxx
      some (first, rest)
    else if first &&& 0b01000000 = 0 then
      -- 10xxxxxx
      match rest with
      | b1 :: rest2 => some (b1 + (first &&& 0b00111111) * 2 ^ 8 + 128, rest2)
      | _ => none
    else if first &&& 0b00100000 = 0 then
      -- 110xxxxx
      match rest with
      | b1 :: b2 :: rest2 =>
        some (b2 + b1 * 2 ^ 8 + (first &&& 0b00011111) * 2 ^ 16 + 16512, rest2)
      | _ => none
    else if first &&& 0b00010000 = 0 then
      -- 1110xxxx
      match rest with
      | b1 :: b2 :: b3 :: b4 :: rest2 =>
        some (b4 + b3 * 2 ^ 8 + b2 * 2 ^ 16 + b1 * 2 ^ 24 +
          (first &&& 0b00001111) * 2 ^ 32 + 2113664, rest2)
      | _ => none
    else
      -- 1111xxxx
      match rest with
      | b1 :: b2 :: b3 :: b4 :: b5 :: b6 :: b7 :: rest2 =>
        some (b7 + b6 * 2 ^ 8 + b5 * 2 ^ 16 + b4 * 2 ^ 24 + b3 * 2 ^ 32 +
          b2 * 2 ^ 40 + b1 * 2 ^ 48 + (first &&& 0b00001111) * 2 ^ 56 +
          68721590400, rest2)
      | _ => none

/-- `MAX_BYTES_LENGTH`: build-time constant, `build.rs` default
`4294967296`. -/
def MAX_BYTES_LENGTH : Nat := 4294967296

/-- `MAX_ARRAY_LENGTH`: build-time constant, `build.rs` default `1000000`. -/
def MAX_ARRAY_LENGTH : Nat := 1000000

/-- `Bytes::deserialize` (`lib.rs` lines 346-358): reads a `UInt` length
prefix, rejects lengths above `MAX_BYTES_LENGTH`, then reads *up to* that many
bytes via `Read::take(len).read_to_end(..)` — which succeeds with however many
bytes the reader still has.  Returns the payload and the unread suffix. -/
def bytesDeserialize (input : List Nat) : Option (List Nat × List Nat) :=
  match uintDeserialize input with
  | none => none
  | some (len, rest) =>
    if len > MAX_BYTES_LENGTH then
      none
    else
      some (rest.take len, rest.drop len)

/-- `String::deserialize` (`lib.rs` lines 388-400): identical wire handling to
`Bytes::deserialize` except for the bound's error message and a final
`from_utf8_lossy` decode.  The decode is `std` behaviour outside this
repository and cannot shrink or grow the byte count on ASCII payloads; the
model returns the raw payload bytes read. -/
def stringDeserialize (input : List Nat) : Option (List Nat × List Nat) :=
  match uintDeserialize input with
  | none => none
  | some (len, rest) =>
    if len > MAX_BYTES_LENGTH then
      none
    else
      some (rest.take len, rest.drop len)

end Punybuf
namespace Punybuf

/-! ## Compiler data model (`pbd/src/flattener.rs`)

`Span` fields are omitted throughout (they only feed diagnostics), so an
`inline_owner : Option (String, Span)` becomes `Option String` and the
`name_span`/`generic_span`/... fields disappear.  The attribute map
`HashMap<String, Option<String>>` is modelled as an association list in
insertion order. -/

/-- `HashMap<String, Option<String>>` of attributes. -/
abbrev Attrs := List (String × Option String)

/-- `HashMap::contains_key`. -/
def Attrs.containsKey (a : Attrs) (k : String) : Bool :=
  a.any (fun p => p.1 == k)

/-- `HashMap::get` (by key). -/
def Attrs.getKey (a : Attrs) (k : String) : Option (Option String) :=
  (a.find? (fun p => p.1 == k)).map (·.2)

/-- `PBTypeRef` (`flattener.rs` lines 8-26). -/
inductive PBTypeRef where
  | mk (reference : String) (generics : List PBTypeRef)
       (resolved_layer : Option Nat) (is_highest_layer : Bool)
       (is_global : Bool)

def PBTypeRef.reference : PBTypeRef → String
  | .mk x _ _ _ _ => x

def PBTypeRef.generics : PBTypeRef → List PBTypeRef
  | .mk _ x _ _ _ => x

def PBTypeRef.resolved_layer : PBTypeRef → Option Nat
  | .mk _ _ x _ _ => x

def PBTypeRef.is_highest_layer : PBTypeRef → Bool
  | .mk _ _ _ x _ => x

def PBTypeRef.is_global : PBTypeRef → Bool
  | .mk _ _ _ _ x => x

/-- `PBFieldFlag` (`flattener.rs` lines 28-35). -/
structure PBFieldFlag where
  name : String
  value : Option PBTypeRef
  attrs : Attrs
  doc : String

/-- `PBField` (`flattener.rs` lines 37-45). -/
structure PBField where
  name : String
  value : PBTypeRef
  flags : Option (List PBFieldFlag)
  attrs : Attrs
  doc : String

/-- `PBEnumVariant` (`flattener.rs` lines 47-55); the discriminant is a
`u8`. -/
structure PBEnumVariant where
  name : String
  discriminant : Nat
  value : Option PBTypeRef
  attrs : Attrs
  doc : String

/-- `PBTypeDef` (`flattener.rs` lines 57-94).  The generic-parameter list is
called `generic_args` as in the resolver's and validator's pattern matches. -/
inductive PBTypeDef where
  | struct (name : String) (doc : String) (layer : Nat) (attrs : Attrs)
      (generic_args : List String) (fields : List PBField)
      (inline_owner : Option String) (is_highest_layer : Bool)
  | enum (name : String) (doc : String) (layer : Nat) (attrs : Attrs)
      (generic_args : List String) (variants : List PBEnumVariant)
      (inline_owner : Option String) (is_highest_layer : Bool)
  | «alias» (name : String) (doc : String) (layer : Nat) (attrs : Attrs)
      (generic_args : List String) (aliasBody : PBTypeRef)
      (is_highest_layer : Bool)

/-- `PBTypeDef::get_name` (span component omitted). -/
def PBTypeDef.get_name : PBTypeDef → String
  | .struct name _ _ _ _ _ _ _ => name
  | .enum name _ _ _ _ _ _ _ => name
  | .«alias» name _ _ _ _ _ _ => name

/-- `PBTypeDef::get_layer`. -/
def PBTypeDef.get_layer : PBTypeDef → Nat
  | .struct _ _ layer _ _ _ _ _ => layer
  | .enum _ _ layer _ _ _ _ _ => layer
  | .«alias» _ _ layer _ _ _ _ => layer

/-- `PBTypeDef::get_attrs`. -/
def PBTypeDef.get_attrs : PBTypeDef → Attrs
  | .struct _ _ _ attrs _ _ _ _ => attrs
  | .enum _ _ _ attrs _ _ _ _ => attrs
  | .«alias» _ _ _ attrs _ _ _ => attrs

/-- `PBTypeDef::get_generics` (span component omitted). -/
def PBTypeDef.get_generics : PBTypeDef → List String
  | .struct _ _ _ _ generic_args _ _ _ => generic_args
  | .enum _ _ _ _ generic_args _ _ _ => generic_args
  | .«alias» _ _ _ _ generic_args _ _ => generic_args

/-- `PBTypeDef::get_inline_owner` (aliases report `None`). -/
def PBTypeDef.get_inline_owner : PBTypeDef → Option String
  | .struct _ _ _ _ _ _ inline_owner _ => inline_owner
  | .enum _ _ _ _ _ _ inline_owner _ => inline_owner
  | .«alias» _ _ _ _ _ _ _ => none

/-- `PBTypeDef::get_doc`. -/
def PBTypeDef.get_doc : PBTypeDef → String
  | .struct _ doc _ _ _ _ _ _ => doc
  | .enum _ doc _ _ _ _ _ _ => doc
  | .«alias» _ doc _ _ _ _ _ => doc

/-- The resolver's layer bump `*layer = *changed_type.get_layer()`
(`resolver.rs` lines 193-199). -/
def PBTypeDef.with_layer : PBTypeDef → Nat → PBTypeDef
  | .struct name doc _ attrs ga fields io ih, l =>
      .struct name doc l attrs ga fields io ih
  | .enum name doc _ attrs ga variants io ih, l =>
      .enum name doc l attrs ga variants io ih
  | .«alias» name doc _ attrs ga aliasBody ih, l =>
      .«alias» name doc l attrs ga aliasBody ih

/-- Set the declaration-level `is_highest_layer` flag
(`resolver.rs` lines 464-470). -/
def PBTypeDef.with_is_highest_layer : PBTypeDef → Bool → PBTypeDef
  | .struct name doc layer attrs ga fields io _, b =>
      .struct name doc layer attrs ga fields io b
  | .enum name doc layer attrs ga variants io _, b =>
      .enum name doc layer attrs ga variants io b
  | .«alias» name doc layer attrs ga aliasBody _, b =>
      .«alias» name doc layer attrs ga aliasBody b

/-- `PBCommandArg` (`flattener.rs` lines 148-155). -/
inductive PBCommandArg where
  | none
  | ref (r : PBTypeRef)
  | struct (fields : List PBField)

/-- `PBCommandDef` (`flattener.rs` lines 157-171). -/
structure PBCommandDef where
  name : String
  argument : PBCommandArg
  attrs : Attrs
  doc : String
  layer : Nat
  command_id : Nat
  ret : PBTypeRef
  err : List PBEnumVariant
  is_highest_layer : Bool

/-- `PunybufDefinition` (`flattener.rs` lines 173-179). -/
structure PunybufDefinition where
  types : List PBTypeDef
  commands : List PBCommandDef
  includes_common : Bool
  context_inline_owner : Option String

/-! ## Command IDs (`PB_CRC`, the `crc` crate's `CRC_32_CKSUM`)

The `crc` crate is an external dependency; its `CRC_32_CKSUM` algorithm is
the POSIX-cksum CRC-32: width 32, polynomial `0x04C11DB7`, initial value 0,
no input/output reflection, final XOR `0xFFFFFFFF`, bytes processed most
significant bit first (check value `0x765E7680` on `"123456789"`). -/

/-- One shift step of the MSB-first CRC-32 bit loop. -/
def crc32Step (crc : Nat) : Nat :=
  if crc &&& 0x80000000 ≠ 0 then ((crc <<< 1) ^^^ 0x04C11DB7) &&& 0xFFFFFFFF
  else (crc <<< 1) &&& 0xFFFFFFFF

/-- Fold one input byte into the running CRC (eight bit steps). -/
def crc32Byte (crc b : Nat) : Nat :=
  let crc := crc ^^^ (b <<< 24)
  crc32Step (crc32Step (crc32Step (crc32Step
    (crc32Step (crc32Step (crc32Step (crc32Step crc)))))))

/-- `PB_CRC.checksum(bytes)` (`flattener.rs` line 6). -/
def pbCrc (bytes : List Nat) : Nat :=
  (bytes.foldl crc32Byte 0) ^^^ 0xFFFFFFFF

/-- The UTF-8 bytes of a schema identifier string.  Identifiers and layer
digits are ASCII, where UTF-8 bytes coincide with code points. -/
def strBytes (s : String) : List Nat :=
  s.data.map Char.toNat

/-- `PB_CRC.checksum(format!("{}.{}", name, layer).as_bytes())`
(`flattener.rs` line 404, `resolver.rs` line 205). -/
def commandIdOf (name : String) (layer : Nat) : Nat :=
  pbCrc (strBytes (name ++ "." ++ toString layer))

end Punybuf
namespace Punybuf

/-! ## The layer resolver (`pbd/src/resolver.rs`)

The `LayerResolver` struct holds `dependencies: HashMap<String,
HashSet<Dependant>>` and `should_resolve_aliases: bool`.  The dependency map
is threaded through explicitly as `Deps`, an association list in insertion
order whose value lists are duplicate-free (modelling `HashMap`/`HashSet`
iteration as insertion-ordered).  Rust's `?` operator and `expect` panics
appear as explicit matches on `Except`; functions whose recursion is not
visibly structural take a fuel argument named `gas`. -/

/-- `DependantKind` (`resolver.rs` lines 13-16). -/
inductive DependantKind where
  | type
  | command
deriving DecidableEq

/-- `Dependant` (`resolver.rs` lines 18-23). -/
structure Dependant where
  name : String
  layer : Nat
  kind : DependantKind
deriving DecidableEq

instance : BEq Dependant := ⟨fun a b => decide (a = b)⟩

/-- The resolver's `dependencies` map. -/
abbrev Deps := List (String × List Dependant)

/-- `HashMap` lookup in the dependency map. -/
def depsLookup (deps : Deps) (k : String) : Option (List Dependant) :=
  (deps.find? (fun p => p.1 == k)).map (·.2)

/-- `HashSet::insert` into the entry for `dependsOn`, creating the entry if
missing (`resolver.rs` lines 72-79). -/
def depsInsert (deps : Deps) (dependsOn : String) (dep : Dependant) : Deps :=
  match deps with
  | [] => [(dependsOn, [dep])]
  | (k, ds) :: rest =>
    if k == dependsOn then
      (k, if ds.contains dep then ds else ds ++ [dep]) :: rest
    else
      (k, ds) :: depsInsert rest dependsOn dep

/-- `LayerResolver::new_dependant_string` (`resolver.rs` lines 66-80):
self-dependencies (`Type = Type` builtins) are skipped. -/
def newDependantString (deps : Deps) (dependsOn : String) (dependant : Dependant) : Deps :=
  if dependsOn == dependant.name then deps
  else depsInsert deps dependsOn dependant

mutual
/-- `LayerResolver::new_dependant` (`resolver.rs` lines 53-65): a non-global
reference records nothing; a global one records the dependant under its name
and, recursively, under every reference in its generic arguments. -/
def newDependant (dependant : Dependant) : Deps → PBTypeRef → Deps
  | deps, .mk name gens _ _ isGlobal =>
    if !isGlobal then deps
    else newDependantList dependant (newDependantString deps name dependant) gens
def newDependantList (dependant : Dependant) : Deps → List PBTypeRef → Deps
  | deps, [] => deps
  | deps, g :: gs => newDependantList dependant (newDependant dependant deps g) gs
end

/-- `LayerResolver::analyze_struct_dependencies` (`resolver.rs` lines
81-95). -/
def analyzeStructDependencies (deps : Deps) (fields : List PBField)
    (dependant : Dependant) : Deps :=
  fields.foldl (fun deps field =>
    let deps := newDependant dependant deps field.value
    match field.flags with
    | none => deps
    | some flags =>
      flags.foldl (fun deps flag =>
        match flag.value with
        | none => deps
        | some refr => newDependant dependant deps refr) deps) deps

/-- `LayerResolver::analyze_enum_dependencies` (`resolver.rs` lines
96-102). -/
def analyzeEnumDependencies (deps : Deps) (variants : List PBEnumVariant)
    (dependant : Dependant) : Deps :=
  variants.foldl (fun deps variant =>
    match variant.value with
    | none => deps
    | some refr => newDependant dependant deps refr) deps

/-- `LayerResolver::analyze_type_dependencies` (`resolver.rs` lines
103-120). -/
def analyzeTypeDependencies (deps : Deps) (tp : PBTypeDef) : Deps :=
  let dep : Dependant := ⟨tp.get_name, tp.get_layer, .type⟩
  match tp with
  | .struct _ _ _ _ _ fields _ _ => analyzeStructDependencies deps fields dep
  | .enum _ _ _ _ _ variants _ _ => analyzeEnumDependencies deps variants dep
  | .«alias» _ _ _ _ _ aliasBody _ => newDependant dep deps aliasBody

/-- `LayerResolver::analyze_command_dependencies` (`resolver.rs` lines
121-141). -/
def analyzeCommandDependencies (deps : Deps) (cmd : PBCommandDef) : Deps :=
  let dep : Dependant := ⟨cmd.name, cmd.layer, .command⟩
  let deps :=
    if cmd.ret.reference ≠ "Void" then newDependant dep deps cmd.ret else deps
  let deps :=
    match cmd.argument with
    | .struct fields => analyzeStructDependencies deps fields dep
    | .ref rf => newDependant dep deps rf
    | .none => deps
  analyzeEnumDependencies deps cmd.err dep

/-- `TypeOrCmdDef` (`resolver.rs` lines 30-44). -/
inductive TypeOrCmdDef where
  | typeDef (tp : PBTypeDef)
  | cmdDef (cmd : PBCommandDef)

def TypeOrCmdDef.get_layer : TypeOrCmdDef → Nat
  | .typeDef tp => tp.get_layer
  | .cmdDef cmd => cmd.layer

/-- `layer <= limit_layer`; `none` stands for the `u32::MAX` limit, which no
`u32` layer exceeds. -/
def layerWithin (layer : Nat) (limit : Option Nat) : Bool :=
  match limit with
  | none => true
  | some l => layer ≤ l

/-- Models `v.sort_by_key(|x| key x)` (a stable sort) followed by
`v.last()`: the element with the greatest key, taking the last among ties in
the original order. -/
def maxByKeyLast (key : α → Nat) (l : List α) : Option α :=
  l.foldl (fun acc x =>
    match acc with
    | none => some x
    | some y => if key y ≤ key x then some x else some y) none

/-- `LayerResolver::get_highest_layer` (`resolver.rs` lines 142-156):
commands are consulted first; only if no command matches are the types
consulted. -/
def getHighestLayer (d : PunybufDefinition) (name : String)
    (limit : Option Nat) : Option TypeOrCmdDef :=
  match maxByKeyLast (fun cmd => cmd.layer)
      (d.commands.filter (fun cmd =>
        layerWithin cmd.layer limit && cmd.name == name)) with
  | some cmd => some (.cmdDef cmd)
  | none =>
    (maxByKeyLast (fun tp => tp.get_layer)
      (d.types.filter (fun tp =>
        layerWithin tp.get_layer limit && tp.get_name == name))).map .typeDef

/-- `LayerResolver::is_highest_layer` (`resolver.rs` lines 157-164). -/
def isHighestLayerDep (d : PunybufDefinition) (dependant : Dependant)
    (limitLayer : Nat) : Except String Bool :=
  match getHighestLayer d dependant.name (some limitLayer) with
  | none => .ok true
  | some highest =>
    if highest.get_layer < dependant.layer then
      .error "bad state: highest layer of thing is less than dependant"
    else
      .ok (highest.get_layer == dependant.layer)

/-- `LayerResolver::get_type_from_dependant` (`resolver.rs` lines
165-167). -/
def getTypeFromDependant (d : PunybufDefinition) (dependant : Dependant) :
    Option PBTypeDef :=
  d.types.find? (fun tp =>
    tp.get_name == dependant.name && tp.get_layer == dependant.layer)

/-- `LayerResolver::get_command_from_dependant` (`resolver.rs` lines
168-170). -/
def getCommandFromDependant (d : PunybufDefinition) (dependant : Dependant) :
    Option PBCommandDef :=
  d.commands.find? (fun cmd =>
    cmd.name == dependant.name && cmd.layer == dependant.layer)

/-- The dependant loop of `track_changes` (`resolver.rs` lines 177-209):
collect the layer-bumped clones of the dependants that sit strictly below
the changed layer and are still the highest version of their name.  Commands
get their CRC command id recomputed. -/
def collectChanges (d : PunybufDefinition) (changedLayer : Nat) :
    List Dependant → Except String (List PBTypeDef × List PBCommandDef)
  | [] => .ok ([], [])
  | dependant :: rest =>
    if changedLayer ≤ dependant.layer then
      collectChanges d changedLayer rest
    else
      match isHighestLayerDep d dependant changedLayer with
      | .error e => .error e
      | .ok isH =>
        if !isH then
          collectChanges d changedLayer rest
        else
          match dependant.kind with
          | .type =>
            match getTypeFromDependant d dependant with
            | none => .error "dependant doesn't exist?"
            | some tp =>
              match collectChanges d changedLayer rest with
              | .error e => .error e
              | .ok (nts, ncs) => .ok (tp.with_layer changedLayer :: nts, ncs)
          | .command =>
            match getCommandFromDependant d dependant with
            | none => .error "dependant doesn't exist?"
            | some cmd =>
              match collectChanges d changedLayer rest with
              | .error e => .error e
              | .ok (nts, ncs) =>
                .ok (nts, { cmd with
                  layer := changedLayer,
                  command_id := commandIdOf cmd.name changedLayer } :: ncs)

/-- `LayerResolver::track_changes` (`resolver.rs` lines 171-220): clone the
eligible dependants of the type at `index`, register the clones'
dependencies (commands first), and append them to the definition. -/
def trackChanges (deps : Deps) (d : PunybufDefinition) (index : Nat) :
    Except String (Deps × PunybufDefinition) :=
  match d.types.get? index with
  | none => .error "index out of bounds"
  | some changedType =>
    match depsLookup deps changedType.get_name with
    | none => .ok (deps, d)
    | some dependants =>
      match collectChanges d changedType.get_layer dependants with
      | .error e => .error e
      | .ok (newTypes, newCommands) =>
        let deps := newCommands.foldl analyzeCommandDependencies deps
        let deps := newTypes.foldl analyzeTypeDependencies deps
        .ok (deps, { d with
          types := d.types ++ newTypes,
          commands := d.commands ++ newCommands })

/-- The `while index < definition.types.len()` loop of
`LayerResolver::resolve` (`resolver.rs` lines 266-270), with fuel. -/
def closureLoop (gas : Nat) (deps : Deps) (d : PunybufDefinition)
    (index : Nat) : Except String (Deps × PunybufDefinition) :=
  match gas with
  | 0 => .error "out of fuel (model artifact)"
  | gas + 1 =>
    if index < d.types.length then
      match trackChanges deps d index with
      | .error e => .error e
      | .ok (deps, d) => closureLoop gas deps d (index + 1)
    else
      .ok (deps, d)

mutual
/-- `LayerResolver::check_if_global_reference` (`resolver.rs` lines 221-226):
`is_global` is false iff the name is one of the enclosing declaration's
generic parameters; applied recursively to generic arguments with the same
parameter list. -/
def checkIfGlobalReference (generics : List String) : PBTypeRef → PBTypeRef
  | .mk name gens rl ih _ =>
    .mk name (checkIfGlobalReferenceList generics gens) rl ih
      (!generics.contains name)
def checkIfGlobalReferenceList (generics : List String) :
    List PBTypeRef → List PBTypeRef
  | [] => []
  | r :: rs =>
    checkIfGlobalReference generics r :: checkIfGlobalReferenceList generics rs
end

/-- Phase A of `LayerResolver::resolve` applied to one type declaration
(`resolver.rs` lines 233-258). -/
def phaseAType : PBTypeDef → PBTypeDef
  | .«alias» name doc layer attrs generic_args aliasBody ih =>
    .«alias» name doc layer attrs generic_args
      (checkIfGlobalReference generic_args aliasBody) ih
  | .enum name doc layer attrs generic_args variants io ih =>
    .enum name doc layer attrs generic_args
      (variants.map (fun v =>
        { v with value := v.value.map (checkIfGlobalReference generic_args) }))
      io ih
  | .struct name doc layer attrs generic_args fields io ih =>
    .struct name doc layer attrs generic_args
      (fields.map (fun f =>
        { f with
          value := checkIfGlobalReference generic_args f.value,
          flags := f.flags.map (fun flags => flags.map (fun flag =>
            { flag with
              value := flag.value.map (checkIfGlobalReference generic_args) })) }))
      io ih

/-- `ResolvedReference` (`resolver.rs` lines 665-672). -/
inductive ResolvedReference where
  | resolved (resolved_layer : Nat) (is_highest_layer : Bool)
      (generics : List (Option ResolvedReference))
  | dealias (r : PBTypeRef)

/-- `ResolvedField` (`resolver.rs` lines 679-682). -/
structure ResolvedField where
  refr : Option ResolvedReference
  flags : Option (List (Option ResolvedReference))

/-- `ResolvedTypeDefData` (`resolver.rs` lines 684-694). -/
inductive ResolvedTypeDefData where
  | «alias» (refr : Option ResolvedReference)
  | struct (fields : List ResolvedField)
  | enum (variants : List (Option ResolvedReference))

/-- `ResolvedTypeDef` (`resolver.rs` lines 674-677). -/
structure ResolvedTypeDef where
  is_highest_layer : Bool
  data : ResolvedTypeDefData

/-- `ResolvedCommandArg` (`resolver.rs` lines 696-701). -/
inductive ResolvedCommandArg where
  | ref (r : Option ResolvedReference)
  | struct (fields : List ResolvedField)

/-- `ResolvedCommand` (`resolver.rs` lines 703-708). -/
structure ResolvedCommand where
  arg : ResolvedCommandArg
  ret : Option ResolvedReference
  err : List (Option ResolvedReference)
  is_highest_layer : Bool

/-- The generic-substitution loop of `resolve_alias` (`resolver.rs` lines
292-304): each non-global top-level generic argument of the alias body is
replaced by the call-site argument at the position its name has among the
alias's generic parameters. -/
def substituteAliasGenerics (refr : PBTypeRef) (generic_args : List String) :
    List PBTypeRef → Except String (List PBTypeRef)
  | [] => .ok []
  | g :: gs =>
    if g.is_global then
      match substituteAliasGenerics refr generic_args gs with
      | .error e => .error e
      | .ok gs' => .ok (g :: gs')
    else
      match generic_args.findIdx? (fun arg => arg == g.reference) with
      | none => .error "bad state: can't find a generic argument"
      | some argIndex =>
        match refr.generics.get? argIndex with
        | none => .error "index out of bounds"
        | some inputRef =>
          match substituteAliasGenerics refr generic_args gs with
          | .error e => .error e
          | .ok gs' => .ok (inputRef :: gs')

/-- `LayerResolver::resolve_alias` (`resolver.rs` lines 274-307): substitute
the call-site's generic arguments into the `@resolve` alias's body.  If the
body itself is a generic parameter the call-site argument replaces the whole
reference; otherwise only the non-global *top-level* generic arguments of the
body are substituted. -/
def resolveAlias (refr : PBTypeRef) (tp : PBTypeDef) :
    Except String PBTypeRef :=
  match tp with
  | .«alias» _ _ _ _ generic_args aliasBody _ =>
    match aliasBody with
    | .mk aname agens arl aih aig =>
      if !aig then
        match generic_args.findIdx? (fun arg => arg == aname) with
        | none => .error "bad state: can't find a generic argument"
        | some argIndex =>
          match refr.generics.get? argIndex with
          | none => .error "index out of bounds"
          | some inputRef => .ok inputRef
      else
        match substituteAliasGenerics refr generic_args agens with
        | .error e => .error e
        | .ok newGens => .ok (.mk aname newGens arl aih aig)
  | _ => .error "bad state: @resolve may only be used on aliases"

/-- `LayerResolver::resolve_is_highest_layer` (`resolver.rs` lines
308-312). -/
def resolveIsHighestLayer (d : PunybufDefinition) (name : String)
    (parentLayer : Nat) : Except String Bool :=
  match getHighestLayer d name none with
  | none => .error "can't find highest layer, reference not resolved"
  | some highest => .ok (highest.get_layer == parentLayer)

mutual
/-- `LayerResolver::apply_resolution_to_reference` (`resolver.rs` lines
350-367): a `Dealias` resolution replaces the reference wholesale; a
`Resolved` one writes `resolved_layer`/`is_highest_layer` and pops one
resolution per generic argument (panicking if the queue is too short). -/
def applyResolutionToReference :
    PBTypeRef → ResolvedReference → Except String PBTypeRef
  | _, .dealias dealias => .ok dealias
  | .mk name gens _ _ ig, .resolved rlayer ih ress =>
    match applyResolutionToGenerics gens ress with
    | .error e => .error e
    | .ok gens' => .ok (.mk name gens' (some rlayer) ih ig)
def applyResolutionToGenerics :
    List PBTypeRef → List (Option ResolvedReference) →
      Except String (List PBTypeRef)
  | [], _ => .ok []
  | _ :: _, [] =>
    .error "bad state: resolution's generics are smaller than that of the original reference"
  | g :: gs, none :: ress =>
    (match applyResolutionToGenerics gs ress with
     | .error e => .error e
     | .ok rest => .ok (g :: rest))
  | g :: gs, some res :: ress =>
    match applyResolutionToReference g res with
    | .error e => .error e
    | .ok g' =>
      match applyResolutionToGenerics gs ress with
      | .error e => .error e
      | .ok rest => .ok (g' :: rest)
end

mutual
/-- `LayerResolver::resolve_reference` (`resolver.rs` lines 314-348).
`sra` is `should_resolve_aliases`; `.ok none` is the source's
`return None` for non-global or `Void` references. -/
def resolveReference (gas : Nat) (sra : Bool) (d : PunybufDefinition)
    (refr : PBTypeRef) (parentLayer : Nat) (tries : Nat) :
    Except String (Option ResolvedReference) :=
  match gas with
  | 0 => .error "out of fuel (model artifact)"
  | gas + 1 =>
    if tries > 100 then
      .error "circular reference"
    else if !refr.is_global || refr.reference == "Void" then
      .ok none
    else
      match getHighestLayer d refr.reference (some parentLayer) with
      | none => .error "can't find highest layer, reference not resolved"
      | some withCorrectLayer =>
        match withCorrectLayer with
        | .typeDef tp =>
          if tp.get_attrs.containsKey "@resolve" && sra then
            match resolveAlias refr tp with
            | .error e => .error e
            | .ok dealias =>
              match resolveReference gas sra d dealias parentLayer (tries + 1) with
              | .error e => .error e
              | .ok (some resolution) =>
                (match applyResolutionToReference dealias resolution with
                 | .error e => .error e
                 | .ok dealias2 => .ok (some (.dealias dealias2)))
              | .ok none => .ok (some (.dealias dealias))
          else
            resolveReferenceCommon gas sra d refr parentLayer tries
              (.typeDef tp)
        | .cmdDef cmd =>
          resolveReferenceCommon gas sra d refr parentLayer tries (.cmdDef cmd)
termination_by structural gas

/-- The non-dealiasing tail of `resolve_reference` (`resolver.rs` lines
334-347): look up the overall highest layer, resolve the generic arguments,
and build the `Resolved` record. -/
def resolveReferenceCommon (gas : Nat) (sra : Bool) (d : PunybufDefinition)
    (refr : PBTypeRef) (parentLayer : Nat) (tries : Nat)
    (withCorrectLayer : TypeOrCmdDef) :
    Except String (Option ResolvedReference) :=
  match gas with
  | 0 => .error "out of fuel (model artifact)"
  | gas + 1 =>
    match getHighestLayer d refr.reference none with
    | none => .error "can't find highest layer, reference not resolved"
    | some highestLayer =>
      match resolveGenericsList gas sra d refr.generics parentLayer
        (tries + 1) with
      | .error e => .error e
      | .ok gens =>
        .ok (some (.resolved withCorrectLayer.get_layer
          (highestLayer.get_layer == withCorrectLayer.get_layer) gens))
termination_by structural gas

/-- The generic-argument loop of `resolve_reference` (`resolver.rs` lines
337-341). -/
def resolveGenericsList (gas : Nat) (sra : Bool) (d : PunybufDefinition)
    (gens : List PBTypeRef) (parentLayer : Nat) (tries : Nat) :
    Except String (List (Option ResolvedReference)) :=
  match gas with
  | 0 => .error "out of fuel (model artifact)"
  | gas + 1 =>
    match gens with
    | [] => .ok []
    | g :: gs =>
      match resolveReference gas sra d g parentLayer tries with
      | .error e => .error e
      | .ok r =>
        match resolveGenericsList gas sra d gs parentLayer tries with
        | .error e => .error e
        | .ok rs => .ok (r :: rs)
termination_by structural gas
end

/-- The flag part of `resolve_fields` (`resolver.rs` lines 372-378). -/
def resolveFlagsList (gas : Nat) (sra : Bool) (d : PunybufDefinition)
    (layer : Nat) : List PBFieldFlag →
      Except String (List (Option ResolvedReference))
  | [] => .ok []
  | flag :: flags =>
    match (match flag.value with
           | none => (.ok none : Except String (Option ResolvedReference))
           | some refr => resolveReference gas sra d refr layer 0) with
    | .error e => .error e
    | .ok r =>
      match resolveFlagsList gas sra d layer flags with
      | .error e => .error e
      | .ok rs => .ok (r :: rs)

/-- `LayerResolver::resolve_fields` (`resolver.rs` lines 369-385): the
flags are resolved before the field's own value. -/
def resolveFieldsList (gas : Nat) (sra : Bool) (d : PunybufDefinition)
    (layer : Nat) : List PBField → Except String (List ResolvedField)
  | [] => .ok []
  | field :: fields =>
    match (match field.flags with
           | none =>
             (.ok none : Except String (Option (List (Option ResolvedReference))))
           | some flags =>
             match resolveFlagsList gas sra d layer flags with
             | .error e => .error e
             | .ok rs => .ok (some rs)) with
    | .error e => .error e
    | .ok flagsRes =>
      match resolveReference gas sra d field.value layer 0 with
      | .error e => .error e
      | .ok refr =>
        match resolveFieldsList gas sra d layer fields with
        | .error e => .error e
        | .ok rest => .ok ({ refr := refr, flags := flagsRes } :: rest)

/-- The variant loop shared by the enum branch of the type read pass and
the command error lists (`resolver.rs` lines 446-451, 500-504). -/
def resolveVariantsList (gas : Nat) (sra : Bool) (d : PunybufDefinition)
    (layer : Nat) : List PBEnumVariant →
      Except String (List (Option ResolvedReference))
  | [] => .ok []
  | variant :: variants =>
    match (match variant.value with
           | none => (.ok none : Except String (Option ResolvedReference))
           | some refr => resolveReference gas sra d refr layer 0) with
    | .error e => .error e
    | .ok r =>
      match resolveVariantsList gas sra d layer variants with
      | .error e => .error e
      | .ok rs => .ok (r :: rs)

/-- The read pass of `LayerResolver::resolve_references` over one type
declaration (`resolver.rs` lines 423-460). -/
def resolveOneType (gas : Nat) (sra : Bool) (d : PunybufDefinition)
    (tp : PBTypeDef) : Except String ResolvedTypeDef :=
  match resolveIsHighestLayer d tp.get_name tp.get_layer with
  | .error e => .error e
  | .ok ih =>
    match tp with
    | .«alias» _ _ layer _ _ aliasBody _ =>
      (match resolveReference gas sra d aliasBody layer 0 with
       | .error e => .error e
       | .ok refr => .ok ⟨ih, .«alias» refr⟩)
    | .struct _ _ layer _ _ fields _ _ =>
      (match resolveFieldsList gas sra d layer fields with
       | .error e => .error e
       | .ok fs => .ok ⟨ih, .struct fs⟩)
    | .enum _ _ layer _ _ variants _ _ =>
      (match resolveVariantsList gas sra d layer variants with
       | .error e => .error e
       | .ok vs => .ok ⟨ih, .enum vs⟩)

/-- The flag part of `apply_resolution_to_fields` (`resolver.rs` lines
393-401). -/
def applyResolutionToFlags (flags : List PBFieldFlag)
    (resFlags : List (Option ResolvedReference)) :
    Except String (List PBFieldFlag) :=
  match flags, resFlags with
  | [], _ => .ok []
  | _ :: _, [] => .error "pop_front on empty (panic)"
  | flag :: flags, resFlag :: resFlags =>
    match (match flag.value, resFlag with
           | none, _ => (.ok flag.value : Except String (Option PBTypeRef))
           | some _, none => .ok flag.value
           | some v, some res =>
             match applyResolutionToReference v res with
             | .error e => .error e
             | .ok v' => .ok (some v')) with
    | .error e => .error e
    | .ok value =>
      match applyResolutionToFlags flags resFlags with
      | .error e => .error e
      | .ok rest => .ok ({ flag with value := value } :: rest)

/-- `LayerResolver::apply_resolution_to_fields` (`resolver.rs` lines
387-402). -/
def applyResolutionToFields (fields : List PBField)
    (resFields : List ResolvedField) : Except String (List PBField) :=
  match fields, resFields with
  | [], _ => .ok []
  | _ :: _, [] => .error "pop_front on empty (panic)"
  | field :: fields, resField :: resFields =>
    match (match resField.refr with
           | none => (.ok field.value : Except String PBTypeRef)
           | some res => applyResolutionToReference field.value res) with
    | .error e => .error e
    | .ok value =>
      match (match field.flags, resField.flags with
             | none, _ => (.ok none : Except String (Option (List PBFieldFlag)))
             | some _, none => .error "unwrap on None (panic)"
             | some flags, some resFlags =>
               match applyResolutionToFlags flags resFlags with
               | .error e => .error e
               | .ok flags' => .ok (some flags')) with
      | .error e => .error e
      | .ok flags' =>
        match applyResolutionToFields fields resFields with
        | .error e => .error e
        | .ok rest => .ok ({ field with value := value, flags := flags' } :: rest)

/-- `LayerResolver::apply_resolution_to_variants` (`resolver.rs` lines
403-410). -/
def applyResolutionToVariants (variants : List PBEnumVariant)
    (resVariants : List (Option ResolvedReference)) :
    Except String (List PBEnumVariant) :=
  match variants, resVariants with
  | [], _ => .ok []
  | _ :: _, [] => .error "pop_front on empty (panic)"
  | variant :: variants, resVariant :: resVariants =>
    match (match variant.value, resVariant with
           | none, _ => (.ok variant.value : Except String (Option PBTypeRef))
           | some _, none => .ok variant.value
           | some v, some res =>
             match applyResolutionToReference v res with
             | .error e => .error e
             | .ok v' => .ok (some v')) with
    | .error e => .error e
    | .ok value =>
      match applyResolutionToVariants variants resVariants with
      | .error e => .error e
      | .ok rest => .ok ({ variant with value := value } :: rest)

/-- The apply pass of `LayerResolver::resolve_references` over one type
declaration (`resolver.rs` lines 462-492). -/
def applyOneType (tp : PBTypeDef) (res : ResolvedTypeDef) :
    Except String PBTypeDef :=
  match tp.with_is_highest_layer res.is_highest_layer, res.data with
  | .«alias» name doc layer attrs ga aliasBody ih, .«alias» resRefr =>
    (match resRefr with
     | none => .ok (.«alias» name doc layer attrs ga aliasBody ih)
     | some res =>
       match applyResolutionToReference aliasBody res with
       | .error e => .error e
       | .ok aliasBody' => .ok (.«alias» name doc layer attrs ga aliasBody' ih))
  | .«alias» .., _ => .error "bad state: resolution's alias != real alias"
  | .struct name doc layer attrs ga fields io ih, .struct resFields =>
    (match applyResolutionToFields fields resFields with
     | .error e => .error e
     | .ok fields' => .ok (.struct name doc layer attrs ga fields' io ih))
  | .struct .., _ => .error "bad state: resolution's struct != real struct"
  | .enum name doc layer attrs ga variants io ih, .enum resVariants =>
    (match applyResolutionToVariants variants resVariants with
     | .error e => .error e
     | .ok variants' => .ok (.enum name doc layer attrs ga variants' io ih))
  | .enum .., _ => .error "bad state: resolution's enum != real enum"

/-- The read pass of `LayerResolver::resolve_references` over one command
(`resolver.rs` lines 494-519), run against the definition with the types
already resolved. -/
def resolveOneCommand (gas : Nat) (sra : Bool) (d : PunybufDefinition)
    (cmd : PBCommandDef) : Except String ResolvedCommand :=
  match resolveIsHighestLayer d cmd.name cmd.layer with
  | .error e => .error e
  | .ok ih =>
    match resolveReference gas sra d cmd.ret cmd.layer 0 with
    | .error e => .error e
    | .ok ret =>
      match resolveVariantsList gas sra d cmd.layer cmd.err with
      | .error e => .error e
      | .ok err =>
        match ((match cmd.argument with
               | .ref refr =>
                 (match resolveReference gas sra d refr cmd.layer 0 with
                  | .error e => .error e
                  | .ok r => .ok (ResolvedCommandArg.ref r))
               | .none => .ok (ResolvedCommandArg.ref none)
               | .struct fields =>
                 match resolveFieldsList gas sra d cmd.layer fields with
                 | .error e => .error e
                 | .ok fs => .ok (ResolvedCommandArg.struct fs)) :
              Except String ResolvedCommandArg) with
        | .error e => .error e
        | .ok arg => .ok ⟨arg, ret, err, ih⟩

/-- The apply pass of `LayerResolver::resolve_references` over one command
(`resolver.rs` lines 521-544).  `is_highest_layer` is written first; then,
when a `Ref` argument's resolution is `None`, the source's
`let Some(resolution) = resolution else { continue }` (line 530) skips the
rest of the loop body, leaving the argument, the return and the errors
untouched — the inner `.ok none` marks that `continue`. -/
def applyOneCommand (cmd : PBCommandDef) (res : ResolvedCommand) :
    Except String PBCommandDef :=
  match (match cmd.argument, res.arg with
         | .none, _ =>
           (.ok (some cmd.argument) : Except String (Option PBCommandArg))
         | .ref refr, .ref resolution =>
           (match resolution with
            | none => .ok none
            | some r =>
              match applyResolutionToReference refr r with
              | .error e => .error e
              | .ok refr' => .ok (some (PBCommandArg.ref refr')))
         | .ref _, .struct _ =>
           .error "bad state: resolved argument != real argument"
         | .struct fields, .struct resFields =>
           (match applyResolutionToFields fields resFields with
            | .error e => .error e
            | .ok fields' => .ok (some (PBCommandArg.struct fields')))
         | .struct _, .ref _ =>
           .error "bad state: resolved argument != real argument") with
  | .error e => .error e
  | .ok none => .ok { cmd with is_highest_layer := res.is_highest_layer }
  | .ok (some argument) =>
    match (match res.ret with
           | none => (.ok cmd.ret : Except String PBTypeRef)
           | some r => applyResolutionToReference cmd.ret r) with
    | .error e => .error e
    | .ok ret =>
      match applyResolutionToVariants cmd.err res.err with
      | .error e => .error e
      | .ok err =>
        .ok { cmd with
          is_highest_layer := res.is_highest_layer,
          argument := argument,
          ret := ret,
          err := err }

/-- The type read pass of `resolve_references` (`resolver.rs` lines
423-460). -/
def resolveTypesList (gas : Nat) (sra : Bool) (d : PunybufDefinition) :
    List PBTypeDef → Except String (List ResolvedTypeDef)
  | [] => .ok []
  | tp :: tps =>
    match resolveOneType gas sra d tp with
    | .error e => .error e
    | .ok r =>
      match resolveTypesList gas sra d tps with
      | .error e => .error e
      | .ok rs => .ok (r :: rs)

/-- The command read pass of `resolve_references` (`resolver.rs` lines
494-519). -/
def resolveCommandsList (gas : Nat) (sra : Bool) (d : PunybufDefinition) :
    List PBCommandDef → Except String (List ResolvedCommand)
  | [] => .ok []
  | cmd :: cmds =>
    match resolveOneCommand gas sra d cmd with
    | .error e => .error e
    | .ok r =>
      match resolveCommandsList gas sra d cmds with
      | .error e => .error e
      | .ok rs => .ok (r :: rs)

/-- Zip a list with its resolution queue, failing as the source's
`pop_front().expect("bad state: type resolution vec is too short")` does. -/
def zipApply (apply : α → β → Except String α) :
    List α → List β → Except String (List α)
  | [], _ => .ok []
  | _ :: _, [] => .error "bad state: type resolution vec is too short"
  | x :: xs, r :: rs =>
    match apply x r with
    | .error e => .error e
    | .ok x' =>
      match zipApply apply xs rs with
      | .error e => .error e
      | .ok rest => .ok (x' :: rest)

/-- `LayerResolver::resolve_references` (`resolver.rs` lines 412-545): the
safe two-pass design.  Types are read-resolved against the whole definition,
then mutated; commands are then read-resolved against the definition with the
types already mutated, then mutated. -/
def resolveReferences (gas : Nat) (sra : Bool) (d : PunybufDefinition) :
    Except String PunybufDefinition :=
  match resolveTypesList gas sra d d.types with
  | .error e => .error e
  | .ok typeResolution =>
    match zipApply applyOneType d.types typeResolution with
    | .error e => .error e
    | .ok newTypes =>
      let d3 : PunybufDefinition := { d with types := newTypes }
      match resolveCommandsList gas sra d3 d3.commands with
      | .error e => .error e
      | .ok cmdResolution =>
        match zipApply applyOneCommand d3.commands cmdResolution with
        | .error e => .error e
        | .ok newCommands => .ok { d3 with commands := newCommands }

/-- `LayerResolver::resolve` (`resolver.rs` lines 232-273): Phase A marks
generic-parameter references as non-global; Phase B builds the dependency
index and runs the layer-closure loop over the growing types vector; Phase C
resolves every reference. -/
def LayerResolver.resolve (gas : Nat) (sra : Bool) (d : PunybufDefinition) :
    Except String PunybufDefinition :=
  let d : PunybufDefinition := { d with types := d.types.map phaseAType }
  let deps := d.types.foldl analyzeTypeDependencies []
  let deps := d.commands.foldl analyzeCommandDependencies deps
  match closureLoop gas deps d 0 with
  | .error e => .error e
  | .ok (_, d) => resolveReferences gas sra d

end Punybuf
namespace Punybuf

/-! ## The validator (`pbd/src/validator.rs`)

`PunybufValidator` holds the definition and a `context_generic_args`
field that is set to the current type's generic parameters during
`validate_type` and is empty during `validate_command`; it is threaded
through explicitly as `ctx : List String` (spans dropped).  Error values
carry the primary message text, with the interpolated fragments and the
extended explanation panels (pure presentation) omitted from the message
where convenient. -/

/-- `COMMON_TYPES` (`validator.rs` lines 5-22). -/
def COMMON_TYPES : List String :=
  ["Void", "U8", "U16", "U32", "U64", "I32", "I64", "UInt", "Array",
   "Bytes", "String", "Map", "KeyPair", "Done", "Boolean", "Optional"]

/-- `Owner` (`validator.rs` lines 44-47). -/
inductive Owner where
  | typeOwner (tp : PBTypeDef)
  | commandOwner (cmd : PBCommandDef)

/-- `Owner::get_name` (span omitted). -/
def Owner.get_name : Owner → String
  | .commandOwner cmd => cmd.name
  | .typeOwner tp => tp.get_name

/-- `Owner::get_inline_owner`. -/
def Owner.get_inline_owner : Owner → Option String
  | .typeOwner tp => tp.get_inline_owner
  | .commandOwner _ => none

/-- `Owner::get_attrs`. -/
def Owner.get_attrs : Owner → Attrs
  | .typeOwner tp => tp.get_attrs
  | .commandOwner cmd => cmd.attrs

/-- `ReferenceDefinition` (`validator.rs` lines 33-36); the
`GenericArgument` span is dropped. -/
inductive ReferenceDefinition where
  | topLevelDecl (decl : PBTypeDef)
  | genericArgument

/-- The result of `follow_to_flags_attr`: `Ok(usize)` or a
`FlagsAttrError` (`validator.rs` lines 24-31), flattened into one type. -/
inductive FlagsResult where
  | limit (n : Nat)
  | noAttribute (decl : PBTypeDef)
  | aliasGeneric (typedef : PBTypeDef) (refToGeneric : String)
  | otherError (e : String)

/-- `x.trim().parse::<usize>()` on the attribute's optional value. -/
def parseFlagsValue (v : Option String) : Option Nat :=
  v.bind (fun s => s.trim.toNat?)

/-- `PunybufValidator::validate_reference_void` (`validator.rs` lines
172-387).  `ctx` is `context_generic_args`, or the override list when the
caller supplies one; references to `Void` are *not* rejected here. -/
def validateReferenceVoid (gas : Nat) (d : PunybufDefinition)
    (ctx : List String) (refr : PBTypeRef) (owner : Owner) :
    Except String ReferenceDefinition :=
  match gas with
  | 0 => .error "out of fuel (model artifact)"
  | gas + 1 =>
    if ctx.contains refr.reference then
      if !refr.generics.isEmpty then
        .error "cannot provide generic parameters to a generic argument"
      else
        match d.types.find? (fun typ => typ.get_name == refr.reference) with
        | some decl =>
          (match decl with
           | .«alias» .. => .ok .genericArgument
           | .enum .. | .struct .. =>
             match decl.get_inline_owner with
             | none => .ok .genericArgument
             | some inlineOwner =>
               if inlineOwner != owner.get_name then
                 .ok .genericArgument
               else
                 .error ("inline declaration of `" ++ refr.reference ++
                   "` conflicts with a generic argument"))
        | none => .ok .genericArgument
    else
      match d.types.find? (fun typ => typ.get_name == refr.reference) with
      | some decl => do
        (match decl with
         | .«alias» .. => pure ()
         | .enum .. | .struct .. =>
           match decl.get_inline_owner with
           | some validOwner =>
             if validOwner != owner.get_name then
               .error ("type `" ++ refr.reference ++
                 "` is inline and cannot be referenced outside `" ++
                 validOwner ++ "`")
             else
               pure ()
           | none => pure ())
        let declGenericArgs := decl.get_generics
        if refr.generics.length < declGenericArgs.length then
          .error ("type `" ++ refr.reference ++
            "` takes more generic arguments than were provided")
        else if declGenericArgs.length < refr.generics.length then
          .error ("type `" ++ refr.reference ++
            "` takes fewer generic arguments than were provided")
        else do
          (refr.generics.forM (fun x =>
            discard <| validateReferenceVoid gas d ctx x owner))
          .ok (.topLevelDecl decl)
      | none =>
        if COMMON_TYPES.contains refr.reference then
          .error ("cannot find type `" ++ refr.reference ++
            "` in scope, perhaps you forgot to `include common`?")
        else
          .error ("cannot find type `" ++ refr.reference ++ "` in scope")

/-- `PunybufValidator::validate_reference` (`validator.rs` lines
163-171). -/
def validateReference (gas : Nat) (d : PunybufDefinition)
    (ctx : List String) (refr : PBTypeRef) (owner : Owner) :
    Except String ReferenceDefinition :=
  if refr.reference == "Void" then
    .error "the reserved type `Void` is only allowed in command returns"
  else
    validateReferenceVoid gas d ctx refr owner

/-- `PunybufValidator::follow_to_flags_attr` (`validator.rs` lines
76-162). -/
def followToFlagsAttr (gas : Nat) (d : PunybufDefinition)
    (decl : PBTypeDef) (owner : Owner) (tries : Nat) :
    Except String FlagsResult :=
  match gas with
  | 0 => .error "out of fuel (model artifact)"
  | gas + 1 =>
    if tries ≥ 200 then
      .ok (.otherError
        "reached limit for `@flags` evaluation for a field in this struct")
    else
      match decl with
      | .enum _ _ _ attrs _ _ _ _ | .struct _ _ _ attrs _ _ _ _ =>
        (match attrs.getKey "@flags" with
         | none => .ok (.noAttribute decl)
         | some v =>
           match parseFlagsValue v with
           | some n => .ok (.limit n)
           | none => .ok (.otherError
             "the `@flags` attribute on this type doesn't put a limit on how many flags are possible"))
      | .«alias» _ _ _ attrs generic_args aliasBody _ =>
        match attrs.getKey "@flags" with
        | some v =>
          (match parseFlagsValue v with
           | some n => .ok (.limit n)
           | none => .ok (.otherError
             "the `@flags` attribute on this type must put a limit on how many flags are possible"))
        | none =>
          if attrs.containsKey "@builtin" then
            .ok (.noAttribute decl)
          else
            match validateReferenceVoid gas d generic_args aliasBody owner with
            | .error e => .ok (.otherError e)
            | .ok .genericArgument =>
              .ok (.aliasGeneric decl aliasBody.reference)
            | .ok (.topLevelDecl decl') =>
              followToFlagsAttr gas d decl' owner (tries + 1)

/-- `PunybufValidator::validate_generic_args` (`validator.rs` lines
388-400). -/
def validateGenericArgs (args : List String) : Except String Unit :=
  match (args.foldlM
      (fun (declared : List String) ga =>
        if declared.contains ga then
          .error ("generic argument `" ++ ga ++ "` defined twice")
        else
          .ok (declared ++ [ga]))
      ([] : List String) : Except String (List String)) with
  | .error e => .error e
  | .ok _ => .ok ()

/-- `PunybufValidator::validate_flags` (`validator.rs` lines 401-472):
duplicate names, `@sealed` versus `@extension`, the
extension-flags-at-the-tail rule, then each flag value's reference. -/
def validateFlags (gas : Nat) (d : PunybufDefinition) (ctx : List String)
    (owner : Owner) (flags : List PBFieldFlag) : Except String Unit := do
  let isSealed := owner.get_attrs.containsKey "@sealed"
  discard <| flags.foldlM
    (fun (st : List String × Bool) flag => do
      let (seenNames, extensionBegun) := st
      if seenNames.contains flag.name then
        .error ("flag `" ++ flag.name ++ "` defined twice")
      else do
        let seenNames := seenNames ++ [flag.name]
        if isSealed && flag.attrs.containsKey "@extension" then
          .error "tried to extend a `@sealed` struct"
        else do
          let extensionBegun ←
            if flag.attrs.containsKey "@extension" then
              pure true
            else if extensionBegun then
              .error "a regular flag cannot follow an `@extension` flag"
            else
              pure false
          (match flag.value with
           | none => pure ()
           | some refr => discard <| validateReference gas d ctx refr owner)
          pure (seenNames, extensionBegun))
    (([] : List String), false)

/-- `PunybufValidator::validate_struct` (`validator.rs` lines 473-606):
no `@extension` fields, unique field names, valid value references, and for
flag-carrier fields the `@flags` bound reached through aliases. -/
def validateStruct (gas : Nat) (d : PunybufDefinition) (ctx : List String)
    (owner : Owner) (fields : List PBField) : Except String Unit := do
  discard <| fields.foldlM
    (fun (seenNames : List String) field => do
      if field.attrs.containsKey "@extension" then
        .error "`@extension`s are only allowed to be defined on flags"
      else if seenNames.contains field.name then
        .error ("field `" ++ field.name ++ "` defined twice")
      else do
        let seenNames := seenNames ++ [field.name]
        let fieldRefDef ← validateReference gas d ctx field.value owner
        (match field.flags with
         | none => pure ()
         | some flags => do
           match fieldRefDef with
           | .genericArgument =>
             .error ("flag fields' types must be marked `@flags`, but `" ++
               field.value.reference ++
               "` is a generic argument and cannot be constrained")
           | .topLevelDecl fieldRefDecl => do
             (match ← followToFlagsAttr gas d fieldRefDecl owner 0 with
              | .limit maxAmount =>
                if flags.length > maxAmount then
                  .error "too many flags"
                else
                  pure ()
              | .otherError e => .error e
              | .noAttribute _ =>
                .error ("flag fields' types must be marked `@flags`, `" ++
                  field.value.reference ++ "` is not")
              | .aliasGeneric _ _ =>
                .error ("flag fields' types must be marked `@flags`, cannot verify if `" ++
                  field.value.reference ++ "< ... >` is"))
             validateFlags gas d ctx owner flags)
        pure seenNames)
    ([] : List String)

/-- One iteration of `validate_enum`'s variant loop (`validator.rs` lines
612-683); the state is `(seen_names, default_variant_present,
extension_discriminant)`. -/
def validateEnumStep (gas : Nat) (d : PunybufDefinition) (ctx : List String)
    (owner : Owner) (st : List String × Bool × Option Nat)
    (variant : PBEnumVariant) :
    Except String (List String × Bool × Option Nat) := do
  let (seenNames, defaultVariantPresent, extensionDiscriminant) := st
  if seenNames.contains variant.name then
    .error ("enum variant `" ++ variant.name ++ "` defined twice")
  else do
    let seenNames := seenNames ++ [variant.name]
    let defaultVariantPresent ←
      if variant.attrs.containsKey "@default" then
        if variant.attrs.containsKey "@extension" then
          .error "an enum variant cannot both be `@default` and an `@extension`"
        else if variant.value.isSome then
          .error "a `@default` enum variant cannot have an associated type"
        else
          pure true
      else
        pure defaultVariantPresent
    let extensionDiscriminant ←
      if variant.attrs.containsKey "@extension" then
        if !defaultVariantPresent then
          .error "an `@extension` variant cannot be defined without a `@default` variant present"
        else
          pure (some variant.discriminant)
      else
        match extensionDiscriminant with
        | some extDisc =>
          if extDisc < variant.discriminant then
            .error "a regular enum variant cannot follow an `@extension` one"
          else
            pure extensionDiscriminant
        | none => pure extensionDiscriminant
    (match variant.value with
     | none => pure ()
     | some value => discard <| validateReference gas d ctx value owner)
    pure (seenNames, defaultVariantPresent, extensionDiscriminant)

/-- `PunybufValidator::validate_enum` (`validator.rs` lines 607-685):
unique variant names; a `@default` variant may not be `@extension` and may
not carry a value; `@extension` variants require a preceding `@default` and
no regular variant may follow one; each variant value's reference must
validate. -/
def validateEnum (gas : Nat) (d : PunybufDefinition) (ctx : List String)
    (owner : Owner) (variants : List PBEnumVariant) : Except String Unit :=
  discard <| variants.foldlM (validateEnumStep gas d ctx owner)
    (([] : List String), false, (none : Option Nat))

/-- `PunybufValidator::validate_type` (`validator.rs` lines 686-727). -/
def validateType (gas : Nat) (d : PunybufDefinition) (tp : PBTypeDef) :
    Except String Unit := do
  validateGenericArgs tp.get_generics
  if tp.get_attrs.containsKey "@builtin" then
    pure ()
  else do
    let ctx := tp.get_generics
    let isAlias ←
      match tp with
      | .«alias» _ _ _ _ _ aliasBody _ => do
        discard <| validateReference gas d ctx aliasBody (.typeOwner tp)
        pure true
      | .enum _ _ _ _ _ variants _ _ => do
        validateEnum gas d ctx (.typeOwner tp) variants
        pure false
      | .struct _ _ _ _ _ fields _ _ => do
        validateStruct gas d ctx (.typeOwner tp) fields
        pure false
    if tp.get_attrs.containsKey "@resolve" && !isAlias then
      .error "only aliases may be marked as `@resolve`"
    else
      pure ()

/-- `PunybufValidator::validate_command` (`validator.rs` lines 728-757):
validate the argument, then the return reference (`Void` allowed), then
reject a non-empty error list on a `Void` return, then validate the error
variants.  `context_generic_args` is empty here. -/
def validateCommand (gas : Nat) (d : PunybufDefinition)
    (cmd : PBCommandDef) : Except String Unit :=
  match ((match cmd.argument with
         | .struct fields =>
           validateStruct gas d [] (Owner.commandOwner cmd) fields
         | .ref rf =>
           (match validateReference gas d [] rf (Owner.commandOwner cmd) with
            | .error e => .error e
            | .ok _ => .ok ())
         | .none => .ok ()) : Except String Unit) with
  | .error e => .error e
  | .ok _ =>
    match validateReferenceVoid gas d [] cmd.ret (Owner.commandOwner cmd) with
    | .error e => .error e
    | .ok _ =>
      if cmd.ret.reference == "Void" && cmd.err.length > 0 then
        .error "commands that return `Void` cannot respond with errors"
      else
        validateEnum gas d [] (Owner.commandOwner cmd) cmd.err

/-- An entry of the `declared_things` list in `validate` (span dropped). -/
structure DeclaredThing where
  name : String
  layer : Nat
  kind : Bool
deriving DecidableEq

/-- `PunybufValidator::validate` (`validator.rs` lines 762-866).  The
`kind` of a `DeclaredThing` is `true` for commands.  The
`just_in_case_seen_ids` CRC-collision map is an association list. -/
def validateDefinition (gas : Nat) (d : PunybufDefinition) :
    Except String Unit := do
  let declaredThings ← d.types.foldlM
    (fun (declared : List DeclaredThing) tp => do
      if declared.any (fun x =>
          x.name == tp.get_name && x.layer == tp.get_layer) then
        .error ("`" ++ tp.get_name ++ "` declared twice")
      else do
        if tp.get_name == "Void" && !tp.get_attrs.containsKey "@void" then
          .error "cannot declare a reserved type `Void`, unless the `@void` attribute is present"
        else do
          let declared := declared ++ [⟨tp.get_name, tp.get_layer, false⟩]
          if tp.get_name != "Void" then
            validateType gas d tp
          else
            pure ()
          pure declared)
    ([] : List DeclaredThing)
  discard <| d.commands.foldlM
    (fun (st : List DeclaredThing × List (Nat × String × Nat)) cmd => do
      let (declared, seenIds) := st
      (match declared.find? (fun x =>
          x.name == cmd.name && (x.layer == cmd.layer || x.kind != true)) with
       | some alreadyDecl =>
         if alreadyDecl.layer == cmd.layer then
           .error ("`" ++ cmd.name ++ "` declared twice")
         else if alreadyDecl.kind != true then
           .error ("invalid redeclaration of `" ++ cmd.name ++
             "`; even in different layers, types can't become commands (and vice versa)")
         else
           pure ()
       | none => pure ())
      if cmd.name == "Void" then
        .error "cannot declare a command with the reserved name `Void`"
      else do
        let declared := declared ++ [⟨cmd.name, cmd.layer, true⟩]
        validateCommand gas d cmd
        if (seenIds.find? (fun x => x.1 == cmd.command_id)).isSome then
          .error "by some miracle, two commands produce the same crc32 checksum, and thus, have the same command ID"
        else do
          let seenIds := (seenIds.filter (fun x => x.1 != cmd.command_id)) ++
            [(cmd.command_id, cmd.name, cmd.layer)]
          pure (declared, seenIds))
    (declaredThings, ([] : List (Nat × String × Nat)))

end Punybuf
namespace Punybuf

/-! ## The JSON emitter (`pbd/src/converter.rs`)

The `json` crate's `JsonValue` is modelled by `Json`; objects keep their
entries as an association list, `insert` replacing an existing key in place
or appending a new one.  `HashMap` attribute iteration is modelled in
insertion order.  `convert_full_definition`'s final `json::stringify` step
(pure text rendering) is not modelled. -/

inductive Json where
  | null
  | bool (b : Bool)
  | num (n : Nat)
  | str (s : String)
  | arr (items : List Json)
  | obj (entries : List (String × Json))

/-- `JsonValue::insert` on an object. -/
def jsonObjInsert : List (String × Json) → String → Json → List (String × Json)
  | [], k, v => [(k, v)]
  | (k', v') :: rest, k, v =>
    if k' == k then (k, v) :: rest else (k', v') :: jsonObjInsert rest k v

/-- Whether a JSON object value has an entry with the given key. -/
def Json.hasKey : Json → String → Bool
  | .obj entries, k => entries.any (fun p => p.1 == k)
  | _, _ => false

/-- Look up a key of a JSON object value. -/
def Json.getKey : Json → String → Option Json
  | .obj entries, k => (entries.find? (fun p => p.1 == k)).map (·.2)
  | _, _ => none

/-- `convert_attrs` (`converter.rs` lines 86-93). -/
def convertAttrs (attrs : Attrs) : Json :=
  .obj (attrs.map (fun p =>
    (p.1, match p.2 with | none => Json.null | some s => Json.str s)))

mutual
/-- `convert_ref` (`converter.rs` lines 95-101): the tuple form
`[name, resolved_layer | null, [generic refs]]`. -/
def convertRef : PBTypeRef → Json
  | .mk name gens rl _ _ =>
    .arr [.str name,
      (match rl with | none => Json.null | some l => Json.num l),
      .arr (convertRefList gens)]
def convertRefList : List PBTypeRef → List Json
  | [] => []
  | r :: rs => convertRef r :: convertRefList rs
end

/-- `convert_fields` (`converter.rs` lines 103-130). -/
def convertFields (fields : List PBField) : Json :=
  .arr (fields.map (fun v =>
    .obj [("name", .str v.name),
      ("attrs", convertAttrs v.attrs),
      ("doc", .str v.doc),
      ("value", convertRef v.value),
      ("flags", match v.flags with
        | none => .null
        | some flags => .arr (flags.map (fun flag =>
            .obj [("name", .str flag.name),
              ("attrs", convertAttrs flag.attrs),
              ("doc", .str flag.doc),
              ("value", match flag.value with
                | none => .null
                | some r => convertRef r)])))]))

/-- `convert_enum_variants` (`converter.rs` lines 132-146). -/
def convertEnumVariants (variants : List PBEnumVariant) : Json :=
  .arr (variants.map (fun v =>
    .obj [("name", .str v.name),
      ("discriminant", .num v.discriminant),
      ("attrs", convertAttrs v.attrs),
      ("doc", .str v.doc),
      ("value", match v.value with
        | none => .null
        | some r => convertRef r)]))

/-- `convert_type` (`converter.rs` lines 148-174). -/
def convertType (tp : PBTypeDef) : Json :=
  let base : List (String × Json) :=
    [("name", .str tp.get_name),
     ("layer", .num tp.get_layer),
     ("generic_args", .arr (tp.get_generics.map Json.str)),
     ("attrs", convertAttrs tp.get_attrs),
     ("doc", .str tp.get_doc),
     ("inline_owner", match tp.get_inline_owner with
       | none => .null
       | some io => .str io)]
  match tp with
  | .«alias» _ _ _ _ _ aliasBody _ =>
    .obj (jsonObjInsert (jsonObjInsert base "is" (.str "alias"))
      "alias" (convertRef aliasBody))
  | .struct _ _ _ _ _ fields _ _ =>
    .obj (jsonObjInsert (jsonObjInsert base "is" (.str "struct"))
      "fields" (convertFields fields))
  | .enum _ _ _ _ _ variants _ _ =>
    .obj (jsonObjInsert (jsonObjInsert base "is" (.str "enum"))
      "variants" (convertEnumVariants variants))

/-- `convert_command` (`converter.rs` lines 176-201): the argument object
is built first (empty for `PBCommandArg::None`), then stored in the command
object under the key `"arg"`. -/
def convertCommand (cmd : PBCommandDef) : Json :=
  let arg : List (String × Json) :=
    match cmd.argument with
    | .ref refr =>
      jsonObjInsert (jsonObjInsert [] "is" (.str "ref")) "ref" (convertRef refr)
    | .struct fields =>
      jsonObjInsert (jsonObjInsert [] "is" (.str "struct"))
        "fields" (convertFields fields)
    | .none => []
  .obj [("name", .str cmd.name),
    ("layer", .num cmd.layer),
    ("id", .num cmd.command_id),
    ("attrs", convertAttrs cmd.attrs),
    ("doc", .str cmd.doc),
    ("arg", .obj arg),
    ("ret", convertRef cmd.ret),
    ("err", convertEnumVariants cmd.err)]

/-- `convert_full_definition` (`converter.rs` lines 203-209), up to the
final `json::stringify`. -/
def convertFullDefinition (d : PunybufDefinition) : Json :=
  .obj [("includes_common", .bool d.includes_common),
    ("types", .arr (d.types.map convertType)),
    ("commands", .arr (d.commands.map convertCommand))]

end Punybuf
namespace Punybuf

/-! ## The flattener (`pbd/src/parser.rs` AST and `pbd/src/flattener.rs`)

The parser's declaration AST, with spans dropped, and the flattening pass
that produces the canonical `PunybufDefinition`.  The mutually nested
flattening functions recurse on an explicit `gas` fuel; the real recursion
is structural on the AST. -/

mutual
/-- `ValueReference` (`parser.rs` lines 8-22). -/
inductive ValueReference where
  | reference (name : String) (generics : List ValueReference)
  | inlineDeclaration (symbol : String) (decl : FlexibleDeclarationValue)

/-- `FieldFlag` (`parser.rs` lines 38-45). -/
inductive FieldFlag where
  | mk (name : String) (value : Option ValueReference) (attrs : Attrs)
      (doc : String)

/-- `Field` (`parser.rs` lines 47-55). -/
inductive Field where
  | mk (name : String) (value : ValueReference)
      (flags : Option (List FieldFlag)) (attrs : Attrs) (doc : String)

/-- `EnumVariant` (`parser.rs` lines 57-65). -/
inductive EnumVariant where
  | mk (name : String) (discriminant : Nat) (value : Option ValueReference)
      (attrs : Attrs) (doc : String)

/-- `ValueEnumVariant` (`parser.rs` lines 67-73). -/
inductive ValueEnumVariant where
  | mk (discriminant : Nat) (value : ValueReference) (attrs : Attrs)
      (doc : String)

/-- `FlexibleDeclarationValue` (`parser.rs` lines 75-92). -/
inductive FlexibleDeclarationValue where
  | structDeclaration (inline : Bool) (layer : Nat) (fields : List Field)
  | enumDeclaration (inline : Bool) (layer : Nat) (variants : List EnumVariant)
  | valueEnumDeclaration (inline : Bool) (layer : Nat)
      (variants : List ValueEnumVariant)
end

/-- `ValueReference::get_name` (`parser.rs` lines 23-29). -/
def ValueReference.get_name : ValueReference → String
  | .reference name _ => name
  | .inlineDeclaration symbol _ => symbol

/-- `CommandArgument` (`parser.rs` lines 94-101). -/
inductive CommandArgument where
  | none
  | reference (r : ValueReference)
  | struct (fields : List Field)

/-- `DeclarationValue` (`parser.rs` lines 103-126). -/
inductive DeclarationValue where
  | flexible (val : FlexibleDeclarationValue) (generic_args : List String)
  | aliasDeclaration (generic_args : List String) (layer : Nat)
      (aliasRef : ValueReference)
  | commandDeclaration (argument : CommandArgument) (layer : Nat)
      (ret : ValueReference) (err : Option FlexibleDeclarationValue)

/-- `Declaration` (`parser.rs` lines 128-135). -/
structure Declaration where
  symbol : String
  value : DeclarationValue
  attrs : Attrs
  doc : String

/-- Split a character list on `'\n'` (the structural core of
`str::lines`). -/
def splitNl : List Char → List (List Char)
  | [] => [[]]
  | c :: cs =>
    match splitNl cs with
    | [] => [[]]
    | a :: as => if c == '\n' then [] :: a :: as else (c :: a) :: as

/-- `str::trim`: drop leading and trailing whitespace. -/
def rustTrimChars (l : List Char) : List Char :=
  ((l.dropWhile Char.isWhitespace).reverse.dropWhile Char.isWhitespace).reverse

/-- `str::lines`: split on `'\n'`, strip one trailing `'\r'` per line, no
empty line for a trailing newline. -/
def rustLines (s : String) : List String :=
  let parts := splitNl s.data
  let parts := if parts.getLast? == some [] then parts.dropLast else parts
  parts.map (fun l =>
    (⟨match l.reverse with
      | '\x0d' :: rest => rest.reverse
      | _ => l⟩ : String))

/-- The character loop of `flatten_doc`'s indent stripping
(`flattener.rs` lines 219-227): the running `whitespace_count` drops to `0`
at the first non-whitespace character, and characters at index `≥
whitespace_count` are kept. -/
def stripIndentChars (wc : Nat) (i : Nat) : List Char → List Char
  | [] => []
  | c :: cs =>
    let wc := if !c.isWhitespace then 0 else wc
    (if wc ≤ i then [c] else []) ++ stripIndentChars wc (i + 1) cs

/-- Leading-whitespace count of a line. -/
def leadingWhitespace (l : List Char) : Nat :=
  (l.takeWhile Char.isWhitespace).length

/-- `PunybufDefinition::flatten_doc` (`flattener.rs` lines 193-239):
normalize a documentation block — skip leading blank lines; if there was a
leading blank line, strip the first line's indent from every line; otherwise
`trim()` each line; drop trailing newlines. -/
def flattenDoc (doc : String) : String :=
  let step := fun (st : String × Bool × Bool × Option Nat) (line : String) =>
    let (result, isEmptyFirstLine, isSkippingEmptyLines, removeWhitespace) := st
    if isSkippingEmptyLines && line.data.all Char.isWhitespace then
      (result, true, true, removeWhitespace)
    else
      let isSkippingEmptyLines := false
      if isEmptyFirstLine then
        let removeWhitespace :=
          match removeWhitespace with
          | none => some (leadingWhitespace line.data)
          | some n => some n
        let wc := removeWhitespace.getD 0
        (result ++ ⟨stripIndentChars wc 0 line.data⟩ ++ "\n",
          isEmptyFirstLine, isSkippingEmptyLines, removeWhitespace)
      else
        (result ++ (⟨rustTrimChars line.data⟩ : String) ++ "\n",
          isEmptyFirstLine, isSkippingEmptyLines, removeWhitespace)
  let (result, _, _, _) :=
    (rustLines doc).foldl step ("", false, true, none)
  ⟨(result.data.reverse.dropWhile (fun c => c == '\n')).reverse⟩

mutual
/-- `PunybufDefinition::flatten_reference` (`flattener.rs` lines 240-273):
a plain reference is flattened with `is_global := true` and no resolved
layer; an inline declaration is hoisted to a top-level type (with empty doc,
attrs and generics) and replaced by a plain reference to its symbol. -/
def flattenReference (gas : Nat) (st : PunybufDefinition)
    (refr : ValueReference) : Except String (PunybufDefinition × PBTypeRef) :=
  match gas with
  | 0 => .error "out of fuel (model artifact)"
  | gas + 1 =>
    match refr with
    | .reference name generics =>
      (match flattenReferenceList gas st generics with
       | .error e => .error e
       | .ok (st, gens) => .ok (st, .mk name gens none false true))
    | .inlineDeclaration symbol decl =>
      match flattenFlexibleDecl gas st symbol "" [] decl [] with
      | .error e => .error e
      | .ok st => .ok (st, .mk symbol [] none false true)

def flattenReferenceList (gas : Nat) (st : PunybufDefinition) :
    List ValueReference → Except String (PunybufDefinition × List PBTypeRef)
  | [] => .ok (st, [])
  | r :: rs =>
    match gas with
    | 0 => .error "out of fuel (model artifact)"
    | gas + 1 =>
      match flattenReference gas st r with
      | .error e => .error e
      | .ok (st, r') =>
        match flattenReferenceList gas st rs with
        | .error e => .error e
        | .ok (st, rs') => .ok (st, r' :: rs')

/-- `PunybufDefinition::flatten_field` (`flattener.rs` lines 274-288). -/
def flattenField (gas : Nat) (st : PunybufDefinition) (field : Field) :
    Except String (PunybufDefinition × PBField) :=
  match gas with
  | 0 => .error "out of fuel (model artifact)"
  | gas + 1 =>
    match field with
    | .mk name value flags attrs doc =>
      match (match flags with
             | none =>
               (.ok (st, none) :
                 Except String (PunybufDefinition × Option (List PBFieldFlag)))
             | some fs =>
               match flattenFieldFlagList gas st fs with
               | .error e => .error e
               | .ok (st, fs') => .ok (st, some fs')) with
      | .error e => .error e
      | .ok (st, flags') =>
        match flattenReference gas st value with
        | .error e => .error e
        | .ok (st, value') =>
          .ok (st,
            { name := name, value := value', flags := flags',
              attrs := attrs, doc := flattenDoc doc })

def flattenFieldFlagList (gas : Nat) (st : PunybufDefinition) :
    List FieldFlag → Except String (PunybufDefinition × List PBFieldFlag)
  | [] => .ok (st, [])
  | .mk name value attrs doc :: fs =>
    match gas with
    | 0 => .error "out of fuel (model artifact)"
    | gas + 1 =>
      match (match value with
             | none =>
               (.ok (st, none) :
                 Except String (PunybufDefinition × Option PBTypeRef))
             | some rf =>
               match flattenReference gas st rf with
               | .error e => .error e
               | .ok (st, rf') => .ok (st, some rf')) with
      | .error e => .error e
      | .ok (st, value') =>
        match flattenFieldFlagList gas st fs with
        | .error e => .error e
        | .ok (st, fs') =>
          .ok (st,
            ({ name := name, value := value', attrs := attrs,
               doc := flattenDoc doc } : PBFieldFlag) :: fs')

def flattenFieldList (gas : Nat) (st : PunybufDefinition) :
    List Field → Except String (PunybufDefinition × List PBField)
  | [] => .ok (st, [])
  | f :: fs =>
    match gas with
    | 0 => .error "out of fuel (model artifact)"
    | gas + 1 =>
      match flattenField gas st f with
      | .error e => .error e
      | .ok (st, f') =>
        match flattenFieldList gas st fs with
        | .error e => .error e
        | .ok (st, fs') => .ok (st, f' :: fs')

/-- `PunybufDefinition::flatten_enum_variant` (`flattener.rs` lines
289-296), mapped over a variant list. -/
def flattenEnumVariantList (gas : Nat) (st : PunybufDefinition) :
    List EnumVariant → Except String (PunybufDefinition × List PBEnumVariant)
  | [] => .ok (st, [])
  | .mk name discriminant value attrs doc :: vs =>
    match gas with
    | 0 => .error "out of fuel (model artifact)"
    | gas + 1 =>
      match (match value with
             | none =>
               (.ok (st, none) :
                 Except String (PunybufDefinition × Option PBTypeRef))
             | some rf =>
               match flattenReference gas st rf with
               | .error e => .error e
               | .ok (st, rf') => .ok (st, some rf')) with
      | .error e => .error e
      | .ok (st, value') =>
        match flattenEnumVariantList gas st vs with
        | .error e => .error e
        | .ok (st, vs') =>
          .ok (st,
            ({ name := name, discriminant := discriminant,
               value := value', attrs := attrs, doc := flattenDoc doc } :
              PBEnumVariant) :: vs')

/-- `PunybufDefinition::flatten_value_enum_variant` (`flattener.rs` lines
297-306): the variant's name is the referenced type's name. -/
def flattenValueEnumVariantList (gas : Nat) (st : PunybufDefinition) :
    List ValueEnumVariant →
      Except String (PunybufDefinition × List PBEnumVariant)
  | [] => .ok (st, [])
  | .mk discriminant value attrs doc :: vs =>
    match gas with
    | 0 => .error "out of fuel (model artifact)"
    | gas + 1 =>
      match flattenReference gas st value with
      | .error e => .error e
      | .ok (st, value') =>
        match flattenValueEnumVariantList gas st vs with
        | .error e => .error e
        | .ok (st, vs') =>
          .ok (st,
            ({ name := value.get_name, discriminant := discriminant,
               value := some value', attrs := attrs, doc := flattenDoc doc } :
              PBEnumVariant) :: vs')

/-- `PunybufDefinition::flatten_flexible_decl` (`flattener.rs` lines
307-366): push one `PBTypeDef` for the declaration, remembering the
enclosing declaration as `inline_owner` and installing this declaration as
the context owner while its body is flattened. -/
def flattenFlexibleDecl (gas : Nat) (st : PunybufDefinition) (name : String)
    (doc : String) (attrs : Attrs) (decl : FlexibleDeclarationValue)
    (generic_args : List String) : Except String PunybufDefinition :=
  match gas with
  | 0 => .error "out of fuel (model artifact)"
  | gas + 1 =>
    let inlineOwner := st.context_inline_owner
    let revertOwner := inlineOwner
    let st : PunybufDefinition := { st with context_inline_owner := some name }
    match ((match decl with
           | .enumDeclaration inline layer variants =>
             if inlineOwner == none && inline then
               .error "bad state: root-level declaration marked inline"
             else
               (match flattenEnumVariantList gas st variants with
                | .error e => .error e
                | .ok (st, variants') =>
                  .ok { st with types := st.types ++
                    [PBTypeDef.enum name (flattenDoc doc) layer attrs
                      generic_args variants' inlineOwner false] })
           | .structDeclaration inline layer fields =>
             if inlineOwner == none && inline then
               .error "bad state: root-level declaration marked inline"
             else
               (match flattenFieldList gas st fields with
                | .error e => .error e
                | .ok (st, fields') =>
                  .ok { st with types := st.types ++
                    [PBTypeDef.struct name (flattenDoc doc) layer attrs
                      generic_args fields' inlineOwner false] })
           | .valueEnumDeclaration inline layer variants =>
             if inlineOwner == none && inline then
               .error "bad state: root-level declaration marked inline"
             else
               match flattenValueEnumVariantList gas st variants with
               | .error e => .error e
               | .ok (st, variants') =>
                 .ok { st with types := st.types ++
                   [PBTypeDef.enum name (flattenDoc doc) layer attrs
                     generic_args variants' inlineOwner false] }) :
          Except String PunybufDefinition) with
    | .error e => .error e
    | .ok st => .ok { st with context_inline_owner := revertOwner }
end

/-- One iteration of `flatten`'s declaration loop (`flattener.rs` lines
372-438). -/
def flattenOneDecl (gas : Nat) (st : PunybufDefinition)
    (decl : Declaration) : Except String PunybufDefinition :=
  match decl.value with
  | .commandDeclaration argument layer ret err =>
    match (match argument with
           | .none =>
             (.ok (st, PBCommandArg.none) :
               Except String (PunybufDefinition × PBCommandArg))
           | .reference refr =>
             (match flattenReference gas st refr with
              | .error e => .error e
              | .ok (st, r) => .ok (st, PBCommandArg.ref r))
           | .struct fields =>
             match flattenFieldList gas st fields with
             | .error e => .error e
             | .ok (st, fs) => .ok (st, PBCommandArg.struct fs)) with
    | .error e => .error e
    | .ok (st, pbArg) =>
      match (match err with
             | some (.structDeclaration ..) =>
               (.error "errors are always enums (or value-enums), got a struct" :
                 Except String (PunybufDefinition × List PBEnumVariant))
             | some (.enumDeclaration _ _ variants) =>
               flattenEnumVariantList gas st variants
             | some (.valueEnumDeclaration _ _ variants) =>
               flattenValueEnumVariantList gas st variants
             | none => .ok (st, [])) with
      | .error e => .error e
      | .ok (st, errVariants) =>
        match flattenReference gas st ret with
        | .error e => .error e
        | .ok (st, ret') =>
          .ok { st with commands := st.commands ++
            [{ name := decl.symbol, argument := pbArg, attrs := decl.attrs,
               doc := flattenDoc decl.doc, layer := layer,
               command_id := commandIdOf decl.symbol layer, ret := ret',
               err := errVariants, is_highest_layer := false }] }
  | .aliasDeclaration generic_args layer aliasRef =>
    (match flattenReference gas st aliasRef with
     | .error e => .error e
     | .ok (st, aliasBody) =>
       .ok { st with types := st.types ++
         [PBTypeDef.«alias» decl.symbol (flattenDoc decl.doc) layer decl.attrs
           generic_args aliasBody false] })
  | .flexible val generic_args =>
    flattenFlexibleDecl gas st decl.symbol decl.doc decl.attrs val
      generic_args

/-- The declaration loop of `flatten` (`flattener.rs` lines 372-439). -/
def flattenDecls (gas : Nat) (st : PunybufDefinition) :
    List Declaration → Except String PunybufDefinition
  | [] => .ok st
  | decl :: decls =>
    match flattenOneDecl gas st decl with
    | .error e => .error e
    | .ok st => flattenDecls gas st decls

/-- `flatten` (`pbd/src/flattener.rs` lines 369-442): fold the declaration
list into a fresh `PunybufDefinition`, computing each command's
`command_id = PB_CRC.checksum("name.layer")`. -/
def flatten (gas : Nat) (decls : List Declaration) (includesCommon : Bool) :
    Except String PunybufDefinition :=
  flattenDecls gas ⟨[], [], includesCommon, none⟩ decls

end Punybuf
namespace Punybuf

/-! ## Claim-side notions for the resolver invariant

`layersOf`/`greatestLayerLE` express "the layers at which a declaration of
this name exists" directly over the definition, independent of the
resolver's commands-first lookup; `refTreeOKb` is the per-reference
invariant of the resolved IR; `tameRef`, `inputRefOKb`, and
`crossKindDisjointb` capture the shape facts that hold of a flattened,
validated definition. -/

/-- The layers at which a declaration (type or command) named `name` exists
in the definition. -/
def layersOf (d : PunybufDefinition) (name : String) : List Nat :=
  (d.types.filter (fun tp => tp.get_name == name)).map PBTypeDef.get_layer ++
  (d.commands.filter (fun cmd => cmd.name == name)).map PBCommandDef.layer

/-- The greatest layer `≤ limit` (no bound when `limit = none`) at which a
declaration named `name` exists. -/
def greatestLayerLE (d : PunybufDefinition) (name : String)
    (limit : Option Nat) : Option Nat :=
  maxByKeyLast id ((layersOf d name).filter (fun l => layerWithin l limit))

mutual
/-- The claimed invariant at a single reference and, recursively, at its
generic arguments: a global, non-`Void` reference is resolved to the
greatest layer `≤ parentLayer` at which its target exists, and is flagged
highest-layer iff that layer is the target's overall greatest layer. -/
def refTreeOKb (d : PunybufDefinition) (parentLayer : Nat) :
    PBTypeRef → Bool
  | .mk name gens rl ih ig =>
    (if !ig || name == "Void" then true
     else
       match greatestLayerLE d name (some parentLayer) with
       | none => false
       | some L =>
         rl == some L && (ih == (greatestLayerLE d name none == some L))) &&
    refsTreeOKb d parentLayer gens
def refsTreeOKb (d : PunybufDefinition) (parentLayer : Nat) :
    List PBTypeRef → Bool
  | [] => true
  | r :: rs => refTreeOKb d parentLayer r && refsTreeOKb d parentLayer rs
end

mutual
/-- A reference is *tame* when every non-global or `Void`-named
sub-reference (itself included) carries no generic arguments.  In a
validated definition this holds of every reference: a generic parameter
cannot be given generic arguments, and `Void` takes none. -/
def tameRef : PBTypeRef → Bool
  | .mk name gens _ _ ig =>
    (if !ig || name == "Void" then gens.isEmpty else true) && tameRefs gens
def tameRefs : List PBTypeRef → Bool
  | [] => true
  | r :: rs => tameRef r && tameRefs rs
end

mutual
/-- The validated-input shape of a reference inside a type declaration with
generic parameters `ga`, before the resolver's Phase A: a reference naming a
generic parameter, or `Void`, has no generic arguments. -/
def inputRefOKb (ga : List String) : PBTypeRef → Bool
  | .mk name gens _ _ _ =>
    (if ga.contains name || name == "Void" then gens.isEmpty else true) &&
    inputRefsOKb ga gens
def inputRefsOKb (ga : List String) : List PBTypeRef → Bool
  | [] => true
  | r :: rs => inputRefOKb ga r && inputRefsOKb ga rs
end

mutual
/-- The validated-input shape of a reference inside a command, as the
flattener produces it: every sub-reference is global (commands take no
generic parameters) and `Void` references carry no generic arguments. -/
def cmdInputRefOKb : PBTypeRef → Bool
  | .mk name gens _ _ ig =>
    ig && (if name == "Void" then gens.isEmpty else true) &&
    cmdInputRefsOKb gens
def cmdInputRefsOKb : List PBTypeRef → Bool
  | [] => true
  | r :: rs => cmdInputRefOKb r && cmdInputRefsOKb rs
end

/-- The top-level references of a struct field list: each field's value and
each flag's value. -/
def fieldsTopRefs (fields : List PBField) : List PBTypeRef :=
  fields.flatMap (fun f =>
    f.value :: (match f.flags with
      | none => []
      | some flags => flags.filterMap (fun fl => fl.value)))

/-- The top-level references of a type declaration: the alias target, the
struct field and flag values, or the enum variant values. -/
def typeTopRefs : PBTypeDef → List PBTypeRef
  | .«alias» _ _ _ _ _ aliasBody _ => [aliasBody]
  | .struct _ _ _ _ _ fields _ _ => fieldsTopRefs fields
  | .enum _ _ _ _ _ variants _ _ => variants.filterMap (fun v => v.value)

/-- The top-level references of a command: the argument's reference or
struct fields, the return, and the error variant values. -/
def cmdTopRefs (cmd : PBCommandDef) : List PBTypeRef :=
  (match cmd.argument with
   | .none => []
   | .ref r => [r]
   | .struct fields => fieldsTopRefs fields) ++
  [cmd.ret] ++ cmd.err.filterMap (fun v => v.value)

/-- No name is declared both as a type and as a command (in any layers);
the validator enforces this. -/
def crossKindDisjointb (d : PunybufDefinition) : Bool :=
  d.types.all (fun tp => !(d.commands.any (fun cmd => cmd.name == tp.get_name)))

/-- A command argument, as the validator accepts it: a `Ref` argument is a
global reference not named `Void` (`validator.rs` line 164 rejects `Void`
everywhere but command returns).  On such input the resolver's apply loop
never takes the `continue` at `resolver.rs` line 530. -/
def cmdArgOKb (cmd : PBCommandDef) : Bool :=
  match cmd.argument with
  | .ref r => r.is_global && !(r.reference == "Void")
  | _ => true

/-- The validated-input shape of a whole definition handed to the
resolver. -/
def inputWFb (d : PunybufDefinition) : Bool :=
  d.types.all (fun tp => (typeTopRefs tp).all (inputRefOKb tp.get_generics)) &&
  d.commands.all (fun cmd => (cmdTopRefs cmd).all cmdInputRefOKb) &&
  d.commands.all cmdArgOKb

/-- The claimed invariant over every reference of the definition, each
judged at its owning declaration's layer. -/
def defRefsOKb (d : PunybufDefinition) : Bool :=
  d.types.all (fun tp => (typeTopRefs tp).all (refTreeOKb d tp.get_layer)) &&
  d.commands.all (fun cmd => (cmdTopRefs cmd).all (refTreeOKb d cmd.layer))

/-! ## Concrete schemas used by the claims -/

/-- Modelled from the spec: the built-in `common` schema (baked into the
binary, not under `src/`) declares the wire primitives as `@builtin` types;
the resolver notes they are "defined like `Type = Type`".  `U8` as such a
self-alias. -/
def c2U8 : PBTypeDef :=
  .«alias» "U8" "" 0 [("@builtin", none)] [] (.mk "U8" [] none false true) false

/-- Modelled from the spec: the built-in `common` declaration of `U16`,
as a `@builtin` self-alias. -/
def c2U16 : PBTypeDef :=
  .«alias» "U16" "" 0 [("@builtin", none)] [] (.mk "U16" [] none false true) false

/-- `A = { n: U8 }` at layer 0. -/
def c2A0 : PBTypeDef :=
  .struct "A" "" 0 [] [] [⟨"n", .mk "U8" [] none false true, none, [], ""⟩]
    none false

/-- `A = { n: U16 }` at layer 1 (after `layer 1:`). -/
def c2A1 : PBTypeDef :=
  .struct "A" "" 1 [] [] [⟨"n", .mk "U16" [] none false true, none, [], ""⟩]
    none false

/-- `B = { a: A }`.  The parser's `layer N :` directive sets the layer for
*all* following declarations (`parser.rs` lines 152, 368-389), so `B`,
written after `layer 1: A = { n: U16 }`, is at layer 1. -/
def c2B1 : PBTypeDef :=
  .struct "B" "" 1 [] [] [⟨"a", .mk "A" [] none false true, none, [], ""⟩]
    none false

/-- The flattened definition of the scenario-S1 schema
`A = { n: U8 } ; layer 1: A = { n: U16 } ; B = { a: A }`, together with the
two `common` builtins it references. -/
def c2Def : PunybufDefinition :=
  ⟨[c2U8, c2U16, c2A0, c2A1, c2B1], [], true, none⟩

/-- The resolver's output on `c2Def`, written out. -/
def c2Resolved : PunybufDefinition :=
  ⟨[.«alias» "U8" "" 0 [("@builtin", none)] []
       (.mk "U8" [] (some 0) true true) true,
    .«alias» "U16" "" 0 [("@builtin", none)] []
       (.mk "U16" [] (some 0) true true) true,
    .struct "A" "" 0 [] []
       [⟨"n", .mk "U8" [] (some 0) true true, none, [], ""⟩] none false,
    .struct "A" "" 1 [] []
       [⟨"n", .mk "U16" [] (some 0) true true, none, [], ""⟩] none true,
    .struct "B" "" 1 [] []
       [⟨"a", .mk "A" [] (some 1) true true, none, [], ""⟩] none true],
   [], true, none⟩

/-- A command `Login : {} -> Done` at layer 0, as flattened. -/
def c6Cmd : PBCommandDef :=
  ⟨"Login", .none, [], "", 0, commandIdOf "Login" 0,
    .mk "Done" [] none false true, [], false⟩

/-- An enum with two value-less `@default` variants. -/
def c7Enum : PBTypeDef :=
  .enum "E" "" 0 [] []
    [⟨"First", 0, none, [("@default", none)], ""⟩,
     ⟨"Second", 1, none, [("@default", none)], ""⟩]
    none false

/-- A definition containing only the two-`@default` enum. -/
def c7Def : PunybufDefinition := ⟨[c7Enum], [], false, none⟩

/-- Modelled from the spec: the built-in `common` declaration of the
reserved `Void` type, a `@builtin` self-alias carrying `@void`. -/
def c9Void : PBTypeDef :=
  .«alias» "Void" "" 0 [("@builtin", none), ("@void", none)] []
    (.mk "Void" [] none false true) false

/-- A command `Ping : {} -> Void` with no error variants. -/
def c9Ping : PBCommandDef :=
  ⟨"Ping", .none, [], "", 0, commandIdOf "Ping" 0,
    .mk "Void" [] none false true, [], false⟩

/-- A command `Pong : {} -> Void` that (invalidly) declares an error
variant. -/
def c9Bad : PBCommandDef :=
  ⟨"Pong", .none, [], "", 0, commandIdOf "Pong" 0,
    .mk "Void" [] none false true, [⟨"SomeError", 1, none, [], ""⟩], false⟩

/-- A definition with the `Void` builtin and the valid `Ping` command. -/
def c9Def : PunybufDefinition := ⟨[c9Void], [c9Ping], true, none⟩

/-- The declaration `Ping : {} -> Void`, as parsed. -/
def c5PingDecl : Declaration :=
  ⟨"Ping", .commandDeclaration .none 0 (.reference "Void" []) none, [], ""⟩

/-- Every command's `command_id` is the `CRC32/cksum` checksum of
`"name.layer"`. -/
def cmdIdsOKb (d : PunybufDefinition) : Bool :=
  d.commands.all (fun cmd => cmd.command_id == commandIdOf cmd.name cmd.layer)

/-- The flattener's output on the single declaration `Ping : {} -> Void`. -/
def c5Flat : PunybufDefinition :=
  ⟨[], [⟨"Ping", .none, [], "", 0, commandIdOf "Ping" 0,
      .mk "Void" [] none false true, [], false⟩], true, none⟩

/-- The resolver's output on the `Void`-builtin-plus-`Ping` definition. -/
def c5ResOut : PunybufDefinition :=
  ⟨[.«alias» "Void" "" 0 [("@builtin", none), ("@void", none)] []
       (.mk "Void" [] none false true) true],
   [⟨"Ping", .none, [], "", 0, commandIdOf "Ping" 0,
       .mk "Void" [] none false true, [], true⟩], true, none⟩

end Punybuf
namespace Punybuf

/-! ## Read-pass correspondence predicates for the resolver invariant

`rrOKb refr res` relates a reference to the resolution the read pass
computed for it; the apply pass turns such a pair into a reference
satisfying `refTreeOKb`.  The remaining predicates lift the correspondence
over flags, fields, variants, whole type declarations and commands. -/

/-- Every declaration's top-level references (and their generic subtrees)
are tame. -/
def defTame (d : PunybufDefinition) : Bool :=
  d.types.all (fun tp => (typeTopRefs tp).all tameRef) &&
  d.commands.all (fun cmd => (cmdTopRefs cmd).all tameRef)

mutual
/-- Correspondence between a reference and its read-pass resolution:
`none` is reserved for excluded (non-global or `Void`) references, a
`dealias` carries an already-valid replacement tree, and a `resolved`
records the two layer facts of the claim together with resolutions for the
generic arguments. -/
def rrOKb (d : PunybufDefinition) (pl : Nat) :
    PBTypeRef → Option ResolvedReference → Bool
  | refr, none => (!refr.is_global || refr.reference == "Void") && tameRef refr
  | _, some (.dealias r2) => refTreeOKb d pl r2 && tameRef r2
  | .mk name gens _ _ ig, some (.resolved rl ih ress) =>
    ig && !(name == "Void") &&
    (greatestLayerLE d name (some pl) == some rl) &&
    (ih == (greatestLayerLE d name none == some rl)) &&
    rrsOKb d pl gens ress
def rrsOKb (d : PunybufDefinition) (pl : Nat) :
    List PBTypeRef → List (Option ResolvedReference) → Bool
  | [], [] => true
  | g :: gs, r :: rs => rrOKb d pl g r && rrsOKb d pl gs rs
  | _, _ => false
end

/-- Correspondence for one field flag: only flags that carry a value
constrain the resolution. -/
def flagOKb (d : PunybufDefinition) (pl : Nat) (flag : PBFieldFlag)
    (res : Option ResolvedReference) : Bool :=
  match flag.value with
  | none => true
  | some v => rrOKb d pl v res

def flagsOKb (d : PunybufDefinition) (pl : Nat) :
    List PBFieldFlag → List (Option ResolvedReference) → Bool
  | [], [] => true
  | fl :: fls, r :: rs => flagOKb d pl fl r && flagsOKb d pl fls rs
  | _, _ => false

/-- Correspondence for one struct field: its value resolution plus, when
the field declares flags, their resolutions. -/
def fieldOKb (d : PunybufDefinition) (pl : Nat) (field : PBField)
    (rf : ResolvedField) : Bool :=
  rrOKb d pl field.value rf.refr &&
  (match field.flags, rf.flags with
   | none, _ => true
   | some fls, some rfls => flagsOKb d pl fls rfls
   | some _, none => false)

def fieldsOKb (d : PunybufDefinition) (pl : Nat) :
    List PBField → List ResolvedField → Bool
  | [], [] => true
  | f :: fs, rf :: rfs => fieldOKb d pl f rf && fieldsOKb d pl fs rfs
  | _, _ => false

/-- Correspondence for one enum variant. -/
def variantOKb (d : PunybufDefinition) (pl : Nat) (variant : PBEnumVariant)
    (res : Option ResolvedReference) : Bool :=
  match variant.value with
  | none => true
  | some v => rrOKb d pl v res

def variantsOKb (d : PunybufDefinition) (pl : Nat) :
    List PBEnumVariant → List (Option ResolvedReference) → Bool
  | [], [] => true
  | v :: vs, r :: rs => variantOKb d pl v r && variantsOKb d pl vs rs
  | _, _ => false

/-- Correspondence between a type declaration and its read-pass
resolution record. -/
def rtdOKb (d : PunybufDefinition) (tp : PBTypeDef)
    (res : ResolvedTypeDef) : Bool :=
  match tp, res.data with
  | .«alias» _ _ layer _ _ body _, .«alias» r => rrOKb d layer body r
  | .struct _ _ layer _ _ fields _ _, .struct rfs =>
    fieldsOKb d layer fields rfs
  | .enum _ _ layer _ _ variants _ _, .enum rvs =>
    variantsOKb d layer variants rvs
  | _, _ => false

/-- Correspondence between a command and its read-pass resolution
record. -/
def rcOKb (d : PunybufDefinition) (cmd : PBCommandDef)
    (res : ResolvedCommand) : Bool :=
  rrOKb d cmd.layer cmd.ret res.ret &&
  variantsOKb d cmd.layer cmd.err res.err &&
  (match cmd.argument, res.arg with
   | .none, _ => true
   | .ref r, .ref rr => rrOKb d cmd.layer r rr
   | .struct fs, .struct rfs => fieldsOKb d cmd.layer fs rfs
   | _, _ => false)

mutual
/-- Size measure on reference trees, used to drive inductions that follow
`apply_resolution_to_reference`'s recursion. -/
def refSize : PBTypeRef → Nat
  | .mk _ gens _ _ _ => refsSize gens + 1
def refsSize : List PBTypeRef → Nat
  | [] => 0
  | g :: gs => refSize g + refsSize gs + 1
end

end Punybuf
namespace Punybuf

/-! ## Bounded bitwise facts used by the `UInt` round-trip proofs -/

theorem or128_facts :
    ∀ x < 64, (x ||| 128) >>> 7 = 1 ∧ (x ||| 128) &&& 64 = 0 ∧
      (x ||| 128) &&& 63 = x := by decide

theorem or192_facts :
    ∀ x < 32, (x ||| 192) >>> 7 = 1 ∧ (x ||| 192) &&& 64 = 64 ∧
      (x ||| 192) &&& 32 = 0 ∧ (x ||| 192) &&& 31 = x := by decide

theorem or224_facts :
    ∀ x < 16, (x ||| 224) >>> 7 = 1 ∧ (x ||| 224) &&& 64 = 64 ∧
      (x ||| 224) &&& 32 = 32 ∧ (x ||| 224) &&& 16 = 0 ∧
      (x ||| 224) &&& 15 = x := by decide

theorem or240_facts :
    ∀ x < 16, (x ||| 240) >>> 7 = 1 ∧ (x ||| 240) &&& 64 = 64 ∧
      (x ||| 240) &&& 32 = 32 ∧ (x ||| 240) &&& 16 = 16 ∧
      (x ||| 240) &&& 15 = x := by decide

/-- C3: For every integer `n` in `[0, 1152921573328437375]`, serializing
`UInt(n)` succeeds and deserializing the resulting byte sequence returns
exactly `UInt(n)` (consuming the whole encoding). -/
theorem uint_roundtrip (n : Nat) (h : n ≤ 1152921573328437375) :
    ∃ bytes, uintSerialize n = .ok bytes ∧ uintDeserialize bytes = some (n, []) := by
  by_cases h1 : n < 128
  · refine ⟨[n % 256], ?_, ?_⟩
    · simp [uintSerialize, toBeBytes, h1]
    · have hn : n % 256 = n := Nat.mod_eq_of_lt (by omega)
      have hs : n >>> 7 = 0 := by
        rw [Nat.shiftRight_eq_div_pow]; omega
      simp [uintDeserialize, hn, hs]
  · by_cases h2 : n < 16512
    · set m := n - 128 with hm
      have hmlt : m < 16384 := by omega
      have hd : m / 256 < 64 := by omega
      have hd' : m / 256 % 256 = m / 256 := Nat.mod_eq_of_lt (by omega)
      obtain ⟨f1, f2, f3⟩ := or128_facts (m / 256) hd
      refine ⟨[m / 256 % 256 ||| 128, m % 256], ?_, ?_⟩
      · simp only [uintSerialize, if_neg (by omega : ¬ n < 128), if_pos h2]
        simp [toBeBytes, orFirstByte]
      · rw [hd']
        simp only [uintDeserialize, f1, f2, f3]
        norm_num
        omega
    · by_cases h3 : n < 2113664
      · set m := n - 16512 with hm
        have hmlt : m < 2097152 := by omega
        have hd : m / 65536 < 32 := by omega
        have hd' : m / 2 ^ 16 % 256 = m / 65536 := by
          norm_num; omega
        obtain ⟨f1, f2, f3, f4⟩ := or192_facts (m / 65536) hd
        refine ⟨[m / 65536 ||| 192, m / 2 ^ 8 % 256, m % 256], ?_, ?_⟩
        · simp only [uintSerialize, if_neg (by omega : ¬ n < 128),
            if_neg (by omega : ¬ n < 16512), if_pos h3]
          simp only [toBeBytes, List.drop, orFirstByte, hd']
        · simp only [uintDeserialize, f1, f2, f3, f4]
          norm_num
          omega
      · by_cases h4 : n < 68721590400
        · set m := n - 2113664 with hm
          have hmlt : m < 68719476736 := by omega
          have hd : m / 2 ^ 32 < 16 := by norm_num; omega
          have hd' : m / 2 ^ 32 % 256 = m / 2 ^ 32 := Nat.mod_eq_of_lt (by omega)
          obtain ⟨f1, f2, f3, f4, f5⟩ := or224_facts (m / 2 ^ 32) hd
          refine ⟨[m / 2 ^ 32 ||| 224, m / 2 ^ 24 % 256, m / 2 ^ 16 % 256,
            m / 2 ^ 8 % 256, m % 256], ?_, ?_⟩
          · simp only [uintSerialize, if_neg (by omega : ¬ n < 128),
              if_neg (by omega : ¬ n < 16512), if_neg (by omega : ¬ n < 2113664),
              if_pos h4]
            simp only [toBeBytes, List.drop, orFirstByte, hd']
          · simp only [uintDeserialize, f1, f2, f3, f4, f5]
            norm_num
            omega
        · have h5 : n < 1152921573328437376 := by omega
          set m := n - 68721590400 with hm
          have hmlt : m < 1152921504606846976 := by omega
          have hd : m / 2 ^ 56 < 16 := by norm_num; omega
          have hd' : m / 2 ^ 56 % 256 = m / 2 ^ 56 := Nat.mod_eq_of_lt (by omega)
          obtain ⟨f1, f2, f3, f4, f5⟩ := or240_facts (m / 2 ^ 56) hd
          refine ⟨[m / 2 ^ 56 ||| 240, m / 2 ^ 48 % 256, m / 2 ^ 40 % 256,
            m / 2 ^ 32 % 256, m / 2 ^ 24 % 256, m / 2 ^ 16 % 256,
            m / 2 ^ 8 % 256, m % 256], ?_, ?_⟩
          · simp only [uintSerialize, if_neg (by omega : ¬ n < 128),
              if_neg (by omega : ¬ n < 16512), if_neg (by omega : ¬ n < 2113664),
              if_neg (by omega : ¬ n < 68721590400), if_pos h5]
            simp only [toBeBytes, orFirstByte, hd']
          · simp only [uintDeserialize, f1, f2, f3, f4, f5]
            norm_num
            omega

/-- Witness for C3 at the concrete input `n = 300`. -/
theorem uint_roundtrip_witness :
    (300 : Nat) ≤ 1152921573328437375 ∧
      ∃ bytes, uintSerialize 300 = .ok bytes ∧
        uintDeserialize bytes = some (300, []) :=
  ⟨by norm_num, uint_roundtrip 300 (by norm_num)⟩

/-- C4: The boundary values `127, 128, 16511, 16512, 2113663, 2113664,
68721590399, 68721590400, 1152921573328437375` encode to exactly
`1, 2, 2, 3, 3, 5, 5, 8, 8` bytes respectively, and each round-trips. -/
theorem uint_boundaries :
    (uintSerialize 127).toOption.map List.length = some 1 ∧
    (uintSerialize 128).toOption.map List.length = some 2 ∧
    (uintSerialize 16511).toOption.map List.length = some 2 ∧
    (uintSerialize 16512).toOption.map List.length = some 3 ∧
    (uintSerialize 2113663).toOption.map List.length = some 3 ∧
    (uintSerialize 2113664).toOption.map List.length = some 5 ∧
    (uintSerialize 68721590399).toOption.map List.length = some 5 ∧
    (uintSerialize 68721590400).toOption.map List.length = some 8 ∧
    (uintSerialize 1152921573328437375).toOption.map List.length = some 8 ∧
    ((uintSerialize 127).toOption.bind uintDeserialize = some (127, [])) ∧
    ((uintSerialize 128).toOption.bind uintDeserialize = some (128, [])) ∧
    ((uintSerialize 16511).toOption.bind uintDeserialize = some (16511, [])) ∧
    ((uintSerialize 16512).toOption.bind uintDeserialize = some (16512, [])) ∧
    ((uintSerialize 2113663).toOption.bind uintDeserialize = some (2113663, [])) ∧
    ((uintSerialize 2113664).toOption.bind uintDeserialize = some (2113664, [])) ∧
    ((uintSerialize 68721590399).toOption.bind uintDeserialize = some (68721590399, [])) ∧
    ((uintSerialize 68721590400).toOption.bind uintDeserialize = some (68721590400, [])) ∧
    ((uintSerialize 1152921573328437375).toOption.bind uintDeserialize
      = some (1152921573328437375, [])) := by
  repeat' constructor

/-- C8: Serializing a `UInt` whose (`u64`) value is `1152921573328437376` or
greater returns an error. -/
theorem uint_overflow (n : Nat) (hlo : 1152921573328437376 ≤ n)
    (hhi : n < 2 ^ 64) :
    uintSerialize n = .error "number too big (max 1152921573328437375)" := by
  simp only [uintSerialize]
  rw [if_neg (by omega), if_neg (by omega), if_neg (by omega),
    if_neg (by omega), if_neg (by omega)]

/-- Witness for C8 at the concrete input `n = 1152921573328437376`. -/
theorem uint_overflow_witness :
    uintSerialize 1152921573328437376
      = .error "number too big (max 1152921573328437375)" :=
  uint_overflow 1152921573328437376 (by norm_num) (by norm_num)

/-- C10: The input stream `[2, 0xAA]` — a valid `UInt` length prefix `L = 2`
followed by only one payload byte — is accepted by both `Bytes::deserialize`
and `String::deserialize` with a 1-byte payload, rather than reported as an
I/O failure. -/
theorem truncated_bytes_accepted :
    uintDeserialize [2, 0xAA] = some (2, [0xAA]) ∧
    bytesDeserialize [2, 0xAA] = some ([0xAA], []) ∧
    stringDeserialize [2, 0xAA] = some ([0xAA], []) ∧
    ([0xAA] : List Nat).length < 2 := by
  refine ⟨rfl, rfl, rfl, by norm_num⟩

end Punybuf
namespace Punybuf

/-! ## Emitter, validator and resolver-scenario theorems -/

/-- C6: Evaluating the emitter at a command shows that the command object's
argument field is named `arg`, not `argument` as the IR schema (both in the
spec and in `converter.rs`'s own schema comment) requires; the value itself
has the documented shape: an object tagged `is: "ref"` or `is: "struct"`, or
an empty object for an argument-less command. -/
theorem c6_argument_key :
    (convertCommand c6Cmd).hasKey "arg" = true ∧
    (convertCommand c6Cmd).hasKey "argument" = false ∧
    (convertCommand c6Cmd).getKey "arg" = some (.obj []) ∧
    ∀ cmd : PBCommandDef,
      (convertCommand cmd).hasKey "argument" = false ∧
      (convertCommand cmd).getKey "arg" = some (.obj
        (match cmd.argument with
         | .none => []
         | .ref r => [("is", .str "ref"), ("ref", convertRef r)]
         | .struct fs => [("is", .str "struct"), ("fields", convertFields fs)])) := by
  refine ⟨rfl, rfl, rfl, fun cmd => ?_⟩
  rcases cmd with ⟨name, argument, attrs, doc, layer, id, ret, err, ih⟩
  cases argument <;> exact ⟨rfl, rfl⟩

set_option maxRecDepth 20000 in
/-- C2 (counterexample): resolving the flattened S1 schema yields a
definition with *two* `A` types (not three) and a single `B` struct, at
layer 1 only — the `layer 1:` directive also moves `B` to layer 1, so no
layer-0 `B` exists at all. -/
theorem c2_counterexample :
    LayerResolver.resolve 100 true c2Def = .ok c2Resolved ∧
    (c2Resolved.types.filter (fun tp => tp.get_name == "A")).length = 2 ∧
    (c2Resolved.types.filter (fun tp => tp.get_name == "B")).length = 1 ∧
    (c2Resolved.types.filter (fun tp =>
      tp.get_name == "B" && tp.get_layer == 0)).length = 0 :=
  ⟨rfl, rfl, rfl, rfl⟩

set_option maxRecDepth 20000 in
/-- C2 (amended): resolving the flattened S1 schema (with its two `common`
builtins) produces exactly two `A` structs at layers 0 and 1 and one `B`
struct at layer 1; `B`'s reference to `A` has `resolved_layer = 1` and
`is_highest_layer = true`, the layer-0 `A` is not highest-layer, and the
layer-1 `A` is. -/
theorem c2_amended :
    LayerResolver.resolve 100 true c2Def = .ok c2Resolved ∧
    c2Resolved.types =
      [.«alias» "U8" "" 0 [("@builtin", none)] []
          (.mk "U8" [] (some 0) true true) true,
       .«alias» "U16" "" 0 [("@builtin", none)] []
          (.mk "U16" [] (some 0) true true) true,
       .struct "A" "" 0 [] []
          [⟨"n", .mk "U8" [] (some 0) true true, none, [], ""⟩] none false,
       .struct "A" "" 1 [] []
          [⟨"n", .mk "U16" [] (some 0) true true, none, [], ""⟩] none true,
       .struct "B" "" 1 [] []
          [⟨"a", .mk "A" [] (some 1) true true, none, [], ""⟩] none true] ∧
    c2Resolved.commands = [] :=
  ⟨rfl, rfl, rfl⟩

/-- C7 (counterexample): the enum `E` has two `@default` variants, yet the
whole-definition validator accepts it — the validator has no
at-most-one-`@default` rule. -/
theorem c7_counterexample :
    (match c7Enum with
     | .enum _ _ _ _ _ variants _ _ =>
       (variants.filter (fun v => v.attrs.containsKey "@default")).length
     | _ => 0) = 2 ∧
    validateDefinition 50 c7Def = .ok () :=
  ⟨rfl, rfl⟩

/-- C7 (amended): `validate_enum` accepts any variant list with pairwise
distinct names whose variants carry no values and no `@extension`
attribute, regardless of how many of them are marked `@default`; the
per-variant `@default` checks (no value, not also `@extension`) are the only
`@default` rules. -/
theorem c7_amended (gas : Nat) (d : PunybufDefinition) (ctx : List String)
    (owner : Owner) (variants : List PBEnumVariant)
    (hval : ∀ v ∈ variants, v.value = none)
    (hext : ∀ v ∈ variants, v.attrs.containsKey "@extension" = false)
    (hnames : (variants.map PBEnumVariant.name).Nodup) :
    validateEnum gas d ctx owner variants = .ok () := by
  have aux : ∀ (vs : List PBEnumVariant) (seen : List String) (dp : Bool),
      (∀ v ∈ vs, v.value = none) →
      (∀ v ∈ vs, v.attrs.containsKey "@extension" = false) →
      (vs.map PBEnumVariant.name).Nodup →
      (∀ v ∈ vs, seen.contains v.name = false) →
      ∃ st, vs.foldlM (validateEnumStep gas d ctx owner)
        (seen, dp, (none : Option Nat)) = .ok st := by
    intro vs
    induction vs with
    | nil => intro seen dp _ _ _ _; exact ⟨(seen, dp, none), rfl⟩
    | cons v vs ih =>
      intro seen dp hval' hext' hnames' hseen
      have hv : v.value = none := hval' v (by simp)
      have he : v.attrs.containsKey "@extension" = false := hext' v (by simp)
      have hs : seen.contains v.name = false := hseen v (by simp)
      have hstep : validateEnumStep gas d ctx owner (seen, dp, none) v =
          .ok (seen ++ [v.name],
            (if v.attrs.containsKey "@default" then true else dp), none) := by
        simp only [validateEnumStep, hs, he, hv]
        cases hd : v.attrs.containsKey "@default" <;>
          simp [hd, Bind.bind, Except.bind, pure, Except.pure]
      rw [List.foldlM_cons, hstep]
      simp only [List.map_cons, List.nodup_cons] at hnames'
      refine ih (seen ++ [v.name])
        (if v.attrs.containsKey "@default" then true else dp)
        (fun w hw => hval' w (by simp [hw]))
        (fun w hw => hext' w (by simp [hw]))
        hnames'.2 ?_
      intro w hw
      have hw1 : w.name ∉ seen := by
        simpa using hseen w (by simp [hw])
      have hw2 : w.name ≠ v.name := by
        intro hEq
        exact hnames'.1 (hEq ▸ List.mem_map_of_mem PBEnumVariant.name hw)
      simp [hw1, hw2]
  obtain ⟨st, hst⟩ := aux variants [] false hval hext hnames
    (fun v _ => by simp)
  simp [validateEnum, hst, discard, Functor.mapConst, Except.map]

/-- Witness for C7's amended claim at the concrete two-`@default` enum. -/
theorem c7_amended_witness :
    validateEnum 50 c7Def [] (.typeOwner c7Enum)
      [⟨"First", 0, none, [("@default", none)], ""⟩,
       ⟨"Second", 1, none, [("@default", none)], ""⟩] = .ok () :=
  c7_amended 50 c7Def [] (.typeOwner c7Enum) _
    (by intro v hv; fin_cases hv <;> rfl)
    (by intro v hv; fin_cases hv <;> rfl)
    (by simp)

/-- C9: a command whose return type is the reserved `Void` and whose error
list is non-empty always fails `validate_command` (either at the `Void`
rule itself, or at an earlier validation step); and the concrete command
`Ping : {} -> Void` with no error variants passes `validate_command`
outright. -/
theorem c9_void_return_rule :
    (∀ (gas : Nat) (d : PunybufDefinition) (cmd : PBCommandDef),
        cmd.ret.reference = "Void" → cmd.err ≠ [] →
        ∃ e, validateCommand gas d cmd = .error e) ∧
    validateCommand 50 c9Def c9Ping = .ok () := by
  constructor
  · intro gas d cmd hret herr
    have hlen : cmd.err.length > 0 := List.length_pos.mpr herr
    have hcond : (cmd.ret.reference == "Void" && decide (cmd.err.length > 0))
        = true := by simp [hret, hlen]
    simp only [validateCommand]
    repeat' split
    all_goals exact ⟨_, rfl⟩
  · rfl

/-- Witness for C9 at the concrete command `Pong : {} -> Void ! [...]`. -/
theorem c9_witness :
    ∃ e, validateCommand 50 c9Def c9Bad = .error e :=
  c9_void_return_rule.1 50 c9Def c9Bad rfl (by simp [c9Bad])

end Punybuf
namespace Punybuf

theorem collectChanges_ids (d : PunybufDefinition) (L : Nat) :
    ∀ (deps : List Dependant) (nts : List PBTypeDef) (ncs : List PBCommandDef),
      collectChanges d L deps = .ok (nts, ncs) →
      ∀ c ∈ ncs, c.command_id = commandIdOf c.name c.layer := by
  intro deps
  induction deps with
  | nil =>
    intro nts ncs h c hc
    simp only [collectChanges] at h
    cases h
    simp at hc
  | cons dep rest ih =>
    intro nts ncs h c hc
    simp only [collectChanges] at h
    split at h
    · exact ih _ _ h c hc
    · split at h
      · cases h
      · split at h
        · exact ih _ _ h c hc
        · split at h
          · split at h
            · cases h
            · split at h
              · cases h
              · rename_i nts' ncs' heq
                cases h
                exact ih _ _ heq c hc
          · split at h
            · cases h
            · split at h
              · cases h
              · rename_i cmd hcmd nts' ncs' heq
                cases h
                rcases List.mem_cons.mp hc with hce | hcm
                · subst hce; rfl
                · exact ih _ _ heq c hcm

theorem trackChanges_ids (deps : Deps) (d : PunybufDefinition) (i : Nat)
    (deps' : Deps) (d' : PunybufDefinition)
    (h : trackChanges deps d i = .ok (deps', d'))
    (hd : ∀ c ∈ d.commands, c.command_id = commandIdOf c.name c.layer) :
    ∀ c ∈ d'.commands, c.command_id = commandIdOf c.name c.layer := by
  simp only [trackChanges] at h
  split at h
  · cases h
  · rename_i changedType hget
    split at h
    · cases h; exact hd
    · rename_i dependants hdeps
      split at h
      · cases h
      · rename_i newTypes newCommands heq
        cases h
        intro c hc
        rcases List.mem_append.mp hc with hcm | hcn
        · exact hd c hcm
        · exact collectChanges_ids d changedType.get_layer dependants
            newTypes newCommands heq c hcn

theorem closureLoop_ids : ∀ (gas : Nat) (deps : Deps) (d : PunybufDefinition)
    (i : Nat) (deps' : Deps) (d' : PunybufDefinition),
    closureLoop gas deps d i = .ok (deps', d') →
    (∀ c ∈ d.commands, c.command_id = commandIdOf c.name c.layer) →
    ∀ c ∈ d'.commands, c.command_id = commandIdOf c.name c.layer := by
  intro gas
  induction gas with
  | zero => intro deps d i deps' d' h; cases h
  | succ gas ih =>
    intro deps d i deps' d' h hd
    simp only [closureLoop] at h
    split at h
    · split at h
      · cases h
      · rename_i deps2 d2 heq
        exact ih _ _ _ _ _ h (trackChanges_ids deps d i deps2 d2 heq hd)
    · cases h; exact hd

theorem applyOneCommand_keeps (cmd : PBCommandDef) (res : ResolvedCommand)
    (cmd' : PBCommandDef) (h : applyOneCommand cmd res = .ok cmd') :
    cmd'.name = cmd.name ∧ cmd'.layer = cmd.layer ∧
      cmd'.command_id = cmd.command_id := by
  simp only [applyOneCommand] at h
  repeat' split at h
  all_goals cases h
  all_goals exact ⟨rfl, rfl, rfl⟩

theorem zipApply_cmd_ids : ∀ (cmds : List PBCommandDef)
    (ress : List ResolvedCommand) (out : List PBCommandDef),
    zipApply applyOneCommand cmds ress = .ok out →
    (∀ c ∈ cmds, c.command_id = commandIdOf c.name c.layer) →
    ∀ c ∈ out, c.command_id = commandIdOf c.name c.layer := by
  intro cmds
  induction cmds with
  | nil => intro ress out h _ c hc; cases h; simp at hc
  | cons cmd cmds ih =>
    intro ress out h hd c hc
    cases ress with
    | nil => cases h
    | cons res ress =>
      simp only [zipApply] at h
      split at h
      · cases h
      · rename_i cmd' heq1
        split at h
        · cases h
        · rename_i rest heq2
          cases h
          rcases List.mem_cons.mp hc with hce | hcm
          · subst hce
            obtain ⟨hn, hl, hi⟩ := applyOneCommand_keeps cmd res c heq1
            rw [hn, hl, hi]
            exact hd cmd (by simp)
          · exact ih ress rest heq2 (fun c hc => hd c (by simp [hc])) c hcm

theorem resolveReferences_ids (gas : Nat) (sra : Bool)
    (d d' : PunybufDefinition) (h : resolveReferences gas sra d = .ok d')
    (hd : ∀ c ∈ d.commands, c.command_id = commandIdOf c.name c.layer) :
    ∀ c ∈ d'.commands, c.command_id = commandIdOf c.name c.layer := by
  simp only [resolveReferences] at h
  repeat' split at h
  all_goals cases h
  rename_i newCommands heq
  exact zipApply_cmd_ids _ _ _ heq hd

theorem resolve_ids (gas : Nat) (sra : Bool) (d d' : PunybufDefinition)
    (h : LayerResolver.resolve gas sra d = .ok d')
    (hd : ∀ c ∈ d.commands, c.command_id = commandIdOf c.name c.layer) :
    ∀ c ∈ d'.commands, c.command_id = commandIdOf c.name c.layer := by
  simp only [LayerResolver.resolve] at h
  split at h
  · cases h
  · rename_i deps2 d2 heq
    exact resolveReferences_ids gas sra d2 d' h
      (closureLoop_ids gas _ _ 0 deps2 d2 heq hd)

end Punybuf
namespace Punybuf

theorem flatten_commands_fixed : ∀ gas : Nat,
    (∀ st r out, flattenReference gas st r = .ok out →
      out.1.commands = st.commands) ∧
    (∀ st rs out, flattenReferenceList gas st rs = .ok out →
      out.1.commands = st.commands) ∧
    (∀ st f out, flattenField gas st f = .ok out →
      out.1.commands = st.commands) ∧
    (∀ st fs out, flattenFieldFlagList gas st fs = .ok out →
      out.1.commands = st.commands) ∧
    (∀ st fs out, flattenFieldList gas st fs = .ok out →
      out.1.commands = st.commands) ∧
    (∀ st vs out, flattenEnumVariantList gas st vs = .ok out →
      out.1.commands = st.commands) ∧
    (∀ st vs out, flattenValueEnumVariantList gas st vs = .ok out →
      out.1.commands = st.commands) ∧
    (∀ st n doc attrs decl ga st',
      flattenFlexibleDecl gas st n doc attrs decl ga = .ok st' →
      st'.commands = st.commands) := by
  intro gas
  induction gas with
  | zero =>
    refine ⟨?_, ?_, ?_, ?_, ?_, ?_, ?_, ?_⟩
    · intro st r out h; simp [flattenReference] at h
    · intro st rs out h
      cases rs with
      | nil => simp only [flattenReferenceList] at h; cases h; rfl
      | cons r rs => simp [flattenReferenceList] at h
    · intro st f out h; simp [flattenField] at h
    · intro st fs out h
      cases fs with
      | nil => simp only [flattenFieldFlagList] at h; cases h; rfl
      | cons f fs =>
        cases f with
        | mk name value attrs doc => simp [flattenFieldFlagList] at h
    · intro st fs out h
      cases fs with
      | nil => simp only [flattenFieldList] at h; cases h; rfl
      | cons f fs => simp [flattenFieldList] at h
    · intro st vs out h
      cases vs with
      | nil => simp only [flattenEnumVariantList] at h; cases h; rfl
      | cons v vs =>
        cases v with
        | mk name disc value attrs doc => simp [flattenEnumVariantList] at h
    · intro st vs out h
      cases vs with
      | nil => simp only [flattenValueEnumVariantList] at h; cases h; rfl
      | cons v vs =>
        cases v with
        | mk disc value attrs doc => simp [flattenValueEnumVariantList] at h
    · intro st n doc attrs decl ga st' h; simp [flattenFlexibleDecl] at h
  | succ gas ih =>
    obtain ⟨ihR, ihRL, ihF, ihFFL, ihFL, ihEVL, ihVEVL, ihFD⟩ := ih
    refine ⟨?_, ?_, ?_, ?_, ?_, ?_, ?_, ?_⟩
    · intro st r out h
      cases r with
      | reference name generics =>
        simp only [flattenReference] at h
        split at h
        · cases h
        · rename_i st1 gens heq
          cases h
          exact ihRL st generics (st1, gens) heq
      | inlineDeclaration symbol decl =>
        simp only [flattenReference] at h
        split at h
        · cases h
        · rename_i st1 heq
          cases h
          exact ihFD st symbol "" [] decl [] st1 heq
    · intro st rs out h
      cases rs with
      | nil => simp only [flattenReferenceList] at h; cases h; rfl
      | cons r rs =>
        simp only [flattenReferenceList] at h
        split at h
        · cases h
        · rename_i st1 r' heq1
          split at h
          · cases h
          · rename_i st2 rs' heq2
            cases h
            exact (ihRL st1 rs (st2, rs') heq2).trans (ihR st r (st1, r') heq1)
    · intro st f out h
      cases f with
      | mk name value flags attrs doc =>
        cases flags with
        | none =>
          simp only [flattenField] at h
          split at h
          · cases h
          · rename_i st1 value' heq
            cases h
            exact ihR st value (st1, value') heq
        | some fs =>
          simp only [flattenField] at h
          split at h
          · cases h
          · rename_i st1 flags' heq0
            split at h
            · cases h
            · rename_i st2 value' heq1
              split at heq0
              · cases heq0
              · rename_i st0 fs' heqf
                cases heq0
                cases h
                exact (ihR _ value _ heq1).trans (ihFFL st fs _ heqf)
    · intro st fs out h
      cases fs with
      | nil => simp only [flattenFieldFlagList] at h; cases h; rfl
      | cons f fs =>
        cases f with
        | mk name value attrs doc =>
          cases value with
          | none =>
            simp only [flattenFieldFlagList] at h
            split at h
            · cases h
            · rename_i st2 fs' heq2
              cases h
              exact ihFFL st fs (st2, fs') heq2
          | some rf =>
            simp only [flattenFieldFlagList] at h
            split at h
            · cases h
            · rename_i st1 value' heq0
              split at h
              · cases h
              · rename_i st2 fs' heq2
                split at heq0
                · cases heq0
                · rename_i st0 rf' heqr
                  cases heq0
                  cases h
                  exact (ihFFL _ fs _ heq2).trans (ihR st rf _ heqr)
    · intro st fs out h
      cases fs with
      | nil => simp only [flattenFieldList] at h; cases h; rfl
      | cons f fs =>
        simp only [flattenFieldList] at h
        split at h
        · cases h
        · rename_i st1 f' heq1
          split at h
          · cases h
          · rename_i st2 fs' heq2
            cases h
            exact (ihFL st1 fs (st2, fs') heq2).trans (ihF st f (st1, f') heq1)
    · intro st vs out h
      cases vs with
      | nil => simp only [flattenEnumVariantList] at h; cases h; rfl
      | cons v vs =>
        cases v with
        | mk name disc value attrs doc =>
          cases value with
          | none =>
            simp only [flattenEnumVariantList] at h
            split at h
            · cases h
            · rename_i st2 vs' heq2
              cases h
              exact ihEVL st vs (st2, vs') heq2
          | some rf =>
            simp only [flattenEnumVariantList] at h
            split at h
            · cases h
            · rename_i st1 value' heq0
              split at h
              · cases h
              · rename_i st2 vs' heq2
                split at heq0
                · cases heq0
                · rename_i st0 rf' heqr
                  cases heq0
                  cases h
                  exact (ihEVL _ vs _ heq2).trans (ihR st rf _ heqr)
    · intro st vs out h
      cases vs with
      | nil => simp only [flattenValueEnumVariantList] at h; cases h; rfl
      | cons v vs =>
        cases v with
        | mk disc value attrs doc =>
          simp only [flattenValueEnumVariantList] at h
          split at h
          · cases h
          · rename_i st1 value' heq1
            split at h
            · cases h
            · rename_i st2 vs' heq2
              cases h
              exact (ihVEVL st1 vs (st2, vs') heq2).trans
                (ihR st value (st1, value') heq1)
    · intro st n doc attrs decl ga st' h
      cases decl with
      | enumDeclaration inline layer variants =>
        simp only [flattenFlexibleDecl] at h
        split at h
        · cases h
        · rename_i st2 heq
          cases h
          split at heq
          · cases heq
          · split at heq
            · cases heq
            · rename_i st3 vs' heqv
              cases heq
              exact ihEVL { st with context_inline_owner := some n }
                variants (st3, vs') heqv
      | structDeclaration inline layer fields =>
        simp only [flattenFlexibleDecl] at h
        split at h
        · cases h
        · rename_i st2 heq
          cases h
          split at heq
          · cases heq
          · split at heq
            · cases heq
            · rename_i st3 fs' heqf
              cases heq
              exact ihFL { st with context_inline_owner := some n }
                fields (st3, fs') heqf
      | valueEnumDeclaration inline layer variants =>
        simp only [flattenFlexibleDecl] at h
        split at h
        · cases h
        · rename_i st2 heq
          cases h
          split at heq
          · cases heq
          · split at heq
            · cases heq
            · rename_i st3 vs' heqv
              cases heq
              exact ihVEVL { st with context_inline_owner := some n }
                variants (st3, vs') heqv

end Punybuf
namespace Punybuf

theorem flattenOneDecl_ids (gas : Nat) (st : PunybufDefinition)
    (decl : Declaration) (st' : PunybufDefinition)
    (h : flattenOneDecl gas st decl = .ok st')
    (hd : ∀ c ∈ st.commands, c.command_id = commandIdOf c.name c.layer) :
    ∀ c ∈ st'.commands, c.command_id = commandIdOf c.name c.layer := by
  obtain ⟨hR, hRL, hF, hFFL, hFL, hEVL, hVEVL, hFD⟩ := flatten_commands_fixed gas
  rcases decl with ⟨symbol, value, attrs, doc⟩
  cases value with
  | aliasDeclaration ga layer aliasRef =>
    simp only [flattenOneDecl] at h
    split at h
    · cases h
    · rename_i st1 body heq
      cases h
      intro c hc
      exact hd c ((hR st aliasRef (st1, body) heq) ▸ hc)
  | flexible val ga =>
    simp only [flattenOneDecl] at h
    intro c hc
    exact hd c ((hFD st symbol doc attrs val ga st' h) ▸ hc)
  | commandDeclaration argument layer ret err =>
    have hax : ∀ (st1 : PunybufDefinition) (pbArg : PBCommandArg),
        (match argument with
         | .none =>
           (.ok (st, PBCommandArg.none) :
             Except String (PunybufDefinition × PBCommandArg))
         | .reference refr =>
           (match flattenReference gas st refr with
            | .error e => .error e
            | .ok (st, r) => .ok (st, PBCommandArg.ref r))
         | .struct fields =>
           match flattenFieldList gas st fields with
           | .error e => .error e
           | .ok (st, fs) => .ok (st, PBCommandArg.struct fs)) =
          .ok (st1, pbArg) → st1.commands = st.commands := by
      intro st1 pbArg hA
      split at hA
      · cases hA; rfl
      · rename_i refr
        split at hA
        · cases hA
        · rename_i sta r heq
          cases hA
          exact hR st refr _ heq
      · rename_i fields
        split at hA
        · cases hA
        · rename_i sta fs heq
          cases hA
          exact hFL st fields _ heq
    have hex : ∀ (st1 st2 : PunybufDefinition) (vs : List PBEnumVariant),
        (match err with
         | some (.structDeclaration ..) =>
           (.error "errors are always enums (or value-enums), got a struct" :
             Except String (PunybufDefinition × List PBEnumVariant))
         | some (.enumDeclaration _ _ variants) =>
           flattenEnumVariantList gas st1 variants
         | some (.valueEnumDeclaration _ _ variants) =>
           flattenValueEnumVariantList gas st1 variants
         | none => .ok (st1, [])) =
          .ok (st2, vs) → st2.commands = st1.commands := by
      intro st1 st2 vs hE
      split at hE
      · cases hE
      · rename_i inline l variants
        exact hEVL st1 variants (st2, vs) hE
      · rename_i inline l variants
        exact hVEVL st1 variants (st2, vs) hE
      · cases hE; rfl
    simp only [flattenOneDecl] at h
    split at h
    · cases h
    · rename_i st1 pbArg heqA
      split at h
      · cases h
      · rename_i st2 errVariants heqE
        split at h
        · cases h
        · rename_i st3 ret' heqR
          cases h
          intro c hc
          rcases List.mem_append.mp hc with hcm | hce
          · have : st3.commands = st.commands :=
              (hR st2 ret (st3, ret') heqR).trans
                ((hex st1 st2 errVariants heqE).trans (hax st1 pbArg heqA))
            exact hd c (this ▸ hcm)
          · rcases List.mem_singleton.mp hce with rfl
            rfl

theorem flattenDecls_ids : ∀ (decls : List Declaration) (gas : Nat)
    (st : PunybufDefinition) (st' : PunybufDefinition),
    flattenDecls gas st decls = .ok st' →
    (∀ c ∈ st.commands, c.command_id = commandIdOf c.name c.layer) →
    ∀ c ∈ st'.commands, c.command_id = commandIdOf c.name c.layer := by
  intro decls
  induction decls with
  | nil =>
    intro gas st st' h hd
    cases h
    exact hd
  | cons decl decls ih =>
    intro gas st st' h hd
    simp only [flattenDecls] at h
    split at h
    · cases h
    · rename_i st1 heq
      exact ih gas st1 st' h (flattenOneDecl_ids gas st decl st1 heq hd)

/-- C5: every command a flattened definition contains carries
`command_id = CRC32/cksum("name.layer")`, and the layer resolver — whose
closure loop clones commands to higher layers with their ids recomputed and
whose reference-resolution pass keeps `name`, `layer` and `command_id`
untouched — preserves that invariant. -/
theorem c5_command_ids :
    (∀ (gas : Nat) (decls : List Declaration) (ic : Bool)
       (d : PunybufDefinition),
        flatten gas decls ic = .ok d → cmdIdsOKb d = true) ∧
    (∀ (gas : Nat) (sra : Bool) (d d' : PunybufDefinition),
        cmdIdsOKb d = true → LayerResolver.resolve gas sra d = .ok d' →
        cmdIdsOKb d' = true) := by
  constructor
  · intro gas decls ic d h
    simp only [cmdIdsOKb, List.all_eq_true, beq_iff_eq]
    exact flattenDecls_ids decls gas ⟨[], [], ic, none⟩ d h
      (fun c hc => by simp at hc)
  · intro gas sra d d' hd h
    simp only [cmdIdsOKb, List.all_eq_true, beq_iff_eq] at hd ⊢
    exact resolve_ids gas sra d d' h hd

set_option maxRecDepth 20000 in
/-- Witness for C5 at the concrete declaration `Ping : {} -> Void` and at
the `Void`-builtin-plus-`Ping` definition. -/
theorem c5_command_ids_witness :
    flatten 10 [c5PingDecl] true = .ok c5Flat ∧ cmdIdsOKb c5Flat = true ∧
    LayerResolver.resolve 50 true c9Def = .ok c5ResOut ∧
      cmdIdsOKb c5ResOut = true :=
  ⟨rfl, c5_command_ids.1 10 [c5PingDecl] true c5Flat rfl,
   rfl, c5_command_ids.2 50 true c9Def c5ResOut rfl rfl⟩

end Punybuf
namespace Punybuf

theorem foldl_step_map {α : Type} (key : α → Nat)
    (step : Option α → α → Option α) (stepN : Option Nat → Nat → Option Nat)
    (hstep : ∀ acc x, (step acc x).map key = stepN (acc.map key) (key x)) :
    ∀ (l : List α) (acc : Option α),
      (l.foldl step acc).map key = (l.map key).foldl stepN (acc.map key) := by
  intro l
  induction l with
  | nil => intro acc; rfl
  | cons x xs ih =>
    intro acc
    rw [List.foldl_cons, List.map_cons, List.foldl_cons, ih, hstep]

theorem foldl_ne_none {α : Type} (step : Option α → α → Option α)
    (hstep : ∀ y x, step (some y) x ≠ none) :
    ∀ (l : List α) (y : α), l.foldl step (some y) ≠ none := by
  intro l
  induction l with
  | nil => intro y h; cases h
  | cons x xs ih =>
    intro y h
    rw [List.foldl_cons] at h
    cases hs : step (some y) x with
    | none => exact hstep y x hs
    | some z => rw [hs] at h; exact ih z h

theorem foldl_step_mem {α : Type} (step : Option α → α → Option α)
    (hstep : ∀ acc x z, step acc x = some z → z = x ∨ acc = some z) :
    ∀ (l : List α) (acc : Option α) (x : α),
      l.foldl step acc = some x → x ∈ l ∨ acc = some x := by
  intro l
  induction l with
  | nil => intro acc x h; right; exact h
  | cons a as ih =>
    intro acc x h
    rw [List.foldl_cons] at h
    rcases ih _ x h with hm | hacc
    · left; exact List.mem_cons_of_mem a hm
    · rcases hstep acc a x hacc with rfl | hacc2
      · left; exact List.mem_cons_self _ _
      · right; exact hacc2

theorem maxByKeyLast_map {α : Type} (key : α → Nat) (l : List α) :
    (maxByKeyLast key l).map key = maxByKeyLast id (l.map key) := by
  refine foldl_step_map key _ _ ?_ l none
  intro acc x
  cases acc with
  | none => rfl
  | some y => by_cases h : key y ≤ key x <;> simp [h]

theorem maxByKeyLast_eq_none_iff {α : Type} (key : α → Nat) (l : List α) :
    maxByKeyLast key l = none ↔ l = [] := by
  constructor
  · intro h
    cases l with
    | nil => rfl
    | cons x xs =>
      exfalso
      rw [maxByKeyLast, List.foldl_cons] at h
      refine foldl_ne_none _ ?_ xs x h
      intro y z hN
      by_cases hk : key y ≤ key z <;> simp [hk] at hN
  · intro h; subst h; rfl

theorem maxByKeyLast_mem {α : Type} (key : α → Nat) (l : List α) (x : α)
    (h : maxByKeyLast key l = some x) : x ∈ l := by
  rw [maxByKeyLast] at h
  have hstep : ∀ (acc : Option α) (z w : α),
      (match acc with
       | none => some z
       | some y => if key y ≤ key z then some z else some y) = some w →
      w = z ∨ acc = some w := by
    intro acc z w hs
    cases acc with
    | none =>
      left
      have h2 : some z = some w := hs
      cases h2; rfl
    | some y =>
      by_cases hk : key y ≤ key z
      · left
        have h2 : some z = some w := by simpa [hk] using hs
        cases h2; rfl
      · right
        have h2 : some y = some w := by simpa [hk] using hs
        rw [h2]
  rcases foldl_step_mem _ hstep l none x h with hm | hacc
  · exact hm
  · cases hacc

theorem filter_and_map {α : Type} (f : α → Nat) (p : α → Bool)
    (q : Nat → Bool) :
    ∀ l : List α, (l.filter (fun c => q (f c) && p c)).map f =
      ((l.filter p).map f).filter q := by
  intro l
  induction l with
  | nil => rfl
  | cons x xs ih =>
    by_cases hp : p x <;> by_cases hq : q (f x) <;>
      simp [List.filter_cons, hp, hq, ih]

/-- Under cross-kind name disjointness the resolver's commands-first
`get_highest_layer` finds exactly the greatest layer (within the limit) at
which the name is declared. -/
theorem getHighestLayer_layers (d : PunybufDefinition) (name : String)
    (lim : Option Nat) (hdisj : crossKindDisjointb d = true) :
    (getHighestLayer d name lim).map TypeOrCmdDef.get_layer =
      greatestLayerLE d name lim := by
  have hcmds : (d.commands.filter (fun cmd =>
      layerWithin cmd.layer lim && cmd.name == name)).map PBCommandDef.layer =
      ((d.commands.filter (fun cmd => cmd.name == name)).map
        PBCommandDef.layer).filter (fun l => layerWithin l lim) :=
    filter_and_map PBCommandDef.layer (fun cmd => cmd.name == name)
      (fun l => layerWithin l lim) d.commands
  have htys : (d.types.filter (fun tp =>
      layerWithin tp.get_layer lim && tp.get_name == name)).map
        PBTypeDef.get_layer =
      ((d.types.filter (fun tp => tp.get_name == name)).map
        PBTypeDef.get_layer).filter (fun l => layerWithin l lim) :=
    filter_and_map PBTypeDef.get_layer (fun tp => tp.get_name == name)
      (fun l => layerWithin l lim) d.types
  simp only [getHighestLayer, greatestLayerLE, layersOf]
  cases hc : maxByKeyLast (fun cmd => cmd.layer)
      (d.commands.filter (fun cmd =>
        layerWithin cmd.layer lim && cmd.name == name)) with
  | none =>
    have hnil : d.commands.filter (fun cmd =>
        layerWithin cmd.layer lim && cmd.name == name) = [] :=
      (maxByKeyLast_eq_none_iff _ _).mp hc
    have hcnil : ((d.commands.filter (fun cmd => cmd.name == name)).map
        PBCommandDef.layer).filter (fun l => layerWithin l lim) = [] := by
      rw [← hcmds, hnil]; rfl
    rw [List.filter_append, hcnil, List.append_nil]
    rw [Option.map_map]
    have hcomp : (TypeOrCmdDef.get_layer ∘ TypeOrCmdDef.typeDef) =
        PBTypeDef.get_layer := rfl
    rw [hcomp, maxByKeyLast_map, htys]
  | some cmd =>
    have hmem := maxByKeyLast_mem _ _ _ hc
    rw [List.mem_filter] at hmem
    obtain ⟨hmemc, hcond⟩ := hmem
    rw [Bool.and_eq_true] at hcond
    have hname : cmd.name = name := beq_iff_eq.mp hcond.2
    have htnil : d.types.filter (fun tp => tp.get_name == name) = [] := by
      have hall : ∀ tp2 ∈ d.types, ∀ c ∈ d.commands,
          ¬ c.name = tp2.get_name := by
        simpa [crossKindDisjointb] using hdisj
      rw [List.filter_eq_nil_iff]
      intro tp htp hbeq
      exact hall tp htp cmd hmemc
        (by rw [hname]; exact (beq_iff_eq.mp hbeq).symm)
    have htnil2 : (d.types.filter (fun tp => tp.get_name == name)).map
        PBTypeDef.get_layer = [] := by rw [htnil]; rfl
    rw [List.filter_append]
    rw [htnil2]
    have hfnil : ([] : List Nat).filter (fun l => layerWithin l lim) = [] := rfl
    rw [hfnil, List.nil_append]
    have hmmap := maxByKeyLast_map (fun cmd => cmd.layer)
      (d.commands.filter (fun cmd =>
        layerWithin cmd.layer lim && cmd.name == name))
    rw [hc, hcmds] at hmmap
    rw [← hmmap]
    rfl

end Punybuf
namespace Punybuf

theorem tameRefs_mem : ∀ (l : List PBTypeRef), tameRefs l = true →
    ∀ x ∈ l, tameRef x = true := by
  intro l
  induction l with
  | nil => intro _ x hx; cases hx
  | cons g gs ih =>
    intro h x hx
    simp only [tameRefs, Bool.and_eq_true] at h
    rcases List.mem_cons.mp hx with rfl | hm
    · exact h.1
    · exact ih h.2 x hm

theorem tameRef_gens (refr : PBTypeRef) (h : tameRef refr = true) :
    tameRefs refr.generics = true := by
  cases refr with
  | mk name gens rl ih ig =>
    simp only [tameRef, Bool.and_eq_true] at h
    exact h.2

theorem refTree_of_excluded (d : PunybufDefinition) (pl : Nat)
    (g : PBTypeRef) (hex : (!g.is_global || g.reference == "Void") = true)
    (htame : tameRef g = true) : refTreeOKb d pl g = true := by
  cases g with
  | mk name gens rl ih ig =>
    simp only [PBTypeRef.is_global, PBTypeRef.reference] at hex
    simp only [tameRef, hex, if_true, Bool.and_eq_true] at htame
    have hnil : gens = [] := by
      cases gens with
      | nil => rfl
      | cons g gs => simp [List.isEmpty] at htame
    subst hnil
    simp [refTreeOKb, refsTreeOKb, hex]

theorem defTame_type (d : PunybufDefinition) (tp : PBTypeDef)
    (hd : defTame d = true) (hm : tp ∈ d.types) :
    (typeTopRefs tp).all tameRef = true := by
  simp only [defTame, Bool.and_eq_true, List.all_eq_true] at hd
  exact List.all_eq_true.mpr (hd.1 tp hm)

theorem defTame_cmd (d : PunybufDefinition) (cmd : PBCommandDef)
    (hd : defTame d = true) (hm : cmd ∈ d.commands) :
    (cmdTopRefs cmd).all tameRef = true := by
  simp only [defTame, Bool.and_eq_true, List.all_eq_true] at hd
  exact List.all_eq_true.mpr (hd.2 cmd hm)

theorem getHighestLayer_typeDef_mem (d : PunybufDefinition) (name : String)
    (lim : Option Nat) (tp : PBTypeDef)
    (h : getHighestLayer d name lim = some (.typeDef tp)) : tp ∈ d.types := by
  simp only [getHighestLayer] at h
  split at h
  · simp at h
  · cases hm : maxByKeyLast (fun tp => tp.get_layer)
        (d.types.filter (fun tp =>
          layerWithin tp.get_layer lim && tp.get_name == name)) with
    | none => rw [hm] at h; cases h
    | some tp2 =>
      rw [hm] at h
      have h2 : tp2 = tp := by simpa using h
      subst h2
      exact List.mem_of_mem_filter (maxByKeyLast_mem _ _ _ hm)

theorem substituteAliasGenerics_tame (refr : PBTypeRef) (ga : List String) :
    ∀ (agens newGens : List PBTypeRef),
      tameRefs agens = true → tameRefs refr.generics = true →
      substituteAliasGenerics refr ga agens = .ok newGens →
      tameRefs newGens = true := by
  intro agens
  induction agens with
  | nil => intro newGens _ _ h; cases h; rfl
  | cons g gs ih =>
    intro newGens htame htrefr h
    simp only [tameRefs, Bool.and_eq_true] at htame
    simp only [substituteAliasGenerics] at h
    split at h
    · split at h
      · cases h
      · rename_i gs' heq
        cases h
        simp only [tameRefs, Bool.and_eq_true]
        exact ⟨htame.1, ih gs' htame.2 htrefr heq⟩
    · split at h
      · cases h
      · rename_i argIndex hidx
        split at h
        · cases h
        · rename_i inputRef hget
          split at h
          · cases h
          · rename_i gs' heq
            cases h
            simp only [tameRefs, Bool.and_eq_true]
            exact ⟨tameRefs_mem _ htrefr inputRef (List.get?_mem hget),
              ih gs' htame.2 htrefr heq⟩

theorem resolveAlias_tame (refr : PBTypeRef) (tp : PBTypeDef)
    (dealias : PBTypeRef) (href : tameRef refr = true)
    (htp : (typeTopRefs tp).all tameRef = true)
    (h : resolveAlias refr tp = .ok dealias) : tameRef dealias = true := by
  cases tp with
  | struct name doc layer attrs ga fields io ih => simp [resolveAlias] at h
  | enum name doc layer attrs ga variants io ih => simp [resolveAlias] at h
  | «alias» name doc layer attrs ga body ih =>
    have hbody : tameRef body = true := by
      simp only [typeTopRefs, List.all_cons, Bool.and_eq_true] at htp
      exact htp.1
    cases body with
    | mk aname agens arl aih aig =>
      simp only [resolveAlias] at h
      split at h
      · rename_i hng
        split at h
        · cases h
        · rename_i argIndex hidx
          split at h
          · cases h
          · rename_i inputRef hget
            cases h
            exact tameRefs_mem _ (tameRef_gens refr href) _
              (List.get?_mem hget)
      · rename_i hng
        split at h
        · cases h
        · rename_i newGens heq
          cases h
          have haig : aig = true := by
            cases aig with
            | true => rfl
            | false => exact absurd rfl hng
          subst haig
          simp only [tameRef, Bool.not_true, Bool.false_or] at hbody ⊢
          by_cases hv : (aname == "Void") = true
          · simp only [hv, if_true] at hbody ⊢
            rw [Bool.and_eq_true] at hbody
            have hanil : agens = [] := by
              cases agens with
              | nil => rfl
              | cons g gs => simp [List.isEmpty] at hbody
            subst hanil
            have hng2 : newGens = [] := by
              simp only [substituteAliasGenerics] at heq
              cases heq; rfl
            subst hng2
            exact rfl
          · rw [Bool.not_eq_true] at hv
            simp only [hv, if_false, Bool.true_and] at hbody ⊢
            exact substituteAliasGenerics_tame refr ga agens newGens hbody
              (tameRef_gens refr href) heq

theorem apply_posts : ∀ (n : Nat) (d : PunybufDefinition) (pl : Nat),
    (∀ (refr : PBTypeRef) (res : ResolvedReference) (r' : PBTypeRef),
      refSize refr ≤ n → tameRef refr = true →
      rrOKb d pl refr (some res) = true →
      applyResolutionToReference refr res = .ok r' →
      refTreeOKb d pl r' = true ∧ tameRef r' = true) ∧
    (∀ (gens : List PBTypeRef) (ress : List (Option ResolvedReference))
       (gens' : List PBTypeRef),
      refsSize gens ≤ n → tameRefs gens = true →
      rrsOKb d pl gens ress = true →
      applyResolutionToGenerics gens ress = .ok gens' →
      refsTreeOKb d pl gens' = true ∧ tameRefs gens' = true) := by
  intro n
  induction n with
  | zero =>
    intro d pl
    constructor
    · intro refr res r' hsize
      exfalso
      cases refr with
      | mk name gens rl ih ig => simp [refSize] at hsize
    · intro gens ress gens' hsize htame hok happly
      cases gens with
      | nil =>
        simp only [applyResolutionToGenerics] at happly
        cases happly
        exact ⟨rfl, rfl⟩
      | cons g gs => simp [refsSize] at hsize
  | succ n ihn =>
    intro d pl
    obtain ⟨ihr, ihl⟩ := ihn d pl
    constructor
    · intro refr res r' hsize htame hok happly
      cases refr with
      | mk name gens rl ih ig =>
        cases res with
        | dealias r2 =>
          simp only [applyResolutionToReference] at happly
          cases happly
          simp only [rrOKb, Bool.and_eq_true] at hok
          exact hok
        | resolved rl2 ih2 ress =>
          simp only [applyResolutionToReference] at happly
          split at happly
          · cases happly
          · rename_i gens2 heq
            cases happly
            simp only [rrOKb, Bool.and_eq_true] at hok
            obtain ⟨⟨⟨⟨hig, hnv⟩, hgl⟩, hih⟩, hrr⟩ := hok
            have hglv : greatestLayerLE d name (some pl) = some rl2 :=
              beq_iff_eq.mp hgl
            have hihv : ih2 = (greatestLayerLE d name none == some rl2) :=
              beq_iff_eq.mp hih
            have hnv2 : (name == "Void") = false := by
              rw [Bool.not_eq_true'] at hnv; exact hnv
            have hsz : refsSize gens ≤ n := by
              simp only [refSize] at hsize; omega
            have htgens : tameRefs gens = true := by
              simp only [tameRef, Bool.and_eq_true] at htame
              exact htame.2
            obtain ⟨hrt, htm⟩ := ihl gens ress gens2 hsz htgens hrr heq
            constructor
            · simp only [refTreeOKb, PBTypeRef.is_global, PBTypeRef.reference,
                hig, hnv2, Bool.not_true, Bool.or_false, if_false]
              rw [hglv]
              simp [hihv, hrt]
            · simp only [tameRef, hig, hnv2, Bool.not_true, Bool.or_false,
                if_false, Bool.true_and]
              exact htm
    · intro gens ress gens' hsize htame hok happly
      cases gens with
      | nil =>
        simp only [applyResolutionToGenerics] at happly
        cases happly
        exact ⟨rfl, rfl⟩
      | cons g gs =>
        simp only [tameRefs, Bool.and_eq_true] at htame
        have hszg : refSize g ≤ n := by
          simp only [refsSize] at hsize; omega
        have hszgs : refsSize gs ≤ n := by
          simp only [refsSize] at hsize; omega
        cases ress with
        | nil => simp only [rrsOKb] at hok; cases hok
        | cons r rs =>
          simp only [rrsOKb, Bool.and_eq_true] at hok
          cases r with
          | none =>
            simp only [applyResolutionToGenerics] at happly
            split at happly
            · cases happly
            · rename_i rest heq
              cases happly
              obtain ⟨hrt, htm⟩ := ihl gs rs rest hszgs htame.2 hok.2 heq
              have hexg : (!g.is_global || g.reference == "Void") = true := by
                have := hok.1
                simp only [rrOKb, Bool.and_eq_true] at this
                exact this.1
              constructor
              · simp only [refsTreeOKb, Bool.and_eq_true]
                exact ⟨refTree_of_excluded d pl g hexg htame.1, hrt⟩
              · simp only [tameRefs, Bool.and_eq_true]
                exact ⟨htame.1, htm⟩
          | some res =>
            simp only [applyResolutionToGenerics] at happly
            split at happly
            · cases happly
            · rename_i g2 heqg
              split at happly
              · cases happly
              · rename_i rest heq
                cases happly
                obtain ⟨hrt1, htm1⟩ :=
                  ihr g res g2 hszg htame.1 hok.1 heqg
                obtain ⟨hrt2, htm2⟩ := ihl gs rs rest hszgs htame.2 hok.2 heq
                constructor
                · simp only [refsTreeOKb, Bool.and_eq_true]
                  exact ⟨hrt1, hrt2⟩
                · simp only [tameRefs, Bool.and_eq_true]
                  exact ⟨htm1, htm2⟩

end Punybuf
namespace Punybuf

theorem beq_some_layer (a b : Nat) :
    ((a == b) == (some a == some b)) = true := by
  by_cases h : a = b
  · subst h; simp
  · have h1 : (a == b) = false := by simpa using h
    have h2 : (some a == some b) = false := by simpa using h
    rw [h1, h2]
    rfl

theorem resolve_posts : ∀ (gas : Nat) (sra : Bool) (d : PunybufDefinition),
    crossKindDisjointb d = true → defTame d = true →
    (∀ (refr : PBTypeRef) (pl tries : Nat) (res : Option ResolvedReference),
      tameRef refr = true →
      resolveReference gas sra d refr pl tries = .ok res →
      rrOKb d pl refr res = true) ∧
    (∀ (refr : PBTypeRef) (pl tries : Nat) (wcl : TypeOrCmdDef)
       (res : Option ResolvedReference),
      tameRef refr = true →
      (!refr.is_global || refr.reference == "Void") = false →
      getHighestLayer d refr.reference (some pl) = some wcl →
      resolveReferenceCommon gas sra d refr pl tries wcl = .ok res →
      rrOKb d pl refr res = true) ∧
    (∀ (gens : List PBTypeRef) (pl tries : Nat)
       (ress : List (Option ResolvedReference)),
      tameRefs gens = true →
      resolveGenericsList gas sra d gens pl tries = .ok ress →
      rrsOKb d pl gens ress = true) := by
  intro gas
  induction gas with
  | zero =>
    intro sra d _ _
    refine ⟨?_, ?_, ?_⟩
    · intro refr pl tries res _ h; cases h
    · intro refr pl tries wcl res _ _ _ h; cases h
    · intro gens pl tries ress _ h; cases h
  | succ gas ihg =>
    intro sra d hdisj hdt
    obtain ⟨ihr, ihc, ihl⟩ := ihg sra d hdisj hdt
    refine ⟨?_, ?_, ?_⟩
    · intro refr pl tries res htame h
      simp only [resolveReference] at h
      split at h
      · cases h
      · split at h
        · rename_i hex
          cases h
          simp only [rrOKb, Bool.and_eq_true]
          exact ⟨hex, htame⟩
        · rename_i hex
          have hexf : (!refr.is_global || refr.reference == "Void") = false :=
            eq_false_of_ne_true hex
          split at h
          · cases h
          · rename_i wcl hghl
            split at h
            · rename_i tp
              split at h
              · rename_i hres
                split at h
                · cases h
                · rename_i dealias hra
                  have htpmem : tp ∈ d.types :=
                    getHighestLayer_typeDef_mem d refr.reference
                      (some pl) tp hghl
                  have htamed : tameRef dealias = true :=
                    resolveAlias_tame refr tp dealias htame
                      (defTame_type d tp hdt htpmem) hra
                  split at h
                  · cases h
                  · rename_i inner hrec
                    split at h
                    · cases h
                    · rename_i dealias2 happ
                      cases h
                      have hrr := ihr dealias pl (tries + 1)
                        (some inner) htamed hrec
                      obtain ⟨hrt, htm⟩ :=
                        (apply_posts (refSize dealias) d pl).1 dealias
                          inner dealias2 (Nat.le_refl _) htamed hrr happ
                      simp only [rrOKb, Bool.and_eq_true]
                      exact ⟨hrt, htm⟩
                  · rename_i hrec
                    cases h
                    have hrr := ihr dealias pl (tries + 1) none htamed hrec
                    simp only [rrOKb, Bool.and_eq_true] at hrr
                    simp only [rrOKb, Bool.and_eq_true]
                    exact ⟨refTree_of_excluded d pl dealias hrr.1 hrr.2,
                      htamed⟩
              · exact ihc refr pl tries (.typeDef tp) res htame hexf hghl h
            · rename_i cmd
              exact ihc refr pl tries (.cmdDef cmd) res htame hexf hghl h
    · intro refr pl tries wcl res htame hexf hghl h
      simp only [resolveReferenceCommon] at h
      split at h
      · cases h
      · rename_i hl hghl0
        split at h
        · cases h
        · rename_i gens hgl
          cases h
          cases refr with
          | mk name rgens rl ih ig =>
            have hig : ig = true := by
              simp only [PBTypeRef.is_global, PBTypeRef.reference,
                Bool.or_eq_false_iff] at hexf
              have := hexf.1
              cases ig with
              | true => rfl
              | false => cases this
            have hnv : (name == "Void") = false := by
              simp only [PBTypeRef.is_global, PBTypeRef.reference,
                Bool.or_eq_false_iff] at hexf
              exact hexf.2
            have hglv : greatestLayerLE d name (some pl) =
                some wcl.get_layer := by
              have := getHighestLayer_layers d name (some pl) hdisj
              simp only [PBTypeRef.reference] at hghl
              rw [hghl] at this
              exact this.symm
            have hglnone : greatestLayerLE d name none =
                some hl.get_layer := by
              have := getHighestLayer_layers d name none hdisj
              simp only [PBTypeRef.reference] at hghl0
              rw [hghl0] at this
              exact this.symm
            simp only [rrOKb, Bool.and_eq_true]
            refine ⟨⟨⟨⟨hig, ?_⟩, ?_⟩, ?_⟩, ?_⟩
            · rw [hnv]; rfl
            · rw [hglv]; exact beq_self_eq_true _
            · rw [hglnone]
              exact beq_some_layer hl.get_layer wcl.get_layer
            · exact ihl rgens pl (tries + 1) gens
                (tameRef_gens _ htame) hgl
    · intro gens pl tries ress htame h
      cases gens with
      | nil =>
        simp only [resolveGenericsList] at h
        cases h
        rfl
      | cons g gs =>
        simp only [resolveGenericsList] at h
        split at h
        · cases h
        · rename_i r hr
          split at h
          · cases h
          · rename_i rs hrs
            cases h
            simp only [tameRefs, Bool.and_eq_true] at htame
            simp only [rrsOKb, Bool.and_eq_true]
            exact ⟨ihr g pl tries r htame.1 hr,
              ihl gs pl tries rs htame.2 hrs⟩

end Punybuf
namespace Punybuf

theorem resolveFlagsList_post (gas : Nat) (sra : Bool) (d : PunybufDefinition)
    (hdisj : crossKindDisjointb d = true) (hdt : defTame d = true) (pl : Nat) :
    ∀ (flags : List PBFieldFlag) (ress : List (Option ResolvedReference)),
      (∀ fl ∈ flags, ∀ v, fl.value = some v → tameRef v = true) →
      resolveFlagsList gas sra d pl flags = .ok ress →
      flagsOKb d pl flags ress = true := by
  intro flags
  induction flags with
  | nil => intro ress _ h; cases h; rfl
  | cons fl fls ih =>
    intro ress htame h
    rcases fl with ⟨fname, fvalue, fattrs, fdoc⟩
    cases fvalue with
    | none =>
      simp only [resolveFlagsList] at h
      split at h
      · cases h
      · rename_i rs hrs
        cases h
        simp only [flagsOKb, Bool.and_eq_true]
        refine ⟨by simp [flagOKb], ?_⟩
        exact ih rs (fun f hf v hv => htame f (by simp [hf]) v hv) hrs
    | some v =>
      simp only [resolveFlagsList] at h
      split at h
      · cases h
      · rename_i r hr
        split at h
        · cases h
        · rename_i rs hrs
          cases h
          simp only [flagsOKb, Bool.and_eq_true]
          constructor
          · have htv : tameRef v = true :=
              htame ⟨fname, some v, fattrs, fdoc⟩ (by simp) v rfl
            have := (resolve_posts gas sra d hdisj hdt).1 v pl 0 r htv hr
            simpa [flagOKb] using this
          · exact ih rs (fun f hf v hv => htame f (by simp [hf]) v hv) hrs

theorem resolveFieldsList_post (gas : Nat) (sra : Bool) (d : PunybufDefinition)
    (hdisj : crossKindDisjointb d = true) (hdt : defTame d = true) (pl : Nat) :
    ∀ (fields : List PBField) (ress : List ResolvedField),
      (∀ r ∈ fieldsTopRefs fields, tameRef r = true) →
      resolveFieldsList gas sra d pl fields = .ok ress →
      fieldsOKb d pl fields ress = true := by
  intro fields
  induction fields with
  | nil => intro ress _ h; cases h; rfl
  | cons f fs ih =>
    intro ress htame h
    rcases f with ⟨fname, fvalue, fflags, fattrs, fdoc⟩
    have htameval : tameRef fvalue = true := by
      apply htame
      simp [fieldsTopRefs]
    have htamefl : ∀ flags, fflags = some flags →
        ∀ fl ∈ flags, ∀ v, fl.value = some v → tameRef v = true := by
      intro flags hup fl hfl v hv
      apply htame
      simp only [fieldsTopRefs, List.flatMap_cons, List.mem_append,
        List.mem_cons]
      left
      right
      rw [hup]
      simp only [List.mem_filterMap]
      exact ⟨fl, hfl, hv⟩
    have htamerest : ∀ r ∈ fieldsTopRefs fs, tameRef r = true := by
      intro r hr
      apply htame
      simp only [fieldsTopRefs, List.flatMap_cons, List.mem_append]
      right
      exact hr
    cases fflags with
    | none =>
      simp only [resolveFieldsList] at h
      split at h
      · cases h
      · rename_i r hr
        split at h
        · cases h
        · rename_i rs hrs
          cases h
          simp only [fieldsOKb, Bool.and_eq_true]
          refine ⟨?_, ih rs htamerest hrs⟩
          simp only [fieldOKb, Bool.and_eq_true]
          exact ⟨(resolve_posts gas sra d hdisj hdt).1 fvalue pl 0 r
            htameval hr, by simp⟩
    | some flags =>
      simp only [resolveFieldsList] at h
      split at h
      · cases h
      · rename_i flres hflres
        split at h
        · cases h
        · rename_i r hr
          split at h
          · cases h
          · rename_i rs hrs
            cases h
            split at hflres
            · cases hflres
            · rename_i rfl0 hrfl
              cases hflres
              simp only [fieldsOKb, Bool.and_eq_true]
              refine ⟨?_, ih rs htamerest hrs⟩
              simp only [fieldOKb, Bool.and_eq_true]
              refine ⟨(resolve_posts gas sra d hdisj hdt).1 fvalue pl 0 r
                htameval hr, ?_⟩
              exact resolveFlagsList_post gas sra d hdisj hdt pl flags rfl0
                (htamefl flags rfl) hrfl

theorem resolveVariantsList_post (gas : Nat) (sra : Bool)
    (d : PunybufDefinition) (hdisj : crossKindDisjointb d = true)
    (hdt : defTame d = true) (pl : Nat) :
    ∀ (variants : List PBEnumVariant) (ress : List (Option ResolvedReference)),
      (∀ va ∈ variants, ∀ v, va.value = some v → tameRef v = true) →
      resolveVariantsList gas sra d pl variants = .ok ress →
      variantsOKb d pl variants ress = true := by
  intro variants
  induction variants with
  | nil => intro ress _ h; cases h; rfl
  | cons va vas ih =>
    intro ress htame h
    rcases va with ⟨vname, vdisc, vvalue, vattrs, vdoc⟩
    cases vvalue with
    | none =>
      simp only [resolveVariantsList] at h
      split at h
      · cases h
      · rename_i rs hrs
        cases h
        simp only [variantsOKb, Bool.and_eq_true]
        refine ⟨by simp [variantOKb], ?_⟩
        exact ih rs (fun x hx v hv => htame x (by simp [hx]) v hv) hrs
    | some v =>
      simp only [resolveVariantsList] at h
      split at h
      · cases h
      · rename_i r hr
        split at h
        · cases h
        · rename_i rs hrs
          cases h
          simp only [variantsOKb, Bool.and_eq_true]
          constructor
          · have htv : tameRef v = true :=
              htame ⟨vname, vdisc, some v, vattrs, vdoc⟩ (by simp) v rfl
            have := (resolve_posts gas sra d hdisj hdt).1 v pl 0 r htv hr
            simpa [variantOKb] using this
          · exact ih rs (fun x hx v hv => htame x (by simp [hx]) v hv) hrs

theorem resolveOneType_post (gas : Nat) (sra : Bool) (d : PunybufDefinition)
    (hdisj : crossKindDisjointb d = true) (hdt : defTame d = true)
    (tp : PBTypeDef) (res : ResolvedTypeDef)
    (htame : (typeTopRefs tp).all tameRef = true)
    (h : resolveOneType gas sra d tp = .ok res) :
    rtdOKb d tp res = true := by
  rw [List.all_eq_true] at htame
  cases tp with
  | «alias» name doc layer attrs ga body ih =>
    simp only [resolveOneType] at h
    split at h
    · cases h
    · split at h
      · cases h
      · rename_i r hr
        cases h
        simp only [rtdOKb]
        exact (resolve_posts gas sra d hdisj hdt).1 body layer 0 r
          (htame body (by simp [typeTopRefs])) hr
  | struct name doc layer attrs ga fields io ih =>
    simp only [resolveOneType] at h
    split at h
    · cases h
    · split at h
      · cases h
      · rename_i rfs hrfs
        cases h
        simp only [rtdOKb]
        exact resolveFieldsList_post gas sra d hdisj hdt layer fields rfs
          (fun r hr => htame r (by simpa [typeTopRefs] using hr)) hrfs
  | enum name doc layer attrs ga variants io ih =>
    simp only [resolveOneType] at h
    split at h
    · cases h
    · split at h
      · cases h
      · rename_i rvs hrvs
        cases h
        simp only [rtdOKb]
        apply resolveVariantsList_post gas sra d hdisj hdt layer variants rvs
          ?_ hrvs
        intro va hva v hv
        apply htame
        simp only [typeTopRefs, List.mem_filterMap]
        exact ⟨va, hva, hv⟩

theorem resolveOneCommand_post (gas : Nat) (sra : Bool)
    (d : PunybufDefinition) (hdisj : crossKindDisjointb d = true)
    (hdt : defTame d = true) (cmd : PBCommandDef) (res : ResolvedCommand)
    (htame : (cmdTopRefs cmd).all tameRef = true)
    (h : resolveOneCommand gas sra d cmd = .ok res) :
    rcOKb d cmd res = true := by
  rw [List.all_eq_true] at htame
  have htret : tameRef cmd.ret = true := by
    apply htame
    simp [cmdTopRefs]
  have htvar : ∀ va ∈ cmd.err, ∀ v, va.value = some v → tameRef v = true := by
    intro va hva v hv
    apply htame
    simp only [cmdTopRefs, List.mem_append, List.mem_filterMap]
    right
    exact ⟨va, hva, hv⟩
  simp only [resolveOneCommand] at h
  split at h
  · cases h
  · split at h
    · cases h
    · rename_i ret hret
      split at h
      · cases h
      · rename_i err herr
        split at h
        · cases h
        · rename_i arg harg
          cases h
          simp only [rcOKb, Bool.and_eq_true]
          refine ⟨⟨(resolve_posts gas sra d hdisj hdt).1 cmd.ret cmd.layer 0
            ret htret hret,
            resolveVariantsList_post gas sra d hdisj hdt cmd.layer cmd.err
              err htvar herr⟩, ?_⟩
          split at harg
          · rename_i refr hargeq
            split at harg
            · cases harg
            · rename_i r hr
              cases harg
              rw [hargeq]
              have htr : tameRef refr = true := by
                apply htame
                simp [cmdTopRefs, hargeq]
              exact (resolve_posts gas sra d hdisj hdt).1 refr cmd.layer 0 r
                htr hr
          · rename_i hargeq
            cases harg
            rw [hargeq]
          · rename_i fields hargeq
            split at harg
            · cases harg
            · rename_i rfs hrfs
              cases harg
              rw [hargeq]
              apply resolveFieldsList_post gas sra d hdisj hdt cmd.layer
                fields rfs ?_ hrfs
              intro r hr
              apply htame
              simp [cmdTopRefs, hargeq, hr]

theorem resolveTypesList_post (gas : Nat) (sra : Bool) (d : PunybufDefinition)
    (hdisj : crossKindDisjointb d = true) (hdt : defTame d = true) :
    ∀ (tps : List PBTypeDef) (ress : List ResolvedTypeDef),
      (∀ tp ∈ tps, (typeTopRefs tp).all tameRef = true) →
      resolveTypesList gas sra d tps = .ok ress →
      List.Forall₂ (fun tp res => rtdOKb d tp res = true) tps ress := by
  intro tps
  induction tps with
  | nil => intro ress _ h; cases h; exact List.Forall₂.nil
  | cons tp tps ih =>
    intro ress htame h
    simp only [resolveTypesList] at h
    split at h
    · cases h
    · rename_i r hr
      split at h
      · cases h
      · rename_i rs hrs
        cases h
        exact List.Forall₂.cons
          (resolveOneType_post gas sra d hdisj hdt tp r
            (htame tp (by simp)) hr)
          (ih rs (fun t ht => htame t (by simp [ht])) hrs)

theorem resolveCommandsList_post (gas : Nat) (sra : Bool)
    (d : PunybufDefinition) (hdisj : crossKindDisjointb d = true)
    (hdt : defTame d = true) :
    ∀ (cmds : List PBCommandDef) (ress : List ResolvedCommand),
      (∀ cmd ∈ cmds, (cmdTopRefs cmd).all tameRef = true) →
      resolveCommandsList gas sra d cmds = .ok ress →
      List.Forall₂ (fun cmd res => rcOKb d cmd res = true) cmds ress := by
  intro cmds
  induction cmds with
  | nil => intro ress _ h; cases h; exact List.Forall₂.nil
  | cons cmd cmds ih =>
    intro ress htame h
    simp only [resolveCommandsList] at h
    split at h
    · cases h
    · rename_i r hr
      split at h
      · cases h
      · rename_i rs hrs
        cases h
        exact List.Forall₂.cons
          (resolveOneCommand_post gas sra d hdisj hdt cmd r
            (htame cmd (by simp)) hr)
          (ih rs (fun c hc => htame c (by simp [hc])) hrs)

end Punybuf
namespace Punybuf

theorem applyFlags_post (d : PunybufDefinition) (pl : Nat) :
    ∀ (flags : List PBFieldFlag) (resFlags : List (Option ResolvedReference))
      (flags' : List PBFieldFlag),
      (∀ fl ∈ flags, ∀ v, fl.value = some v → tameRef v = true) →
      flagsOKb d pl flags resFlags = true →
      applyResolutionToFlags flags resFlags = .ok flags' →
      ∀ fl' ∈ flags', ∀ v, fl'.value = some v →
        refTreeOKb d pl v = true ∧ tameRef v = true := by
  intro flags
  induction flags with
  | nil =>
    intro resFlags flags' _ _ h
    simp only [applyResolutionToFlags] at h
    cases h
    simp
  | cons fl fls ih =>
    intro resFlags flags' htame hok h
    cases resFlags with
    | nil => simp [flagsOKb] at hok
    | cons r rs =>
      simp only [flagsOKb, Bool.and_eq_true] at hok
      simp only [applyResolutionToFlags] at h
      split at h
      · cases h
      · rename_i value hval
        split at h
        · cases h
        · rename_i rest hrest
          cases h
          have hfls : ∀ fl' ∈ rest, ∀ v, fl'.value = some v →
              refTreeOKb d pl v = true ∧ tameRef v = true :=
            ih rs rest (fun f hf v hv => htame f (by simp [hf]) v hv)
              hok.2 hrest
          intro fl' hfl' v hv
          rcases List.mem_cons.mp hfl' with rfl | hm
          · have hv2 : value = some v := hv
            split at hval
            · rename_i heq0
              cases hval
              rw [heq0] at hv2
              cases hv2
            · rename_i v0 heq0
              cases hval
              rw [heq0] at hv2
              cases hv2
              have htv : tameRef v = true := htame fl (by simp) v heq0
              have hexv : rrOKb d pl v none = true := by
                have h1 := hok.1
                simp only [flagOKb] at h1
                rw [heq0] at h1
                exact h1
              simp only [rrOKb, Bool.and_eq_true] at hexv
              exact ⟨refTree_of_excluded d pl v hexv.1 hexv.2, htv⟩
            · rename_i v0 res0 heq0
              split at hval
              · cases hval
              · rename_i v2 happ
                cases hval
                cases hv2
                have htv0 : tameRef v0 = true := htame fl (by simp) v0 heq0
                have hokv : rrOKb d pl v0 (some res0) = true := by
                  have h1 := hok.1
                  simp only [flagOKb] at h1
                  rw [heq0] at h1
                  exact h1
                exact (apply_posts (refSize v0) d pl).1 v0 res0 v
                  (Nat.le_refl _) htv0 hokv happ
          · exact hfls fl' hm v hv

theorem applyFields_post (d : PunybufDefinition) (pl : Nat) :
    ∀ (fields : List PBField) (resFields : List ResolvedField)
      (fields' : List PBField),
      (∀ r ∈ fieldsTopRefs fields, tameRef r = true) →
      fieldsOKb d pl fields resFields = true →
      applyResolutionToFields fields resFields = .ok fields' →
      ∀ r ∈ fieldsTopRefs fields',
        refTreeOKb d pl r = true ∧ tameRef r = true := by
  intro fields
  induction fields with
  | nil =>
    intro resFields fields' _ _ h
    simp only [applyResolutionToFields] at h
    cases h
    simp [fieldsTopRefs]
  | cons f fs ih =>
    intro resFields fields' htame hok h
    cases resFields with
    | nil => simp [fieldsOKb] at hok
    | cons rf rfs =>
      simp only [fieldsOKb, Bool.and_eq_true] at hok
      obtain ⟨hokf, hokfs⟩ := hok
      simp only [fieldOKb, Bool.and_eq_true] at hokf
      have htameval : tameRef f.value = true := by
        apply htame
        simp [fieldsTopRefs]
      have htamefl : ∀ flags0, f.flags = some flags0 →
          ∀ fl ∈ flags0, ∀ v, fl.value = some v → tameRef v = true := by
        intro flags0 heq fl hfl v hv
        apply htame
        simp only [fieldsTopRefs, List.flatMap_cons, List.mem_append,
          List.mem_cons]
        left
        right
        rw [heq]
        simp only [List.mem_filterMap]
        exact ⟨fl, hfl, hv⟩
      have htamerest : ∀ r ∈ fieldsTopRefs fs, tameRef r = true := by
        intro r hr
        apply htame
        simp only [fieldsTopRefs, List.flatMap_cons, List.mem_append]
        right
        exact hr
      simp only [applyResolutionToFields] at h
      split at h
      · cases h
      · rename_i value hval
        split at h
        · cases h
        · rename_i flags' hflags
          split at h
          · cases h
          · rename_i rest hrest
            cases h
            have hfs := ih rfs rest htamerest hokfs hrest
            have hvalOK : refTreeOKb d pl value = true ∧
                tameRef value = true := by
              split at hval
              · rename_i heq0
                cases hval
                have hexv : rrOKb d pl f.value none = true := by
                  have h1 := hokf.1
                  rw [heq0] at h1
                  exact h1
                simp only [rrOKb, Bool.and_eq_true] at hexv
                exact ⟨refTree_of_excluded d pl f.value hexv.1 hexv.2,
                  htameval⟩
              · rename_i res0 heq0
                have hokv : rrOKb d pl f.value (some res0) = true := by
                  have h1 := hokf.1
                  rw [heq0] at h1
                  exact h1
                exact (apply_posts (refSize f.value) d pl).1 f.value res0
                  value (Nat.le_refl _) htameval hokv hval
            have hflagsOK : ∀ fl' ∈ flags'.getD [], ∀ v, fl'.value = some v →
                refTreeOKb d pl v = true ∧ tameRef v = true := by
              split at hflags
              · rename_i heq0
                cases hflags
                intro fl' hfl'
                simp at hfl'
              · cases hflags
              · rename_i flags0 resFlags0 heq0 heqr
                split at hflags
                · cases hflags
                · rename_i flags1 happf
                  cases hflags
                  intro fl' hfl' v hv
                  have hflok0 : flagsOKb d pl flags0 resFlags0 = true := by
                    have h1 := hokf.2
                    rw [heq0, heqr] at h1
                    exact h1
                  exact applyFlags_post d pl flags0 resFlags0 flags1
                    (htamefl flags0 heq0) hflok0 happf fl'
                    (by simpa using hfl') v hv
            intro r hr
            simp only [fieldsTopRefs, List.flatMap_cons, List.mem_append,
              List.mem_cons] at hr
            rcases hr with (rfl | hrfl) | hrrest
            · exact hvalOK
            · cases flags' with
              | none => simp at hrfl
              | some flags1 =>
                simp only [List.mem_filterMap] at hrfl
                obtain ⟨fl', hfl', hv⟩ := hrfl
                exact hflagsOK fl' (by simpa using hfl') r hv
            · exact hfs r hrrest

theorem applyVariants_post (d : PunybufDefinition) (pl : Nat) :
    ∀ (variants : List PBEnumVariant)
      (resVariants : List (Option ResolvedReference))
      (variants' : List PBEnumVariant),
      (∀ va ∈ variants, ∀ v, va.value = some v → tameRef v = true) →
      variantsOKb d pl variants resVariants = true →
      applyResolutionToVariants variants resVariants = .ok variants' →
      ∀ va' ∈ variants', ∀ v, va'.value = some v →
        refTreeOKb d pl v = true ∧ tameRef v = true := by
  intro variants
  induction variants with
  | nil =>
    intro resVariants variants' _ _ h
    simp only [applyResolutionToVariants] at h
    cases h
    simp
  | cons va vas ih =>
    intro resVariants variants' htame hok h
    cases resVariants with
    | nil => simp [variantsOKb] at hok
    | cons r rs =>
      simp only [variantsOKb, Bool.and_eq_true] at hok
      simp only [applyResolutionToVariants] at h
      split at h
      · cases h
      · rename_i value hval
        split at h
        · cases h
        · rename_i rest hrest
          cases h
          have hvas : ∀ va' ∈ rest, ∀ v, va'.value = some v →
              refTreeOKb d pl v = true ∧ tameRef v = true :=
            ih rs rest (fun x hx v hv => htame x (by simp [hx]) v hv)
              hok.2 hrest
          intro va' hva' v hv
          rcases List.mem_cons.mp hva' with rfl | hm
          · have hv2 : value = some v := hv
            split at hval
            · rename_i heq0
              cases hval
              rw [heq0] at hv2
              cases hv2
            · rename_i v0 heq0
              cases hval
              rw [heq0] at hv2
              cases hv2
              have htv : tameRef v = true := htame va (by simp) v heq0
              have hexv : rrOKb d pl v none = true := by
                have h1 := hok.1
                simp only [variantOKb] at h1
                rw [heq0] at h1
                exact h1
              simp only [rrOKb, Bool.and_eq_true] at hexv
              exact ⟨refTree_of_excluded d pl v hexv.1 hexv.2, htv⟩
            · rename_i v0 res0 heq0
              split at hval
              · cases hval
              · rename_i v2 happ
                cases hval
                cases hv2
                have htv0 : tameRef v0 = true := htame va (by simp) v0 heq0
                have hokv : rrOKb d pl v0 (some res0) = true := by
                  have h1 := hok.1
                  simp only [variantOKb] at h1
                  rw [heq0] at h1
                  exact h1
                exact (apply_posts (refSize v0) d pl).1 v0 res0 v
                  (Nat.le_refl _) htv0 hokv happ
          · exact hvas va' hm v hv

end Punybuf
namespace Punybuf

theorem applyOneType_post (d : PunybufDefinition) (tp : PBTypeDef)
    (res : ResolvedTypeDef) (tp' : PBTypeDef)
    (htame : (typeTopRefs tp).all tameRef = true)
    (hok : rtdOKb d tp res = true)
    (h : applyOneType tp res = .ok tp') :
    tp'.get_name = tp.get_name ∧ tp'.get_layer = tp.get_layer ∧
      ∀ r ∈ typeTopRefs tp',
        refTreeOKb d tp.get_layer r = true ∧ tameRef r = true := by
  rw [List.all_eq_true] at htame
  rcases res with ⟨rih, rdata⟩
  cases tp with
  | «alias» name doc layer attrs ga body ihf =>
    cases rdata with
    | struct rfs => simp [applyOneType, PBTypeDef.with_is_highest_layer] at h
    | enum rvs => simp [applyOneType, PBTypeDef.with_is_highest_layer] at h
    | «alias» rref =>
      simp only [rtdOKb] at hok
      have htbody : tameRef body = true := htame body (by simp [typeTopRefs])
      cases rref with
      | none =>
        simp only [applyOneType, PBTypeDef.with_is_highest_layer] at h
        cases h
        refine ⟨rfl, rfl, ?_⟩
        intro r hr
        simp only [typeTopRefs, List.mem_singleton] at hr
        subst hr
        simp only [rrOKb, Bool.and_eq_true] at hok
        exact ⟨refTree_of_excluded d layer r hok.1 hok.2, hok.2⟩
      | some res0 =>
        simp only [applyOneType, PBTypeDef.with_is_highest_layer] at h
        split at h
        · cases h
        · rename_i body' happ
          cases h
          refine ⟨rfl, rfl, ?_⟩
          intro r hr
          simp only [typeTopRefs, List.mem_singleton] at hr
          subst hr
          exact (apply_posts (refSize body) d layer).1 body res0 r
            (Nat.le_refl _) htbody hok happ
  | struct name doc layer attrs ga fields io ihf =>
    cases rdata with
    | «alias» rref => simp [applyOneType, PBTypeDef.with_is_highest_layer] at h
    | enum rvs => simp [applyOneType, PBTypeDef.with_is_highest_layer] at h
    | struct rfs =>
      simp only [rtdOKb] at hok
      simp only [applyOneType, PBTypeDef.with_is_highest_layer] at h
      split at h
      · cases h
      · rename_i fields' happ
        cases h
        refine ⟨rfl, rfl, ?_⟩
        intro r hr
        simp only [typeTopRefs] at hr ⊢
        exact applyFields_post d layer fields rfs fields'
          (fun x hx => htame x (by simpa [typeTopRefs] using hx)) hok happ
          r hr
  | enum name doc layer attrs ga variants io ihf =>
    cases rdata with
    | «alias» rref => simp [applyOneType, PBTypeDef.with_is_highest_layer] at h
    | struct rfs => simp [applyOneType, PBTypeDef.with_is_highest_layer] at h
    | enum rvs =>
      simp only [rtdOKb] at hok
      simp only [applyOneType, PBTypeDef.with_is_highest_layer] at h
      split at h
      · cases h
      · rename_i variants' happ
        cases h
        refine ⟨rfl, rfl, ?_⟩
        intro r hr
        simp only [typeTopRefs, List.mem_filterMap] at hr
        obtain ⟨va, hva, hv⟩ := hr
        apply applyVariants_post d layer variants rvs variants'
          ?_ hok happ va hva r hv
        intro va0 hva0 v hv0
        apply htame
        simp only [typeTopRefs, List.mem_filterMap]
        exact ⟨va0, hva0, hv0⟩

theorem applyOneCommand_refs (d : PunybufDefinition) (cmd : PBCommandDef)
    (res : ResolvedCommand) (cmd' : PBCommandDef)
    (htame : (cmdTopRefs cmd).all tameRef = true)
    (hok : rcOKb d cmd res = true)
    (hnv : cmdArgOKb cmd = true)
    (h : applyOneCommand cmd res = .ok cmd') :
    ∀ r ∈ cmdTopRefs cmd', refTreeOKb d cmd.layer r = true := by
  rw [List.all_eq_true] at htame
  simp only [rcOKb, Bool.and_eq_true] at hok
  obtain ⟨⟨hokret, hokerr⟩, hokarg⟩ := hok
  have htret : tameRef cmd.ret = true := htame cmd.ret (by simp [cmdTopRefs])
  have htvar : ∀ va ∈ cmd.err, ∀ v, va.value = some v →
      tameRef v = true := by
    intro va hva v hv
    apply htame
    simp only [cmdTopRefs, List.mem_append, List.mem_filterMap]
    right
    exact ⟨va, hva, hv⟩
  simp only [applyOneCommand] at h
  split at h
  · cases h
  · rename_i hargm
    exfalso
    split at hargm
    · exact Option.noConfusion (Except.ok.inj hargm)
    · rename_i refr resolution heq0 heqr
      split at hargm
      · have hokarg2 : rrOKb d cmd.layer refr none = true := by
          rw [heq0, heqr] at hokarg
          exact hokarg
        have hnv2 : (refr.is_global && !(refr.reference == "Void")) = true := by
          simp only [cmdArgOKb] at hnv
          rw [heq0] at hnv
          exact hnv
        simp only [rrOKb, Bool.and_eq_true, Bool.or_eq_true,
          Bool.not_eq_true'] at hokarg2 hnv2
        rcases hokarg2.1 with hng | hv
        · rw [hnv2.1] at hng
          cases hng
        · rw [hnv2.2] at hv
          cases hv
      · split at hargm
        · cases hargm
        · exact Option.noConfusion (Except.ok.inj hargm)
    · cases hargm
    · split at hargm
      · cases hargm
      · exact Option.noConfusion (Except.ok.inj hargm)
    · cases hargm
  · rename_i argument hargm
    split at h
    · cases h
    · rename_i ret hretm
      split at h
      · cases h
      · rename_i err happv
        cases h
        have hretOK : refTreeOKb d cmd.layer ret = true := by
          split at hretm
          · rename_i heq0
            cases hretm
            rw [heq0] at hokret
            simp only [rrOKb, Bool.and_eq_true] at hokret
            exact refTree_of_excluded d cmd.layer cmd.ret hokret.1 hokret.2
          · rename_i res0 heq0
            rw [heq0] at hokret
            exact ((apply_posts (refSize cmd.ret) d cmd.layer).1 cmd.ret
              res0 ret (Nat.le_refl _) htret hokret hretm).1
        have herrOK : ∀ va ∈ err, ∀ v, va.value = some v →
            refTreeOKb d cmd.layer v = true := by
          intro va hva v hv
          exact (applyVariants_post d cmd.layer cmd.err res.err err htvar
            hokerr happv va hva v hv).1
        have hargOK : ∀ r0 ∈ (match argument with
            | PBCommandArg.none => ([] : List PBTypeRef)
            | PBCommandArg.ref rr => [rr]
            | PBCommandArg.struct fs => fieldsTopRefs fs),
            refTreeOKb d cmd.layer r0 = true := by
          split at hargm
          · rename_i heq0
            have hargeq : argument = cmd.argument :=
              (Option.some.inj (Except.ok.inj hargm)).symm
            rw [hargeq, heq0]
            intro r0 hr0
            simp at hr0
          · rename_i heq0 heqr
            split at hargm
            · exact Option.noConfusion (Except.ok.inj hargm).symm
            · split at hargm
              · cases hargm
              · rename_i refr2 happ
                have hargeq := (Option.some.inj (Except.ok.inj hargm)).symm
                rw [hargeq]
                intro r0 hr0
                have heqx := List.mem_singleton.mp hr0
                subst heqx
                exact ((apply_posts (refSize _) d cmd.layer).1 _ _ r0
                  (Nat.le_refl _)
                  (by apply htame; simp [cmdTopRefs, heq0])
                  (by rw [heq0, heqr] at hokarg; exact hokarg) happ).1
          · cases hargm
          · rename_i heq0 heqr
            split at hargm
            · cases hargm
            · rename_i fields2 happ
              have hargeq := (Option.some.inj (Except.ok.inj hargm)).symm
              rw [hargeq]
              intro r0 hr0
              refine (applyFields_post d cmd.layer _ _ fields2 ?_ ?_ happ
                r0 hr0).1
              · intro x hx
                apply htame
                simp [cmdTopRefs, heq0, hx]
              · rw [heq0, heqr] at hokarg
                exact hokarg
          · cases hargm
        intro r hr
        simp only [cmdTopRefs, List.mem_append, List.mem_singleton,
          List.mem_filterMap] at hr
        rcases hr with (hra | rfl) | ⟨va, hva, hv⟩
        · exact hargOK r hra
        · exact hretOK
        · exact herrOK va hva r hv

theorem forall2_mem_right {α β : Type} {P : α → β → Prop} :
    ∀ {l : List α} {l' : List β}, List.Forall₂ P l l' →
      ∀ y ∈ l', ∃ x ∈ l, P x y := by
  intro l l' h
  induction h with
  | nil => intro y hy; cases hy
  | cons hp hrest ih =>
    intro y hy
    rcases List.mem_cons.mp hy with rfl | hm
    · exact ⟨_, by simp, hp⟩
    · obtain ⟨x, hx, hpx⟩ := ih y hm
      exact ⟨x, by simp [hx], hpx⟩

theorem zipApply_forall2 {α β : Type} (apply : α → β → Except String α)
    (P : α → β → Prop) (Q : α → α → Prop)
    (hstep : ∀ x r x', P x r → apply x r = .ok x' → Q x x') :
    ∀ (xs : List α) (rs : List β) (xs' : List α),
      List.Forall₂ P xs rs → zipApply apply xs rs = .ok xs' →
      List.Forall₂ Q xs xs' := by
  intro xs
  induction xs with
  | nil =>
    intro rs xs' hf h
    cases h
    exact List.Forall₂.nil
  | cons x xs ih =>
    intro rs xs' hf h
    cases rs with
    | nil => cases hf
    | cons r rs =>
      cases hf with
      | cons hp hrest =>
        simp only [zipApply] at h
        split at h
        · cases h
        · rename_i x' hx
          split at h
          · cases h
          · rename_i rest hr
            cases h
            exact List.Forall₂.cons (hstep x r x' hp hx) (ih rs rest hrest hr)

theorem filtermap_congr {α : Type} (f : α → Nat) (nameOf : α → String)
    (name : String) :
    ∀ (l l' : List α), List.Forall₂ (fun x y =>
      nameOf y = nameOf x ∧ f y = f x) l l' →
      (l'.filter (fun x => nameOf x == name)).map f =
      (l.filter (fun x => nameOf x == name)).map f := by
  intro l l' h
  induction h with
  | nil => rfl
  | cons hp hrest ih =>
    rename_i x y xs ys
    obtain ⟨hn, hf⟩ := hp
    by_cases hx : (nameOf x == name) = true
    · have hy : (nameOf y == name) = true := by rw [hn]; exact hx
      simp only [List.filter_cons, hx, hy, if_true, List.map_cons]
      rw [ih, hf]
    · have hy : (nameOf y == name) = false := by rw [hn]; simpa using hx
      have hx' : (nameOf x == name) = false := by simpa using hx
      simp only [List.filter_cons, hx', hy, Bool.false_eq_true, if_false]
      exact ih

theorem layersOf_congr (d d' : PunybufDefinition)
    (ht : List.Forall₂ (fun tp tp' => tp'.get_name = tp.get_name ∧
      tp'.get_layer = tp.get_layer) d.types d'.types)
    (hc : List.Forall₂ (fun (c c' : PBCommandDef) => c'.name = c.name ∧
      c'.layer = c.layer) d.commands d'.commands) (name : String) :
    layersOf d' name = layersOf d name := by
  simp only [layersOf]
  rw [filtermap_congr PBTypeDef.get_layer PBTypeDef.get_name name _ _ ht,
    filtermap_congr PBCommandDef.layer PBCommandDef.name name _ _ hc]

theorem refTree_congr : ∀ (n : Nat) (d d' : PunybufDefinition),
    (∀ name, layersOf d' name = layersOf d name) → ∀ (pl : Nat),
    (∀ r, refSize r ≤ n → refTreeOKb d' pl r = refTreeOKb d pl r) ∧
    (∀ rs, refsSize rs ≤ n →
      refsTreeOKb d' pl rs = refsTreeOKb d pl rs) := by
  intro n
  induction n with
  | zero =>
    intro d d' hl pl
    constructor
    · intro r hsz
      exfalso
      cases r with
      | mk name gens rl ihf ig => simp [refSize] at hsz
    · intro rs hsz
      cases rs with
      | nil => rfl
      | cons r rs => simp [refsSize] at hsz
  | succ n ihn =>
    intro d d' hl pl
    obtain ⟨ihr, ihl⟩ := ihn d d' hl pl
    constructor
    · intro r hsz
      cases r with
      | mk name gens rl ihf ig =>
        have hgl : ∀ lim, greatestLayerLE d' name lim =
            greatestLayerLE d name lim := by
          intro lim
          simp only [greatestLayerLE, hl name]
        simp only [refTreeOKb]
        rw [hgl (some pl), hgl none,
          ihl gens (by simp only [refSize] at hsz; omega)]
    · intro rs hsz
      cases rs with
      | nil => rfl
      | cons r rs =>
        simp only [refsTreeOKb]
        rw [ihr r (by simp only [refsSize] at hsz; omega),
          ihl rs (by simp only [refsSize] at hsz; omega)]

end Punybuf
namespace Punybuf

theorem with_layer_name (tp : PBTypeDef) (L : Nat) :
    (tp.with_layer L).get_name = tp.get_name := by
  cases tp <;> rfl

theorem with_layer_refs (tp : PBTypeDef) (L : Nat) :
    typeTopRefs (tp.with_layer L) = typeTopRefs tp := by
  cases tp <;> rfl

theorem collectChanges_from (d : PunybufDefinition) (L : Nat) :
    ∀ (deps : List Dependant) (nts : List PBTypeDef) (ncs : List PBCommandDef),
      collectChanges d L deps = .ok (nts, ncs) →
      (∀ tp ∈ nts, ∃ tp0 ∈ d.types, tp.get_name = tp0.get_name ∧
        typeTopRefs tp = typeTopRefs tp0) ∧
      (∀ c ∈ ncs, ∃ c0 ∈ d.commands, c.name = c0.name ∧
        cmdTopRefs c = cmdTopRefs c0) := by
  intro deps
  induction deps with
  | nil =>
    intro nts ncs h
    simp only [collectChanges] at h
    cases h
    exact ⟨fun tp htp => (List.not_mem_nil tp htp).elim,
      fun c hc => (List.not_mem_nil c hc).elim⟩
  | cons dep rest ih =>
    intro nts ncs h
    simp only [collectChanges] at h
    split at h
    · exact ih _ _ h
    · split at h
      · cases h
      · split at h
        · exact ih _ _ h
        · split at h
          · split at h
            · cases h
            · split at h
              · cases h
              · rename_i tp htp _ nts2 ncs2 heq
                cases h
                obtain ⟨iht, ihc⟩ := ih _ _ heq
                constructor
                · intro tp2 htp2
                  rcases List.mem_cons.mp htp2 with rfl | hm
                  · refine ⟨tp, ?_, with_layer_name tp L,
                      with_layer_refs tp L⟩
                    simp only [getTypeFromDependant] at htp
                    exact List.mem_of_find?_eq_some htp
                  · exact iht tp2 hm
                · exact ihc
          · split at h
            · cases h
            · split at h
              · cases h
              · rename_i cmd hcmd _ nts2 ncs2 heq
                cases h
                obtain ⟨iht, ihc⟩ := ih _ _ heq
                constructor
                · exact iht
                · intro c2 hc2
                  rcases List.mem_cons.mp hc2 with rfl | hm
                  · refine ⟨cmd, ?_, rfl, rfl⟩
                    simp only [getCommandFromDependant] at hcmd
                    exact List.mem_of_find?_eq_some hcmd
                  · exact ihc c2 hm

theorem trackChanges_pres (deps : Deps) (d : PunybufDefinition) (i : Nat)
    (deps' : Deps) (d' : PunybufDefinition)
    (h : trackChanges deps d i = .ok (deps', d'))
    (hdisj : crossKindDisjointb d = true) (hdt : defTame d = true) :
    crossKindDisjointb d' = true ∧ defTame d' = true := by
  simp only [trackChanges] at h
  split at h
  · cases h
  · rename_i changedType hget
    split at h
    · cases h; exact ⟨hdisj, hdt⟩
    · rename_i dependants hdeps
      split at h
      · cases h
      · rename_i newTypes newCommands heq
        cases h
        obtain ⟨hfrT, hfrC⟩ := collectChanges_from d changedType.get_layer
          dependants newTypes newCommands heq
        have hdisj2 : ∀ tp0 ∈ d.types, ∀ c0 ∈ d.commands,
            ¬ c0.name = tp0.get_name := by
          simpa [crossKindDisjointb] using hdisj
        simp only [defTame, Bool.and_eq_true, List.all_eq_true] at hdt
        constructor
        · simp only [crossKindDisjointb, List.all_eq_true]
          intro tp htp
          have hname : ∃ tp0 ∈ d.types, tp.get_name = tp0.get_name := by
            rcases List.mem_append.mp htp with hm | hm
            · exact ⟨tp, hm, rfl⟩
            · obtain ⟨tp0, hm0, hn, _⟩ := hfrT tp hm
              exact ⟨tp0, hm0, hn⟩
          obtain ⟨tp0, htp0, hn⟩ := hname
          simp only [Bool.not_eq_true', List.any_eq_false]
          intro c hc
          have hcname : ∃ c0 ∈ d.commands, c.name = c0.name := by
            rcases List.mem_append.mp hc with hm | hm
            · exact ⟨c, hm, rfl⟩
            · obtain ⟨c0, hm0, hn0, _⟩ := hfrC c hm
              exact ⟨c0, hm0, hn0⟩
          obtain ⟨c0, hc0, hcn⟩ := hcname
          rw [hcn, hn]
          exact fun hbeq => hdisj2 tp0 htp0 c0 hc0 (beq_iff_eq.mp hbeq)
        · simp only [defTame, Bool.and_eq_true, List.all_eq_true]
          constructor
          · intro tp htp
            rcases List.mem_append.mp htp with hm | hm
            · exact hdt.1 tp hm
            · obtain ⟨tp0, hm0, _, hrefs⟩ := hfrT tp hm
              rw [hrefs]
              exact hdt.1 tp0 hm0
          · intro c hc
            rcases List.mem_append.mp hc with hm | hm
            · exact hdt.2 c hm
            · obtain ⟨c0, hm0, _, hrefs⟩ := hfrC c hm
              rw [hrefs]
              exact hdt.2 c0 hm0

theorem closureLoop_pres : ∀ (gas : Nat) (deps : Deps)
    (d : PunybufDefinition) (i : Nat) (deps' : Deps)
    (d' : PunybufDefinition),
    closureLoop gas deps d i = .ok (deps', d') →
    crossKindDisjointb d = true → defTame d = true →
    crossKindDisjointb d' = true ∧ defTame d' = true := by
  intro gas
  induction gas with
  | zero => intro deps d i deps' d' h; cases h
  | succ gas ih =>
    intro deps d i deps' d' h hdisj hdt
    simp only [closureLoop] at h
    split at h
    · split at h
      · cases h
      · rename_i deps2 d2 heq
        obtain ⟨h1, h2⟩ := trackChanges_pres deps d i deps2 d2 heq hdisj hdt
        exact ih _ _ _ _ _ h h1 h2
    · cases h; exact ⟨hdisj, hdt⟩

theorem collectChanges_arg (d : PunybufDefinition) (L : Nat)
    (hd : ∀ c ∈ d.commands, cmdArgOKb c = true) :
    ∀ (deps : List Dependant) (nts : List PBTypeDef) (ncs : List PBCommandDef),
      collectChanges d L deps = .ok (nts, ncs) →
      ∀ c ∈ ncs, cmdArgOKb c = true := by
  intro deps
  induction deps with
  | nil =>
    intro nts ncs h c hc
    simp only [collectChanges] at h
    cases h
    simp at hc
  | cons dep rest ih =>
    intro nts ncs h c hc
    simp only [collectChanges] at h
    split at h
    · exact ih _ _ h c hc
    · split at h
      · cases h
      · split at h
        · exact ih _ _ h c hc
        · split at h
          · split at h
            · cases h
            · split at h
              · cases h
              · rename_i nts' ncs' heq
                cases h
                exact ih _ _ heq c hc
          · split at h
            · cases h
            · split at h
              · cases h
              · rename_i cmd hcmd _ nts' ncs' heq
                cases h
                rcases List.mem_cons.mp hc with hce | hcm
                · subst hce
                  have hmem : cmd ∈ d.commands := by
                    simp only [getCommandFromDependant] at hcmd
                    exact List.mem_of_find?_eq_some hcmd
                  exact hd cmd hmem
                · exact ih _ _ heq c hcm

theorem trackChanges_argOK (deps : Deps) (d : PunybufDefinition) (i : Nat)
    (deps' : Deps) (d' : PunybufDefinition)
    (h : trackChanges deps d i = .ok (deps', d'))
    (hd : ∀ c ∈ d.commands, cmdArgOKb c = true) :
    ∀ c ∈ d'.commands, cmdArgOKb c = true := by
  simp only [trackChanges] at h
  split at h
  · cases h
  · rename_i changedType hget
    split at h
    · cases h; exact hd
    · rename_i dependants hdeps
      split at h
      · cases h
      · rename_i newTypes newCommands heq
        cases h
        intro c hc
        rcases List.mem_append.mp hc with hcm | hcn
        · exact hd c hcm
        · exact collectChanges_arg d changedType.get_layer hd dependants
            newTypes newCommands heq c hcn

theorem closureLoop_argOK : ∀ (gas : Nat) (deps : Deps)
    (d : PunybufDefinition) (i : Nat) (deps' : Deps)
    (d' : PunybufDefinition),
    closureLoop gas deps d i = .ok (deps', d') →
    (∀ c ∈ d.commands, cmdArgOKb c = true) →
    ∀ c ∈ d'.commands, cmdArgOKb c = true := by
  intro gas
  induction gas with
  | zero => intro deps d i deps' d' h; cases h
  | succ gas ih =>
    intro deps d i deps' d' h hd
    simp only [closureLoop] at h
    split at h
    · split at h
      · cases h
      · rename_i deps2 d2 heq
        exact ih _ _ _ _ _ h (trackChanges_argOK deps d i deps2 d2 heq hd)
    · cases h; exact hd

theorem phaseAType_name (tp : PBTypeDef) :
    (phaseAType tp).get_name = tp.get_name := by
  cases tp <;> rfl

theorem phaseAType_layer (tp : PBTypeDef) :
    (phaseAType tp).get_layer = tp.get_layer := by
  cases tp <;> rfl

theorem filterMap_value_map (g : PBTypeRef → PBTypeRef) :
    ∀ (flags : List PBFieldFlag),
      (flags.map (fun flag =>
        { flag with value := flag.value.map g })).filterMap
          (fun fl => fl.value) =
      (flags.filterMap (fun fl => fl.value)).map g := by
  intro flags
  induction flags with
  | nil => rfl
  | cons fl fls ih =>
    cases hv : fl.value with
    | none => simp [List.filterMap_cons, hv, ih]
    | some v => simp [List.filterMap_cons, hv, ih]

theorem filterMap_variant_map (g : PBTypeRef → PBTypeRef) :
    ∀ (variants : List PBEnumVariant),
      (variants.map (fun v =>
        { v with value := v.value.map g })).filterMap
          (fun v => v.value) =
      (variants.filterMap (fun v => v.value)).map g := by
  intro variants
  induction variants with
  | nil => rfl
  | cons va vas ih =>
    cases hv : va.value with
    | none => simp [List.filterMap_cons, hv, ih]
    | some v => simp [List.filterMap_cons, hv, ih]

theorem fieldsTopRefs_map (ga : List String) :
    ∀ (fields : List PBField),
      fieldsTopRefs (fields.map (fun f =>
        { f with
          value := checkIfGlobalReference ga f.value,
          flags := f.flags.map (fun flags => flags.map (fun flag =>
            { flag with
              value := flag.value.map (checkIfGlobalReference ga) })) })) =
      (fieldsTopRefs fields).map (checkIfGlobalReference ga) := by
  intro fields
  induction fields with
  | nil => rfl
  | cons f fs ih =>
    simp only [fieldsTopRefs] at ih ⊢
    simp only [List.map_cons, List.flatMap_cons, List.map_append]
    rw [ih]
    congr 1
    cases hf : f.flags with
    | none => rfl
    | some flags =>
      simp only [List.map_cons, Option.map_some]
      congr 1
      exact filterMap_value_map (checkIfGlobalReference ga) flags

theorem typeTopRefs_phaseA (tp : PBTypeDef) :
    typeTopRefs (phaseAType tp) =
      (typeTopRefs tp).map (checkIfGlobalReference tp.get_generics) := by
  cases tp with
  | «alias» name doc layer attrs ga body ih => rfl
  | struct name doc layer attrs ga fields io ih =>
    simp only [phaseAType, typeTopRefs, PBTypeDef.get_generics]
    exact fieldsTopRefs_map ga fields
  | enum name doc layer attrs ga variants io ih =>
    simp only [phaseAType, typeTopRefs, PBTypeDef.get_generics]
    exact filterMap_variant_map (checkIfGlobalReference ga) variants

theorem cigr_tame : ∀ (n : Nat) (ga : List String),
    (∀ r, refSize r ≤ n → inputRefOKb ga r = true →
      tameRef (checkIfGlobalReference ga r) = true) ∧
    (∀ rs, refsSize rs ≤ n → inputRefsOKb ga rs = true →
      tameRefs (checkIfGlobalReferenceList ga rs) = true) := by
  intro n
  induction n with
  | zero =>
    intro ga
    constructor
    · intro r hsz
      exfalso
      cases r with
      | mk name gens rl ih ig => simp [refSize] at hsz
    · intro rs hsz _
      cases rs with
      | nil => rfl
      | cons r rs => simp [refsSize] at hsz
  | succ n ihn =>
    intro ga
    obtain ⟨ihr, ihl⟩ := ihn ga
    constructor
    · intro r hsz hin
      cases r with
      | mk name gens rl ih ig =>
        simp only [inputRefOKb, Bool.and_eq_true] at hin
        simp only [checkIfGlobalReference, tameRef, Bool.not_not]
        have hgens : tameRefs (checkIfGlobalReferenceList ga gens) = true :=
          ihl gens (by simp only [refSize] at hsz; omega) hin.2
        rw [Bool.and_eq_true]
        refine ⟨?_, hgens⟩
        by_cases hc : (ga.contains name || name == "Void") = true
        · have hdone := hin.1
          rw [if_pos hc] at hdone
          have hnil : gens = [] := by
            cases gens with
            | nil => rfl
            | cons g gs => simp [List.isEmpty] at hdone
          subst hnil
          simp [hc, checkIfGlobalReferenceList]
        · have hc2 : (ga.contains name || name == "Void") = false :=
            eq_false_of_ne_true hc
          rw [hc2]
          simp
    · intro rs hsz hin
      cases rs with
      | nil => rfl
      | cons r rs =>
        simp only [inputRefsOKb, Bool.and_eq_true] at hin
        simp only [checkIfGlobalReferenceList, tameRefs, Bool.and_eq_true]
        exact ⟨ihr r (by simp only [refsSize] at hsz; omega) hin.1,
          ihl rs (by simp only [refsSize] at hsz; omega) hin.2⟩

theorem cmdInput_tame : ∀ (n : Nat),
    (∀ r, refSize r ≤ n → cmdInputRefOKb r = true → tameRef r = true) ∧
    (∀ rs, refsSize rs ≤ n → cmdInputRefsOKb rs = true →
      tameRefs rs = true) := by
  intro n
  induction n with
  | zero =>
    constructor
    · intro r hsz
      exfalso
      cases r with
      | mk name gens rl ih ig => simp [refSize] at hsz
    · intro rs hsz _
      cases rs with
      | nil => rfl
      | cons r rs => simp [refsSize] at hsz
  | succ n ihn =>
    obtain ⟨ihr, ihl⟩ := ihn
    constructor
    · intro r hsz hin
      cases r with
      | mk name gens rl ih ig =>
        simp only [cmdInputRefOKb, Bool.and_eq_true] at hin
        obtain ⟨⟨hig, hv⟩, hgens⟩ := hin
        subst hig
        simp only [tameRef, Bool.not_true, Bool.false_or, Bool.and_eq_true]
        refine ⟨?_, ihl gens (by simp only [refSize] at hsz; omega) hgens⟩
        by_cases hc : (name == "Void") = true
        · rw [hc] at hv ⊢
          rw [if_pos rfl] at hv ⊢
          exact hv
        · have hc2 : (name == "Void") = false := eq_false_of_ne_true hc
          simp [hc2]
    · intro rs hsz hin
      cases rs with
      | nil => rfl
      | cons r rs =>
        simp only [cmdInputRefsOKb, Bool.and_eq_true] at hin
        simp only [tameRefs, Bool.and_eq_true]
        exact ⟨ihr r (by simp only [refsSize] at hsz; omega) hin.1,
          ihl rs (by simp only [refsSize] at hsz; omega) hin.2⟩

end Punybuf
namespace Punybuf

theorem forall2_imp_mem {α β : Type} {P Q : α → β → Prop} :
    ∀ {l : List α} {l' : List β}, List.Forall₂ P l l' →
      (∀ x ∈ l, ∀ y, P x y → Q x y) → List.Forall₂ Q l l' := by
  intro l l' h
  induction h with
  | nil => intro _; exact List.Forall₂.nil
  | cons hp hrest ih =>
    intro himp
    exact List.Forall₂.cons (himp _ (by simp) _ hp)
      (ih (fun x hx y hp2 => himp x (by simp [hx]) y hp2))

theorem forall2_refl_of {α : Type} {P : α → α → Prop} (hP : ∀ x, P x x) :
    ∀ (l : List α), List.Forall₂ P l l := by
  intro l
  induction l with
  | nil => exact List.Forall₂.nil
  | cons x xs ih => exact List.Forall₂.cons (hP x) ih

theorem resolveReferences_post (gas : Nat) (sra : Bool)
    (d d' : PunybufDefinition) (hdisj : crossKindDisjointb d = true)
    (hdt : defTame d = true)
    (hargs : ∀ c ∈ d.commands, cmdArgOKb c = true)
    (h : resolveReferences gas sra d = .ok d') :
    defRefsOKb d' = true := by
  simp only [resolveReferences] at h
  split at h
  · cases h
  · rename_i tress htres
    split at h
    · cases h
    · rename_i newTypes hzipT
      split at h
      · cases h
      · rename_i cress hcres
        split at h
        · cases h
        · rename_i newCommands hzipC
          cases h
          have hdtT : ∀ tp ∈ d.types, (typeTopRefs tp).all tameRef = true :=
            fun tp htp => defTame_type d tp hdt htp
          have hdtC : ∀ c ∈ d.commands, (cmdTopRefs c).all tameRef = true :=
            fun c hc => defTame_cmd d c hdt hc
          have F2rtd := resolveTypesList_post gas sra d hdisj hdt d.types
            tress hdtT htres
          have F2rtd2 : List.Forall₂ (fun tp res => rtdOKb d tp res = true ∧
              (typeTopRefs tp).all tameRef = true) d.types tress :=
            forall2_imp_mem F2rtd
              (fun tp htp res hok => ⟨hok, hdtT tp htp⟩)
          have F2T : List.Forall₂ (fun tp tp' =>
              tp'.get_name = tp.get_name ∧ tp'.get_layer = tp.get_layer ∧
              ∀ r ∈ typeTopRefs tp',
                refTreeOKb d tp.get_layer r = true ∧ tameRef r = true)
              d.types newTypes :=
            zipApply_forall2 applyOneType _ _
              (fun tp res tp' hP happ =>
                applyOneType_post d tp res tp' hP.2 hP.1 happ)
              d.types tress newTypes F2rtd2 hzipT
          have hlay3 : ∀ name,
              layersOf { d with types := newTypes } name = layersOf d name := by
            intro name
            exact layersOf_congr d { d with types := newTypes }
              (forall2_imp_mem F2T
                (fun tp _ tp' hrel => ⟨hrel.1, hrel.2.1⟩))
              (forall2_refl_of (fun c => ⟨rfl, rfl⟩) d.commands) name
          have hdisj3 : crossKindDisjointb { d with types := newTypes } =
              true := by
            have hdisj2 : ∀ tp0 ∈ d.types, ∀ c0 ∈ d.commands,
                ¬ c0.name = tp0.get_name := by
              simpa [crossKindDisjointb] using hdisj
            simp only [crossKindDisjointb, List.all_eq_true]
            intro tp' htp'
            obtain ⟨tp, htp, hrel⟩ := forall2_mem_right F2T tp' htp'
            simp only [Bool.not_eq_true', List.any_eq_false]
            intro c hc
            rw [hrel.1]
            exact fun hbeq =>
              hdisj2 tp htp c hc (beq_iff_eq.mp hbeq)
          have hdt3 : defTame { d with types := newTypes } = true := by
            simp only [defTame, Bool.and_eq_true, List.all_eq_true]
            constructor
            · intro tp' htp'
              obtain ⟨tp, htp, hrel⟩ := forall2_mem_right F2T tp' htp'
              exact fun r hr => (hrel.2.2 r hr).2
            · intro c hc
              exact List.all_eq_true.mp (hdtC c hc)
          have F2rc := resolveCommandsList_post gas sra
            { d with types := newTypes } hdisj3 hdt3 d.commands cress
            hdtC hcres
          have F2rc2 : List.Forall₂ (fun cmd res =>
              rcOKb { d with types := newTypes } cmd res = true ∧
              (cmdTopRefs cmd).all tameRef = true ∧
              cmdArgOKb cmd = true) d.commands cress :=
            forall2_imp_mem F2rc
              (fun c hc res hok => ⟨hok, hdtC c hc, hargs c hc⟩)
          have F2C : List.Forall₂ (fun c c' =>
              c'.name = c.name ∧ c'.layer = c.layer ∧
              ∀ r ∈ cmdTopRefs c',
                refTreeOKb { d with types := newTypes } c.layer r = true)
              d.commands newCommands :=
            zipApply_forall2 applyOneCommand _ _
              (fun c res c' hP happ =>
                ⟨(applyOneCommand_keeps c res c' happ).1,
                 (applyOneCommand_keeps c res c' happ).2.1,
                 applyOneCommand_refs { d with types := newTypes } c res c'
                   hP.2.1 hP.1 hP.2.2 happ⟩)
              d.commands cress newCommands F2rc2 hzipC
          have hlayF : ∀ name,
              layersOf { d with types := newTypes, commands := newCommands }
                name = layersOf d name := by
            intro name
            exact layersOf_congr d _
              (forall2_imp_mem F2T
                (fun tp _ tp' hrel => ⟨hrel.1, hrel.2.1⟩))
              (forall2_imp_mem F2C
                (fun c _ c' hrel => ⟨hrel.1, hrel.2.1⟩)) name
          have hlayF3 : ∀ name,
              layersOf { d with types := newTypes, commands := newCommands }
                name = layersOf { d with types := newTypes } name := by
            intro name
            rw [hlayF name, hlay3 name]
          simp only [defRefsOKb, Bool.and_eq_true, List.all_eq_true]
          constructor
          · intro tp' htp'
            obtain ⟨tp, htp, hrel⟩ := forall2_mem_right F2T tp' htp'
            intro r hr
            rw [(refTree_congr (refSize r) d
              { d with types := newTypes, commands := newCommands }
              hlayF tp'.get_layer).1 r (Nat.le_refl _)]
            rw [hrel.2.1]
            exact (hrel.2.2 r hr).1
          · intro c' hc'
            obtain ⟨c, hc, hrel⟩ := forall2_mem_right F2C c' hc'
            intro r hr
            rw [(refTree_congr (refSize r) { d with types := newTypes }
              { d with types := newTypes, commands := newCommands }
              hlayF3 c'.layer).1 r (Nat.le_refl _)]
            rw [hrel.2.1]
            exact hrel.2.2 r hr

/-- C1: running the layer resolver on a flattened, validated definition —
one whose type and command names are disjoint and whose references have the
validated input shape (in particular no command takes a `Void` reference as
its argument, which the validator rejects) — produces a definition in which
every global,
non-`Void` reference (in alias targets, struct fields and flags, enum
variants, command arguments, returns and errors, and recursively in generic
arguments) carries `resolved_layer = some L` for `L` the greatest layer
`≤` the owning declaration's layer at which the referenced name is
declared, and `is_highest_layer = true` exactly when `L` is the greatest
layer at which that name is declared anywhere in the definition. -/
theorem c1_resolved_references (gas : Nat) (sra : Bool)
    (d d' : PunybufDefinition) (hdisj : crossKindDisjointb d = true)
    (hwf : inputWFb d = true)
    (h : LayerResolver.resolve gas sra d = .ok d') :
    defRefsOKb d' = true := by
  simp only [inputWFb, Bool.and_eq_true, List.all_eq_true] at hwf
  simp only [LayerResolver.resolve] at h
  split at h
  · cases h
  · rename_i deps2 d2 heq
    have hdisj1 : crossKindDisjointb
        { d with types := d.types.map phaseAType } = true := by
      have hdisj2 : ∀ tp0 ∈ d.types, ∀ c0 ∈ d.commands,
          ¬ c0.name = tp0.get_name := by
        simpa [crossKindDisjointb] using hdisj
      simp only [crossKindDisjointb, List.all_eq_true]
      intro tp' htp'
      obtain ⟨tp, htp, rfl⟩ := List.mem_map.mp htp'
      simp only [Bool.not_eq_true', List.any_eq_false]
      intro c hc
      rw [phaseAType_name]
      exact fun hbeq => hdisj2 tp htp c hc (beq_iff_eq.mp hbeq)
    have hdt1 : defTame { d with types := d.types.map phaseAType } = true := by
      simp only [defTame, Bool.and_eq_true, List.all_eq_true]
      constructor
      · intro tp' htp'
        obtain ⟨tp, htp, rfl⟩ := List.mem_map.mp htp'
        rw [typeTopRefs_phaseA]
        intro r hr
        obtain ⟨r0, hr0, rfl⟩ := List.mem_map.mp hr
        have hin := hwf.1.1 tp htp r0 hr0
        exact (cigr_tame (refSize r0) tp.get_generics).1 r0
          (Nat.le_refl _) hin
      · intro c hc
        intro r hr
        have hin := hwf.1.2 c hc r hr
        exact (cmdInput_tame (refSize r)).1 r (Nat.le_refl _) hin
    obtain ⟨hdisj2, hdt2⟩ := closureLoop_pres gas _ _ 0 deps2 d2 heq
      hdisj1 hdt1
    have hargs2 : ∀ c ∈ d2.commands, cmdArgOKb c = true :=
      closureLoop_argOK gas _ _ 0 deps2 d2 heq (fun c hc => hwf.2 c hc)
    exact resolveReferences_post gas sra d2 d' hdisj2 hdt2 hargs2 h

set_option maxRecDepth 20000 in
/-- Witness for C1 at the two-layer `A`/`B` schema together with the
`U8`/`U16` builtins. -/
theorem c1_resolved_references_witness :
    crossKindDisjointb c2Def = true ∧ inputWFb c2Def = true ∧
    LayerResolver.resolve 100 true c2Def = .ok c2Resolved ∧
    defRefsOKb c2Resolved = true :=
  ⟨rfl, rfl, rfl,
   c1_resolved_references 100 true c2Def c2Resolved rfl rfl rfl⟩

end Punybuf
